import Mathlib

/-!
Verification of the couchbase/rhmap `store` package (Robin-Hood hashmap
`RHStore`, chunked byte arena `Chunks`, spillable min-heap `Heap`)
against its natural-language specification.

The Go sources are shallowly embedded: byte strings are `List Nat`,
Go `uint64` words are `Nat` (with explicit `% 2^64` where Go wraps),
Go `int` counters that can go negative are `Int`, and fallible or
possibly non-terminating code is fueled, returning `Option`/error data.
-/

set_option maxHeartbeats 1000000

namespace RHStoreModel

/-! ## Slot bit layout (rhstore.go: Item, masks, Encode, Distance, ...)

An item uses 3 contiguous uint64 slots:
  word 0: keyOffset, word 1: valOffset,
  word 2: [14-bit distance][25-bit valSize][25-bit keySize].
A `Slot` is that triple of words. -/

abbrev Slot := Nat × Nat × Nat

def ItemLen : Nat := 3

def MaxKeyLen : Nat := (1 <<< 25) - 1

def MaxValLen : Nat := (1 <<< 25) - 1

def ShiftValSize : Nat := 25

def ShiftDistance : Nat := 50

def MaskKeySize : Nat := 0x0000000001FFFFFF

def MaskValSize : Nat := 0x0003FFFFFE000000

def MaskDistance : Nat := 0xFFFC000000000000

/-- Item.KeyOffsetSize, offset component (word 0). -/
def keyOffsetOf (s : Slot) : Nat := s.1

/-- Item.KeyOffsetSize, size component: `item[2] & MaskKeySize`. -/
def keySizeOf (s : Slot) : Nat := s.2.2 &&& MaskKeySize

/-- Item.ValOffsetSize, offset component (word 1). -/
def valOffsetOf (s : Slot) : Nat := s.2.1

/-- Item.ValOffsetSize, size component: `(item[2] & MaskValSize) >> ShiftValSize`. -/
def valSizeOf (s : Slot) : Nat := (s.2.2 &&& MaskValSize) >>> ShiftValSize

/-- Item.Distance: `(item[2] & MaskDistance) >> ShiftDistance`. -/
def distanceOf (s : Slot) : Nat := (s.2.2 &&& MaskDistance) >>> ShiftDistance

/-- Go conversion `uint64(x)` of an `int` value: two's complement, i.e. mod 2^64. -/
def uint64OfInt (x : Int) : Nat := (x % (2 ^ 64 : Int)).toNat

/-- Item.Encode: packs offsets, sizes and distance into the 3 words. -/
def encodeItem (kOff kSz vOff vSz d : Nat) : Slot :=
  (kOff, vOff,
    (MaskDistance &&& (d <<< ShiftDistance)) |||
    (MaskValSize &&& (vSz <<< ShiftValSize)) |||
    (MaskKeySize &&& kSz))

/-- Item.DistanceAdd: re-packs word 2 with distance `uint64(int(Distance())+x)`. -/
def distanceAdd (s : Slot) (x : Int) : Slot :=
  (s.1, s.2.1,
    (s.2.2 &&& (MaskValSize ||| MaskKeySize)) |||
    (MaskDistance &&& (uint64OfInt ((distanceOf s : Int) + x) <<< ShiftDistance)))

/-! ### Bit-layout bridge lemmas -/

theorem mask_key_eq : MaskKeySize = 2 ^ 25 - 1 := by decide

theorem mask_val_eq : MaskValSize = (2 ^ 25 - 1) * 2 ^ 25 := by decide

theorem mask_dist_eq : MaskDistance = (2 ^ 14 - 1) * 2 ^ 50 := by decide

theorem nat_and_comm (a b : Nat) : a &&& b = b &&& a := by
  apply Nat.eq_of_testBit_eq
  intro i
  simp [Nat.testBit_and, Bool.and_comm]

/-- Distributing a right shift over an and with a shifted mask. -/
theorem mask_and_shiftRight (m k x : Nat) :
    ((m * 2 ^ k) &&& x) >>> k = (x >>> k) &&& m := by
  apply Nat.eq_of_testBit_eq
  intro i
  have hm : m * 2 ^ k = m <<< k := by rw [Nat.shiftLeft_eq]
  rw [hm]
  simp only [Nat.testBit_shiftRight, Nat.testBit_and, Nat.testBit_shiftLeft]
  have h : k ≤ k + i := Nat.le_add_right k i
  simp [h, Nat.add_sub_cancel_left, Bool.and_comm]

/-- An and with a low mask `2^k - 1` is a mod. -/
theorem and_low_mask (x k : Nat) : x &&& (2 ^ k - 1) = x % 2 ^ k :=
  Nat.and_pow_two_sub_one_eq_mod x k

/-- A masked shifted value: `(m*2^k) &&& (d <<< k) = (m &&& d) * 2^k`. -/
theorem shifted_and_shifted (m d k : Nat) :
    (m * 2 ^ k) &&& (d <<< k) = (m &&& d) * 2 ^ k := by
  apply Nat.eq_of_testBit_eq
  intro i
  have hm : m * 2 ^ k = m <<< k := by rw [Nat.shiftLeft_eq]
  have hmd : (m &&& d) * 2 ^ k = (m &&& d) <<< k := by rw [Nat.shiftLeft_eq]
  rw [hm, hmd]
  simp only [Nat.testBit_and, Nat.testBit_shiftLeft]
  cases Nat.decLe k i with
  | isTrue h => simp [h]
  | isFalse h => simp [h]

/-- Normal form of the key size field: low 25 bits of word 2. -/
theorem keySizeOf_eq (s : Slot) : keySizeOf s = s.2.2 % 2 ^ 25 := by
  unfold keySizeOf
  rw [mask_key_eq, and_low_mask]

/-- Normal form of the val size field: bits 25..49 of word 2. -/
theorem valSizeOf_eq (s : Slot) : valSizeOf s = s.2.2 / 2 ^ 25 % 2 ^ 25 := by
  unfold valSizeOf
  simp only [ShiftValSize]
  rw [mask_val_eq, nat_and_comm, mask_and_shiftRight, and_low_mask,
    Nat.shiftRight_eq_div_pow]

/-- Normal form of the distance field: bits 50..63 of word 2. -/
theorem distanceOf_eq (s : Slot) : distanceOf s = s.2.2 / 2 ^ 50 % 2 ^ 14 := by
  unfold distanceOf
  simp only [ShiftDistance]
  rw [mask_dist_eq, nat_and_comm, mask_and_shiftRight, and_low_mask,
    Nat.shiftRight_eq_div_pow]

/-- The packed word 2 produced by Encode, in arithmetic normal form. -/
theorem encodeItem_w2 (kOff kSz vOff vSz d : Nat) :
    (encodeItem kOff kSz vOff vSz d).2.2 =
      2 ^ 50 * (d % 2 ^ 14) + (2 ^ 25 * (vSz % 2 ^ 25) + kSz % 2 ^ 25) := by
  show (MaskDistance &&& (d <<< ShiftDistance)) |||
      (MaskValSize &&& (vSz <<< ShiftValSize)) ||| (MaskKeySize &&& kSz) = _
  have hd : MaskDistance &&& (d <<< ShiftDistance) = 2 ^ 50 * (d % 2 ^ 14) := by
    rw [mask_dist_eq]
    show ((2 ^ 14 - 1) * 2 ^ 50) &&& (d <<< 50) = _
    rw [shifted_and_shifted, nat_and_comm, and_low_mask, Nat.mul_comm]
  have hv : MaskValSize &&& (vSz <<< ShiftValSize) = 2 ^ 25 * (vSz % 2 ^ 25) := by
    rw [mask_val_eq]
    show ((2 ^ 25 - 1) * 2 ^ 25) &&& (vSz <<< 25) = _
    rw [shifted_and_shifted, nat_and_comm, and_low_mask, Nat.mul_comm]
  have hk : MaskKeySize &&& kSz = kSz % 2 ^ 25 := by
    rw [mask_key_eq, nat_and_comm, and_low_mask]
  rw [hd, hv, hk, Nat.or_assoc]
  have h1 : 2 ^ 25 * (vSz % 2 ^ 25) ||| kSz % 2 ^ 25
      = 2 ^ 25 * (vSz % 2 ^ 25) + kSz % 2 ^ 25 :=
    (Nat.mul_add_lt_is_or (Nat.mod_lt _ (by norm_num)) _).symm
  rw [h1]
  refine (Nat.mul_add_lt_is_or ?_ _).symm
  have hv2 : 2 ^ 25 * (vSz % 2 ^ 25) ≤ 2 ^ 25 * (2 ^ 25 - 1) :=
    Nat.mul_le_mul_left _ (Nat.le_sub_one_of_lt (Nat.mod_lt _ (by norm_num)))
  have hk2 : kSz % 2 ^ 25 < 2 ^ 25 := Nat.mod_lt _ (by norm_num)
  omega

theorem keyOffsetOf_encode (kOff kSz vOff vSz d : Nat) :
    keyOffsetOf (encodeItem kOff kSz vOff vSz d) = kOff := rfl

theorem valOffsetOf_encode (kOff kSz vOff vSz d : Nat) :
    valOffsetOf (encodeItem kOff kSz vOff vSz d) = vOff := rfl

theorem keySizeOf_encode (kOff kSz vOff vSz d : Nat) :
    keySizeOf (encodeItem kOff kSz vOff vSz d) = kSz % 2 ^ 25 := by
  rw [keySizeOf_eq, encodeItem_w2]
  omega

theorem valSizeOf_encode (kOff kSz vOff vSz d : Nat) :
    valSizeOf (encodeItem kOff kSz vOff vSz d) = vSz % 2 ^ 25 := by
  rw [valSizeOf_eq, encodeItem_w2]
  omega

theorem distanceOf_encode (kOff kSz vOff vSz d : Nat) :
    distanceOf (encodeItem kOff kSz vOff vSz d) = d % 2 ^ 14 := by
  rw [distanceOf_eq, encodeItem_w2]
  omega

/-- The word 2 produced by DistanceAdd, in arithmetic normal form. -/
theorem distanceAdd_w2 (s : Slot) (x : Int) :
    (distanceAdd s x).2.2 =
      2 ^ 50 * (uint64OfInt ((distanceOf s : Int) + x) % 2 ^ 14) + s.2.2 % 2 ^ 50 := by
  show (s.2.2 &&& (MaskValSize ||| MaskKeySize)) |||
      (MaskDistance &&& (uint64OfInt ((distanceOf s : Int) + x) <<< ShiftDistance)) = _
  have hmm : MaskValSize ||| MaskKeySize = 2 ^ 50 - 1 := by decide
  have hd : MaskDistance &&& (uint64OfInt ((distanceOf s : Int) + x) <<< ShiftDistance)
      = 2 ^ 50 * (uint64OfInt ((distanceOf s : Int) + x) % 2 ^ 14) := by
    rw [mask_dist_eq]
    show ((2 ^ 14 - 1) * 2 ^ 50) &&& (_ <<< 50) = _
    rw [shifted_and_shifted, nat_and_comm, and_low_mask, Nat.mul_comm]
  rw [hmm, and_low_mask, hd, Nat.or_comm]
  exact (Nat.mul_add_lt_is_or (Nat.mod_lt _ (by norm_num)) _).symm

theorem keyOffsetOf_distanceAdd (s : Slot) (x : Int) :
    keyOffsetOf (distanceAdd s x) = keyOffsetOf s := rfl

theorem valOffsetOf_distanceAdd (s : Slot) (x : Int) :
    valOffsetOf (distanceAdd s x) = valOffsetOf s := rfl

theorem keySizeOf_distanceAdd (s : Slot) (x : Int) :
    keySizeOf (distanceAdd s x) = keySizeOf s := by
  rw [keySizeOf_eq, keySizeOf_eq, distanceAdd_w2]
  omega

theorem valSizeOf_distanceAdd (s : Slot) (x : Int) :
    valSizeOf (distanceAdd s x) = valSizeOf s := by
  rw [valSizeOf_eq, valSizeOf_eq, distanceAdd_w2]
  omega

theorem distanceOf_distanceAdd (s : Slot) (x : Int) :
    distanceOf (distanceAdd s x) = uint64OfInt ((distanceOf s : Int) + x) % 2 ^ 14 := by
  conv =>
    lhs
    rw [distanceOf_eq, distanceAdd_w2]
  omega

/-- The distance field always fits in 14 bits. -/
theorem distanceOf_lt (s : Slot) : distanceOf s < 2 ^ 14 := by
  rw [distanceOf_eq]
  exact Nat.mod_lt _ (by norm_num)

/-- The key size field always fits in 25 bits. -/
theorem keySizeOf_lt (s : Slot) : keySizeOf s < 2 ^ 25 := by
  rw [keySizeOf_eq]
  exact Nat.mod_lt _ (by norm_num)

/-- The val size field always fits in 25 bits. -/
theorem valSizeOf_lt (s : Slot) : valSizeOf s < 2 ^ 25 := by
  rw [valSizeOf_eq]
  exact Nat.mod_lt _ (by norm_num)

theorem uint64OfInt_ofNat (n : Nat) (h : n < 2 ^ 64) : uint64OfInt (n : Int) = n := by
  unfold uint64OfInt
  rw [Int.emod_eq_of_lt (by positivity) (by exact_mod_cast h)]
  simp

/-- DistanceAdd by one, when the incremented distance still fits in 14 bits. -/
theorem distanceOf_distanceAdd_one (s : Slot) (h : distanceOf s + 1 < 2 ^ 14) :
    distanceOf (distanceAdd s 1) = distanceOf s + 1 := by
  rw [distanceOf_distanceAdd]
  have h1 : ((distanceOf s : Int) + 1) = ((distanceOf s + 1 : Nat) : Int) := by push_cast; ring
  rw [h1, uint64OfInt_ofNat _ (by omega)]
  exact Nat.mod_eq_of_lt h

/-- DistanceAdd by minus one, when the distance is positive. -/
theorem distanceOf_distanceAdd_neg_one (s : Slot) (h : 0 < distanceOf s) :
    distanceOf (distanceAdd s (-1)) = distanceOf s - 1 := by
  rw [distanceOf_distanceAdd]
  have h1 : ((distanceOf s : Int) + (-1)) = ((distanceOf s - 1 : Nat) : Int) := by
    have := h
    omega
  rw [h1, uint64OfInt_ofNat _ (by have := distanceOf_lt s; omega)]
  exact Nat.mod_eq_of_lt (by have := distanceOf_lt s; omega)

theorem keySizeOf_zero : keySizeOf (0, 0, 0) = 0 := by decide

/-! ## RHStore state and default byte hooks (rhstore.go)

The embedding covers the default in-memory configuration produced by
`NewRHStore`: the default `BytesTruncate`/`BytesAppend`/`BytesRead`
hooks over the `Bytes` slice, the default `Grow`, and the default
`Growth` factor of 2.0 (exact as `int(float64(size)*2.0) = 2*size`
for any realizable size).  The overridable `HashFunc` is kept as a
field; Go's `HashFunc` returns `uint32`, modelled by reducing the
field's result mod `2^32`.  `Temp` is omitted: it is scratch space
that no operation reads across calls. -/

structure RHStore where
  slots : List Nat
  size : Nat
  bytes : List Nat
  count : Int
  hashFunc : List Nat → Nat
  maxDistance : Nat

/-- Reading `bs[off : off+sz]`; in-range reads (the only ones reachable
through the store's invariant) match Go exactly, while an out-of-range
read -- a panic in Go -- yields a truncated list. -/
def readBytesAt (bs : List Nat) (off sz : Nat) : List Nat := (bs.drop off).take sz

/-- Default BytesRead hook. -/
def bytesRead (m : RHStore) (off sz : Nat) : List Nat := readBytesAt m.bytes off sz

/-- Default BytesAppend hook: returns the store, offset and size. -/
def bytesAppend (m : RHStore) (b : List Nat) : RHStore × Nat × Nat :=
  ({ m with bytes := m.bytes ++ b }, m.bytes.length, b.length)

/-- Default BytesTruncate hook: `m.Bytes = m.Bytes[0:n]`. -/
def bytesTruncate (m : RHStore) (n : Nat) : RHStore := { m with bytes := m.bytes.take n }

/-- RHStore.Item(idx): the 3 words of slot `idx`. -/
def readItem (m : RHStore) (i : Nat) : Slot :=
  (m.slots.getD (3 * i) 0, m.slots.getD (3 * i + 1) 0, m.slots.getD (3 * i + 2) 0)

/-- Writing the 3 words of slot `i` (Go mutates the slot slice in place). -/
def writeItem (m : RHStore) (i : Nat) (s : Slot) : RHStore :=
  { m with slots := ((m.slots.set (3 * i) s.1).set (3 * i + 1) s.2.1).set (3 * i + 2) s.2.2 }

/-- RHStore.ItemKey: read the key bytes referenced by an item. -/
def itemKeyBytes (m : RHStore) (s : Slot) : List Nat :=
  bytesRead m (keyOffsetOf s) (keySizeOf s)

/-- RHStore.ItemVal: read the val bytes referenced by an item. -/
def itemValBytes (m : RHStore) (s : Slot) : List Nat :=
  bytesRead m (valOffsetOf s) (valSizeOf s)

/-- Go `int(m.HashFunc(k) % uint32(m.Size))`.  `HashFunc` returns
`uint32`, hence the `% 2^32` on the field's value; `uint32(m.Size)`
truncates the size to 32 bits.  (When `size % 2^32 = 0` with
`size > 0`, i.e. a table of at least `2^32` slots, Go panics with a
division by zero; the model then yields `hash % 2^32`, which is
still a valid index.) -/
def home (m : RHStore) (k : List Nat) : Nat :=
  (m.hashFunc k % 2 ^ 32) % (m.size % 2 ^ 32)

/-- The wrap-around step `idx++; if idx >= m.Size { idx = 0 }`. -/
def nextIdx (sz i : Nat) : Nat := if sz ≤ i + 1 then 0 else i + 1

/-- NewRHStore with the caller's size, modulo the overridable hash
function (fnv-1a 32 by default) kept as a parameter; MaxDistance
defaults to 10, slots to `size*ItemLen` zero words, Bytes to nil. -/
def newRHStore (sz : Nat) (h : List Nat → Nat) : RHStore :=
  { slots := List.replicate (sz * ItemLen) 0
    size := sz
    bytes := []
    count := 0
    hashFunc := h
    maxDistance := 10 }

/-- RHStore.Reset: zero the slot words, zero the count, truncate the bytes. -/
def reset (m : RHStore) : RHStore :=
  bytesTruncate { m with slots := List.replicate m.slots.length 0, count := 0 } 0

/-! ### Get (rhstore.go Get)

The probe loop visits at most `size` slots: Go exits with not-found
when `idx` wraps around to `idxStart`, which happens after exactly
`size` iterations; the loop is therefore embedded with an explicit
iteration budget of `m.size`. -/

def getGo (m : RHStore) (k : List Nat) : Nat → Nat → Option (List Nat)
  | _, 0 => none
  | idx, rem + 1 =>
    let e := readItem m idx
    let itemKey := itemKeyBytes m e
    if itemKey.length = 0 then none
    else if itemKey = k then some (itemValBytes m e)
    else getGo m k (nextIdx m.size idx) rem

/-- RHStore.Get: returns `some v` for `(v, found=true)`, `none` for not found. -/
def get (m : RHStore) (k : List Nat) : Option (List Nat) :=
  if k.length = 0 then none
  else getGo m k (home m k) m.size

/-! ### Errors returned by Set/Del -/

inductive GoErr where
  | keyZeroLen
  | keyTooBig
  | valTooBig
deriving DecidableEq, Repr

/-! ### Del (rhstore.go Del)

The find loop is bounded by `size` like Get.  The left-shift loop has
no such intrinsic bound (its exit conditions are an empty or
distance-zero successor, or `size = 1`), so it takes explicit fuel. -/

/-- The find phase of Del: locate the slot whose key equals `k`.
Returns the slot index and the previous value, or `none` when the walk
hits an empty slot or wraps around. -/
def delFind (m : RHStore) (k : List Nat) : Nat → Nat → Option (Nat × List Nat)
  | _, 0 => none
  | idx, rem + 1 =>
    let e := readItem m idx
    let itemKey := itemKeyBytes m e
    if itemKey.length = 0 then none
    else if itemKey = k then some (idx, itemValBytes m e)
    else delFind m k (nextIdx m.size idx) rem

/-- The left-shift phase of Del, starting at the emptied slot `idx`:
copy each shiftable successor one slot back with its distance
decremented in place, stopping before an empty or distance-zero item.
Returns the state and the slot left to be zeroed. -/
def delShift (fuel : Nat) (m : RHStore) (idx : Nat) : Option (RHStore × Nat) :=
  match fuel with
  | 0 => none
  | fuel + 1 =>
    let nxt := nextIdx m.size idx
    if nxt = idx then some (m, idx)
    else
      let maybeShift := readItem m nxt
      let maybeShiftKey := itemKeyBytes m maybeShift
      if maybeShiftKey.length = 0 ∨ distanceOf maybeShift = 0 then some (m, idx)
      else
        let shifted := distanceAdd maybeShift (-1)
        let m1 := writeItem m nxt shifted
        let m2 := writeItem m1 idx shifted
        delShift fuel m2 nxt

/-- RHStore.Del.  Result: `(store, previous value, existed, error)`. -/
def del (fuel : Nat) (m : RHStore) (k : List Nat) :
    Option (RHStore × Option (List Nat) × Bool × Option GoErr) :=
  if k.length = 0 then some (m, none, false, some GoErr.keyZeroLen)
  else
    match delFind m k (home m k) m.size with
    | none => some (m, none, false, none)
    | some (idx, prev) =>
      match delShift fuel m idx with
      | none => none
      | some (m1, last) =>
        some ({ writeItem m1 last (0, 0, 0) with count := m1.count - 1 },
          some prev, true, none)

/-! ### Visit / VisitOffsets (rhstore.go) -/

/-- RHStore.Visit with a callback that records each visited slot:
the list of `(index, key, val)` in slot order. -/
def visitSeq (m : RHStore) : List (Nat × List Nat × List Nat) :=
  (List.range m.size).filterMap (fun i =>
    let e := readItem m i
    let itemKey := itemKeyBytes m e
    if itemKey.length ≠ 0 then some (i, itemKey, itemValBytes m e) else none)

/-- RHStore.VisitOffsets with a recording callback: the list of
`(index, kOffset, kSize, vOffset, vSize)` in slot order.  Note the
guard from the source: `kOffset != 0 && kSize != 0`. -/
def visitOffsetsSeq (m : RHStore) : List (Nat × Nat × Nat × Nat × Nat) :=
  (List.range m.size).filterMap (fun i =>
    let e := readItem m i
    if keyOffsetOf e ≠ 0 ∧ keySizeOf e ≠ 0 then
      some (i, keyOffsetOf e, keySizeOf e, valOffsetOf e, valSizeOf e)
    else none)

/-- The key/val pairs passed to the callback by Visit (used by CopyTo). -/
def visitPairs (m : RHStore) : List (List Nat × List Nat) :=
  (visitSeq m).map Prod.snd

/-- The fresh store built by the default Grow before CopyTo runs:
`NewRHStore(newSize)` with the hash function, max distance and hooks
carried over. -/
def growTarget (m : RHStore) (newSize : Nat) : RHStore :=
  { newRHStore newSize m.hashFunc with maxDistance := m.maxDistance }

/-! ### Set / SetOffsets / default Grow (rhstore.go)

`Set`, `SetOffsets`, its probe loop, and the default `Grow` (which
re-inserts every live item through `CopyTo`, i.e. through `Set`) are
mutually recursive; on a pathological hash function the recursion can
fail to terminate (Go would loop or grow forever).  They are embedded
as one fueled interpreter `exec` over a defunctionalized call type:
every nested call runs on decremented fuel, and `none` means the fuel
ran out.  The arms mirror the Go functions line by line:
  - `.set m k v`: RHStore.Set,
  - `.setOffsets m kOff kSz vOff vSz`: RHStore.SetOffsets up to its loop,
  - `.probe m inc idx idxStart`: one SetOffsets loop iteration,
    with `inc` the in-flight `incoming` item (Go keeps it in `m.Temp`),
  - `.copyRun items g`: CopyTo's Visit callback, setting each
    key/val pair of the source into the destination `g`.
The result triple is `(store, wasNew, error)`; `.copyRun` returns the
destination with a dummy `wasNew`. -/

inductive Call where
  | set (m : RHStore) (k v : List Nat)
  | setOffsets (m : RHStore) (kOff kSz vOff vSz : Nat)
  | probe (m : RHStore) (inc : Slot) (idx idxStart : Nat)
  | copyRun (items : List (List Nat × List Nat)) (g : RHStore)

abbrev SRes := RHStore × Bool × Option GoErr

def exec : Nat → Call → Option SRes
  | 0, _ => none
  | fuel + 1, c =>
    match c with
    | .set m k v =>
      if k.length = 0 then some (m, false, some GoErr.keyZeroLen)
      else if MaxKeyLen < k.length then some (m, false, some GoErr.keyTooBig)
      else if MaxValLen < v.length then some (m, false, some GoErr.valTooBig)
      else
        -- BytesAppend(v) before BytesAppend(k), as in the source.
        let av := bytesAppend m v
        let ak := bytesAppend av.1 k
        match exec fuel (.setOffsets ak.1 ak.2.1 k.length av.2.1 v.length) with
        | none => none
        | some (m3, wasNew, e) =>
          if e = none ∧ wasNew = false then
            -- truncate off the unused BytesAppend(k)
            some (bytesTruncate m3 ak.2.1, wasNew, none)
          else some (m3, wasNew, e)
    | .setOffsets m kOff kSz vOff vSz =>
      let incoming := encodeItem kOff kSz vOff vSz 0
      let incomingItemKey := itemKeyBytes m incoming
      exec fuel (.probe m incoming (home m incomingItemKey) (home m incomingItemKey))
    | .probe m incoming idx idxStart =>
      let e := readItem m idx
      let itemKey := itemKeyBytes m e
      if itemKey.length = 0 then
        -- empty slot: copy(e, incoming); m.Count++
        some ({ writeItem m idx incoming with count := m.count + 1 }, true, none)
      else
        let itemKeyIncoming := itemKeyBytes m incoming
        if itemKey = itemKeyIncoming then
          -- update: keep e's key, take incoming's val offsets and distance
          let upd := encodeItem (keyOffsetOf e) (keySizeOf e) (valOffsetOf incoming)
            (valSizeOf incoming) (distanceOf incoming)
          some (writeItem m idx upd, false, none)
        else
          -- robin-hood swap when the resident is richer
          let swapped := distanceOf e < distanceOf incoming
          let m1 := if swapped then writeItem m idx incoming else m
          let incoming1 := if swapped then e else incoming
          let incoming2 := distanceAdd incoming1 1
          let idx2 := nextIdx m1.size idx
          if m1.maxDistance < distanceOf incoming2 ∨ idx2 = idxStart then
            -- grow: copy out the pending key/val, grow 2x, re-Set
            let kCopy := itemKeyBytes m1 incoming2
            let vCopy := itemValBytes m1 incoming2
            match exec fuel (.copyRun (visitPairs m1) (growTarget m1 (2 * m1.size))) with
            | none => none
            | some (g1, _, _) => exec fuel (.set g1 kCopy vCopy)
          else
            exec fuel (.probe m1 incoming2 idx2 idxStart)
    | .copyRun items g =>
      match items with
      | [] => some (g, true, none)
      | (k, v) :: rest =>
        match exec fuel (.set g k v) with
        | none => none
        | some (g1, _, _) => exec fuel (.copyRun rest g1)

/-- RHStore.Set with the given fuel. -/
def setF (fuel : Nat) (m : RHStore) (k v : List Nat) : Option SRes :=
  exec fuel (.set m k v)

/-! ## Abstract view of a store: occupancy, lookup, invariant -/

/-- A slot is occupied when its key size field is non-zero; an all-zero
record is the empty sentinel (hence zero-length keys are invalid). -/
def occupied (m : RHStore) (i : Nat) : Prop := keySizeOf (readItem m i) ≠ 0

instance (m : RHStore) (i : Nat) : Decidable (occupied m i) :=
  inferInstanceAs (Decidable (_ ≠ _))

def keyBytesAt (m : RHStore) (i : Nat) : List Nat := itemKeyBytes m (readItem m i)

def valBytesAt (m : RHStore) (i : Nat) : List Nat := itemValBytes m (readItem m i)

/-- Some live slot holds key `k`. -/
def containsKey (m : RHStore) (k : List Nat) : Prop :=
  ∃ i, i < m.size ∧ occupied m i ∧ keyBytesAt m i = k

/-- The value bound to `k`, read off the slot table in slot order. -/
def lookup (m : RHStore) (k : List Nat) : Option (List Nat) :=
  (List.range m.size).findSome? (fun i =>
    if occupied m i ∧ keyBytesAt m i = k then some (valBytesAt m i) else none)

/-- Number of occupied slots. -/
def occCount (m : RHStore) : Nat :=
  ((List.range m.size).filter (fun i => decide (occupied m i))).length

/-- Cyclic distance from `a` forward to `b` in a ring of `sz` slots. -/
def cdist (sz a b : Nat) : Nat := (b + sz - a) % sz

/-- The slot reached after walking `w` steps forward from `s`. -/
def walkPos (sz s w : Nat) : Nat := (s + w) % sz

/-- The slot before `i`. -/
def prevIdx (sz i : Nat) : Nat := (i + sz - 1) % sz

/-- The representation invariant of a well-formed robin-hood store.
Reachable stores satisfy it (theorem `reachable_inv`). -/
structure Inv (m : RHStore) : Prop where
  size_pos : 0 < m.size
  slots_len : m.slots.length = 3 * m.size
  maxd_small : m.maxDistance + 1 < 2 ^ 14
  empty_zero : ∀ i < m.size, ¬ occupied m i → readItem m i = (0, 0, 0)
  key_range : ∀ i < m.size, occupied m i →
    keyOffsetOf (readItem m i) + keySizeOf (readItem m i) ≤ m.bytes.length
  val_range : ∀ i < m.size, occupied m i →
    valOffsetOf (readItem m i) + valSizeOf (readItem m i) ≤ m.bytes.length
  dist_eq : ∀ i < m.size, occupied m i →
    distanceOf (readItem m i) = cdist m.size (home m (keyBytesAt m i)) i
  dist_le : ∀ i < m.size, occupied m i → distanceOf (readItem m i) ≤ m.maxDistance
  loc_inv : ∀ i < m.size, occupied m i → 0 < distanceOf (readItem m i) →
    occupied m (prevIdx m.size i) ∧
      distanceOf (readItem m i) ≤ distanceOf (readItem m (prevIdx m.size i)) + 1
  key_nodup : ∀ i < m.size, ∀ j < m.size, occupied m i → occupied m j →
    keyBytesAt m i = keyBytesAt m j → i = j
  count_occ : m.count = (occCount m : Int)

/-! ### Byte-range reading lemmas -/

theorem length_readBytesAt (bs : List Nat) (off sz : Nat) (h : off + sz ≤ bs.length) :
    (readBytesAt bs off sz).length = sz := by
  unfold readBytesAt
  rw [List.length_take, List.length_drop]
  omega

theorem readBytesAt_zero (bs : List Nat) (off : Nat) : readBytesAt bs off 0 = [] := by
  simp [readBytesAt]

theorem readBytesAt_append (bs ext : List Nat) (off sz : Nat) (h : off + sz ≤ bs.length) :
    readBytesAt (bs ++ ext) off sz = readBytesAt bs off sz := by
  unfold readBytesAt
  rw [List.drop_append_of_le_length (by omega)]
  rw [List.take_append_of_le_length (by rw [List.length_drop]; omega)]

theorem readBytesAt_append_right (bs b : List Nat) :
    readBytesAt (bs ++ b) bs.length b.length = b := by
  unfold readBytesAt
  rw [List.drop_append_of_le_length (Nat.le_refl _), List.drop_length,
    List.nil_append, List.take_length]

theorem readBytesAt_take (bs : List Nat) (n off sz : Nat) (h : off + sz ≤ n) :
    readBytesAt (bs.take n) off sz = readBytesAt bs off sz := by
  unfold readBytesAt
  rw [List.drop_take, List.take_take]
  congr 1
  omega

/-! ### Slot read/write lemmas -/

theorem getD_set_ne (l : List Nat) (i j a : Nat) (h : i ≠ j) :
    (l.set i a).getD j 0 = l.getD j 0 := by
  rw [List.getD_eq_getElem?_getD, List.getD_eq_getElem?_getD, List.getElem?_set_ne h]

theorem getD_set_self (l : List Nat) (i a : Nat) (h : i < l.length) :
    (l.set i a).getD i 0 = a := by
  rw [List.getD_eq_getElem?_getD, List.getElem?_set_self h]
  rfl

theorem readItem_writeItem_self (m : RHStore) (i : Nat) (s : Slot)
    (h : 3 * i + 2 < m.slots.length) :
    readItem (writeItem m i s) i = s := by
  unfold readItem writeItem
  simp only
  have e0 : (((m.slots.set (3 * i) s.1).set (3 * i + 1) s.2.1).set (3 * i + 2) s.2.2).getD
      (3 * i) 0 = s.1 := by
    rw [getD_set_ne _ _ _ _ (by omega), getD_set_ne _ _ _ _ (by omega),
      getD_set_self _ _ _ (by omega)]
  have e1 : (((m.slots.set (3 * i) s.1).set (3 * i + 1) s.2.1).set (3 * i + 2) s.2.2).getD
      (3 * i + 1) 0 = s.2.1 := by
    rw [getD_set_ne _ _ _ _ (by omega),
      getD_set_self _ _ _ (by rw [List.length_set]; omega)]
  have e2 : (((m.slots.set (3 * i) s.1).set (3 * i + 1) s.2.1).set (3 * i + 2) s.2.2).getD
      (3 * i + 2) 0 = s.2.2 := by
    rw [getD_set_self _ _ _ (by rw [List.length_set, List.length_set]; omega)]
  rw [e0, e1, e2]

theorem readItem_writeItem_ne (m : RHStore) (i j : Nat) (s : Slot) (h : i ≠ j) :
    readItem (writeItem m i s) j = readItem m j := by
  unfold readItem writeItem
  simp only
  have e0 : (((m.slots.set (3 * i) s.1).set (3 * i + 1) s.2.1).set (3 * i + 2) s.2.2).getD
      (3 * j) 0 = m.slots.getD (3 * j) 0 := by
    rw [getD_set_ne _ _ _ _ (by omega), getD_set_ne _ _ _ _ (by omega),
      getD_set_ne _ _ _ _ (by omega)]
  have e1 : (((m.slots.set (3 * i) s.1).set (3 * i + 1) s.2.1).set (3 * i + 2) s.2.2).getD
      (3 * j + 1) 0 = m.slots.getD (3 * j + 1) 0 := by
    rw [getD_set_ne _ _ _ _ (by omega), getD_set_ne _ _ _ _ (by omega),
      getD_set_ne _ _ _ _ (by omega)]
  have e2 : (((m.slots.set (3 * i) s.1).set (3 * i + 1) s.2.1).set (3 * i + 2) s.2.2).getD
      (3 * j + 2) 0 = m.slots.getD (3 * j + 2) 0 := by
    rw [getD_set_ne _ _ _ _ (by omega), getD_set_ne _ _ _ _ (by omega),
      getD_set_ne _ _ _ _ (by omega)]
  rw [e0, e1, e2]

theorem writeItem_bytes (m : RHStore) (i : Nat) (s : Slot) :
    (writeItem m i s).bytes = m.bytes := rfl

theorem writeItem_size (m : RHStore) (i : Nat) (s : Slot) :
    (writeItem m i s).size = m.size := rfl

theorem writeItem_count (m : RHStore) (i : Nat) (s : Slot) :
    (writeItem m i s).count = m.count := rfl

theorem writeItem_hashFunc (m : RHStore) (i : Nat) (s : Slot) :
    (writeItem m i s).hashFunc = m.hashFunc := rfl

theorem writeItem_maxDistance (m : RHStore) (i : Nat) (s : Slot) :
    (writeItem m i s).maxDistance = m.maxDistance := rfl

theorem writeItem_slots_length (m : RHStore) (i : Nat) (s : Slot) :
    (writeItem m i s).slots.length = m.slots.length := by
  unfold writeItem
  simp

/-! ### Cyclic arithmetic lemmas -/

theorem walkPos_lt (sz s w : Nat) (h : 0 < sz) : walkPos sz s w < sz :=
  Nat.mod_lt _ h

theorem walkPos_zero (sz s : Nat) (h : s < sz) : walkPos sz s 0 = s := by
  unfold walkPos
  rw [Nat.add_zero]
  exact Nat.mod_eq_of_lt h

theorem nextIdx_walkPos (sz s w : Nat) (h : 0 < sz) :
    nextIdx sz (walkPos sz s w) = walkPos sz s (w + 1) := by
  unfold nextIdx walkPos
  rcases Nat.lt_or_ge sz 2 with h2 | h2
  · have h1 : sz = 1 := by omega
    subst h1
    simp [Nat.mod_one]
  · have hp : (s + w) % sz < sz := Nat.mod_lt _ h
    have h1 : (1 : Nat) % sz = 1 := Nat.mod_eq_of_lt (by omega)
    have hr : (s + (w + 1)) % sz = ((s + w) % sz + 1) % sz := by
      rw [show s + (w + 1) = s + w + 1 by ring, Nat.add_mod (s + w) 1, h1]
    rw [hr]
    by_cases hc : sz ≤ (s + w) % sz + 1
    · have he : (s + w) % sz + 1 = sz := by omega
      rw [if_pos hc, he, Nat.mod_self]
    · rw [if_neg hc]
      exact (Nat.mod_eq_of_lt (by omega)).symm

theorem cdist_walkPos (sz s w : Nat) (hs : s < sz) (hw : w < sz) :
    cdist sz s (walkPos sz s w) = w := by
  unfold cdist walkPos
  have h0 : 0 < sz := by omega
  have hp : (s + w) % sz < sz := Nat.mod_lt _ h0
  rw [show (s + w) % sz + sz - s = (s + w) % sz + (sz - s) by omega]
  rw [Nat.add_mod, Nat.mod_mod_of_dvd _ (dvd_refl _)]
  rw [← Nat.add_mod]
  rw [show s + w + (sz - s) = sz + w by omega]
  rw [Nat.add_mod_left]
  exact Nat.mod_eq_of_lt hw

theorem walkPos_cdist (sz a b : Nat) (ha : a < sz) (hb : b < sz) :
    walkPos sz a (cdist sz a b) = b := by
  unfold walkPos cdist
  rw [Nat.add_mod, Nat.mod_mod_of_dvd _ (dvd_refl _), ← Nat.add_mod]
  rw [show a + (b + sz - a) = sz + b by omega, Nat.add_mod_left]
  exact Nat.mod_eq_of_lt hb

theorem cdist_lt (sz a b : Nat) (h : 0 < sz) : cdist sz a b < sz := Nat.mod_lt _ h

theorem cdist_self (sz a : Nat) (h : 0 < sz) : cdist sz a a = 0 := by
  unfold cdist
  rw [show a + sz - a = sz by omega, Nat.mod_self]

theorem prevIdx_walkPos (sz s w : Nat) (h : 0 < sz) :
    prevIdx sz (walkPos sz s (w + 1)) = walkPos sz s w := by
  unfold prevIdx walkPos
  have hp : (s + (w + 1)) % sz < sz := Nat.mod_lt _ h
  rw [show (s + (w + 1)) % sz + sz - 1 = (s + (w + 1)) % sz + (sz - 1) by omega]
  rw [Nat.add_mod, Nat.mod_mod_of_dvd _ (dvd_refl _), ← Nat.add_mod]
  rw [show s + (w + 1) + (sz - 1) = sz + (s + w) by omega, Nat.add_mod_left]

/-- Positions on the ring are exactly the walk positions of offsets below `sz`. -/
theorem pos_eq_walkPos (sz s p : Nat) (hs : s < sz) (hp : p < sz) :
    p = walkPos sz s (cdist sz s p) := (walkPos_cdist sz s p hs hp).symm

/-! ### Derived facts about stores -/

/-- The home index is always a valid slot index of a non-empty table
(also across the `uint32` truncation of the size). -/
theorem home_lt (m : RHStore) (k : List Nat) (h : 0 < m.size) : home m k < m.size := by
  unfold home
  by_cases hz : m.size % 2 ^ 32 = 0
  · rw [hz]
    have h32 : 2 ^ 32 ≤ m.size := by
      rcases Nat.lt_or_ge m.size (2 ^ 32) with hlt | hge
      · rw [Nat.mod_eq_of_lt hlt] at hz
        omega
      · exact hge
    calc m.hashFunc k % 2 ^ 32 % 0 = m.hashFunc k % 2 ^ 32 := Nat.mod_zero _
    _ < 2 ^ 32 := Nat.mod_lt _ (by norm_num)
    _ ≤ m.size := h32
  · calc (m.hashFunc k % 2 ^ 32) % (m.size % 2 ^ 32) < m.size % 2 ^ 32 :=
      Nat.mod_lt _ (by omega)
    _ ≤ m.size := Nat.mod_le _ _

theorem nextIdx_lt (sz i : Nat) (h : 0 < sz) : nextIdx sz i < sz := by
  unfold nextIdx
  by_cases hc : sz ≤ i + 1
  · rw [if_pos hc]; omega
  · rw [if_neg hc]; omega

/-- A slot whose key read is non-empty is occupied (no invariant needed). -/
theorem occupied_of_keyBytes_ne_nil (m : RHStore) (i : Nat)
    (h : (keyBytesAt m i).length ≠ 0) : occupied m i := by
  intro hz
  apply h
  unfold keyBytesAt itemKeyBytes bytesRead at *
  rw [hz, readBytesAt_zero]
  rfl

/-- Unoccupied slots read an empty key (no invariant needed). -/
theorem keyBytes_nil_of_not_occupied (m : RHStore) (i : Nat)
    (h : ¬ occupied m i) : keyBytesAt m i = [] := by
  unfold occupied at h
  push_neg at h
  unfold keyBytesAt itemKeyBytes bytesRead
  rw [h, readBytesAt_zero]

theorem keyBytesAt_length (m : RHStore) (i : Nat) (hInv : Inv m)
    (hi : i < m.size) (hocc : occupied m i) :
    (keyBytesAt m i).length = keySizeOf (readItem m i) :=
  length_readBytesAt _ _ _ (hInv.key_range i hi hocc)

theorem valBytesAt_length (m : RHStore) (i : Nat) (hInv : Inv m)
    (hi : i < m.size) (hocc : occupied m i) :
    (valBytesAt m i).length = valSizeOf (readItem m i) :=
  length_readBytesAt _ _ _ (hInv.val_range i hi hocc)

theorem keyBytesAt_ne_nil (m : RHStore) (i : Nat) (hInv : Inv m)
    (hi : i < m.size) (hocc : occupied m i) : keyBytesAt m i ≠ [] := by
  intro h
  apply hocc
  have := keyBytesAt_length m i hInv hi hocc
  rw [h] at this
  simp at this
  exact this.symm

/-- The robin-hood chain lemma: walking back from an occupied slot
toward its home, every slot is occupied and the distance at walk
offset `c` is at least `c`.  This is the global consequence of the
local probe invariant `loc_inv`. -/
theorem chain_dist_lb (m : RHStore) (hInv : Inv m) (t : Nat)
    (ht : t < m.size) (hocc : occupied m t) :
    ∀ c ≤ distanceOf (readItem m t),
      occupied m (walkPos m.size (home m (keyBytesAt m t)) c) ∧
      c ≤ distanceOf (readItem m (walkPos m.size (home m (keyBytesAt m t)) c)) := by
  set h := home m (keyBytesAt m t) with hh
  set d := distanceOf (readItem m t) with hd
  have hhlt : h < m.size := home_lt m _ hInv.size_pos
  have htw : walkPos m.size h d = t := by
    rw [hd, hInv.dist_eq t ht hocc, ← hh]
    exact walkPos_cdist m.size h t hhlt ht
  have main : ∀ n c, c + n = d →
      occupied m (walkPos m.size h c) ∧ c ≤ distanceOf (readItem m (walkPos m.size h c)) := by
    intro n
    induction n with
    | zero =>
      intro c hc
      have : c = d := by omega
      rw [this, htw]
      exact ⟨hocc, Nat.le_refl _⟩
    | succ n ih =>
      intro c hc
      obtain ⟨hocc1, hle1⟩ := ih (c + 1) (by omega)
      have hp1 : walkPos m.size h (c + 1) < m.size := walkPos_lt _ _ _ hInv.size_pos
      have hpos : 0 < distanceOf (readItem m (walkPos m.size h (c + 1))) := by omega
      obtain ⟨hoccp, hlip⟩ := hInv.loc_inv _ hp1 hocc1 hpos
      rw [prevIdx_walkPos _ _ _ hInv.size_pos] at hoccp hlip
      exact ⟨hoccp, by omega⟩
  intro c hc
  exact main (d - c) c (by omega)

/-! ### Claim C9: Del of an absent key is a no-op -/

/-- When no live slot holds `k`, the Del find loop never finds it and
never mutates anything. -/
theorem delFind_absent (m : RHStore) (k : List Nat)
    (habs : ∀ i, i < m.size → occupied m i → keyBytesAt m i ≠ k) :
    ∀ rem idx, idx < m.size → delFind m k idx rem = none := by
  intro rem
  induction rem with
  | zero => intro idx _; rfl
  | succ rem ih =>
    intro idx hidx
    show delFind m k idx (rem + 1) = none
    unfold delFind
    simp only
    have hkb : itemKeyBytes m (readItem m idx) = keyBytesAt m idx := rfl
    rw [hkb]
    by_cases hempty : (keyBytesAt m idx).length = 0
    · rw [if_pos hempty]
    · rw [if_neg hempty]
      have hocc : occupied m idx := occupied_of_keyBytes_ne_nil m idx hempty
      have hne : ¬ (keyBytesAt m idx = k) := habs idx hidx hocc
      rw [if_neg hne]
      exact ih (nextIdx m.size idx) (nextIdx_lt _ _ (by omega))

/-- C9: calling Del with a non-empty key that is not present in the
store returns `(nil, false, nil)` and leaves the store completely
unchanged: the result state is the argument store itself, so every
slot word, the count, and the backing arena bytes are as before
(Del appends nothing to and truncates nothing from the arena). -/
theorem c9_del_absent_noop (m : RHStore) (k : List Nat) (fuel : Nat)
    (hsz : 0 < m.size) (hk : k ≠ [])
    (habs : ¬ containsKey m k) :
    del fuel m k = some (m, none, false, none) := by
  unfold del
  have hkl : ¬ (k.length = 0) := by
    intro h
    exact hk (List.length_eq_zero.mp h)
  rw [if_neg hkl]
  have habs2 : ∀ i, i < m.size → occupied m i → keyBytesAt m i ≠ k := by
    intro i hi hocc hkey
    exact habs ⟨i, hi, hocc, hkey⟩
  rw [delFind_absent m k habs2 m.size (home m k) (home_lt m k hsz)]

/-- A tiny fresh store used by several witnesses. -/
def wStore : RHStore := newRHStore 2 (fun _ => 0)

theorem readItem_newRHStore (sz : Nat) (h : List Nat → Nat) (i : Nat) :
    readItem (newRHStore sz h) i = (0, 0, 0) := by
  unfold readItem newRHStore
  simp only
  have hz : ∀ j, (List.replicate (sz * ItemLen) (0 : Nat)).getD j 0 = 0 := by
    intro j
    rw [List.getD_eq_getElem?_getD, List.getElem?_replicate]
    by_cases hj : j < sz * ItemLen
    · rw [if_pos hj]; rfl
    · rw [if_neg hj]; rfl
  rw [hz, hz, hz]

theorem not_occupied_newRHStore (sz : Nat) (h : List Nat → Nat) (i : Nat) :
    ¬ occupied (newRHStore sz h) i := by
  intro hocc
  apply hocc
  rw [readItem_newRHStore]
  exact keySizeOf_zero

/-- Witness for C9 at a concrete store and key. -/
theorem c9_witness :
    del 1 wStore [7] = some (wStore, none, false, none) := by
  apply c9_del_absent_noop wStore [7] 1 (by norm_num [wStore, newRHStore]) (by simp)
  rintro ⟨i, hi, hocc, hkey⟩
  exact not_occupied_newRHStore _ _ _ hocc

/-! ### Claim C3: validation errors in Set -/

theorem itemKeyBytes_congr_bytes (m1 m2 : RHStore) (s : Slot) (h : m1.bytes = m2.bytes) :
    itemKeyBytes m1 s = itemKeyBytes m2 s := by
  unfold itemKeyBytes bytesRead
  rw [h]

theorem itemValBytes_congr_bytes (m1 m2 : RHStore) (s : Slot) (h : m1.bytes = m2.bytes) :
    itemValBytes m1 s = itemValBytes m2 s := by
  unfold itemValBytes bytesRead
  rw [h]

theorem itemKeyBytes_distanceAdd (m : RHStore) (s : Slot) (x : Int) :
    itemKeyBytes m (distanceAdd s x) = itemKeyBytes m s := by
  unfold itemKeyBytes
  rw [keyOffsetOf_distanceAdd, keySizeOf_distanceAdd]

theorem itemValBytes_distanceAdd (m : RHStore) (s : Slot) (x : Int) :
    itemValBytes m (distanceAdd s x) = itemValBytes m s := by
  unfold itemValBytes
  rw [valOffsetOf_distanceAdd, valSizeOf_distanceAdd]

/-- Set never reports the empty-key error for a non-empty key, on any
path (including grows, whose re-inserted keys are never empty). -/
theorem exec_no_spurious_keyZero : ∀ f : Nat,
    (∀ m k v r, exec f (.set m k v) = some r → k.length ≠ 0 →
      r.2.2 ≠ some GoErr.keyZeroLen) ∧
    (∀ m kOff kSz vOff vSz r, exec f (.setOffsets m kOff kSz vOff vSz) = some r →
      (itemKeyBytes m (encodeItem kOff kSz vOff vSz 0)).length ≠ 0 →
      r.2.2 ≠ some GoErr.keyZeroLen) ∧
    (∀ m inc idx idxStart r, exec f (.probe m inc idx idxStart) = some r →
      (itemKeyBytes m inc).length ≠ 0 → r.2.2 ≠ some GoErr.keyZeroLen) := by
  intro f
  induction f with
  | zero =>
    refine ⟨?_, ?_, ?_⟩
    · intro m k v r hr _
      simp [exec] at hr
    · intro m a b c d r hr
      simp [exec] at hr
    · intro m inc i s r hr
      simp [exec] at hr
  | succ f ih =>
    obtain ⟨ihSet, ihSO, ihProbe⟩ := ih
    refine ⟨?_, ?_, ?_⟩
    · intro m k v r hr hk
      rw [exec] at hr
      simp only [if_neg hk] at hr
      by_cases h2 : MaxKeyLen < k.length
      · rw [if_pos h2] at hr
        cases hr
        simp
      · rw [if_neg h2] at hr
        by_cases h3 : MaxValLen < v.length
        · rw [if_pos h3] at hr
          cases hr
          simp
        · rw [if_neg h3] at hr
          cases he : exec f (.setOffsets (bytesAppend (bytesAppend m v).1 k).1
              (bytesAppend (bytesAppend m v).1 k).2.1 k.length (bytesAppend m v).2.1 v.length) with
          | none =>
            rw [he] at hr
            cases hr
          | some r3 =>
            obtain ⟨m3, w3, e3⟩ := r3
            rw [he] at hr
            simp only at hr
            have hkey : (itemKeyBytes (bytesAppend (bytesAppend m v).1 k).1
                (encodeItem (bytesAppend (bytesAppend m v).1 k).2.1 k.length
                  (bytesAppend m v).2.1 v.length 0)).length ≠ 0 := by
              unfold itemKeyBytes bytesRead bytesAppend
              simp only
              rw [keyOffsetOf_encode, keySizeOf_encode,
                Nat.mod_eq_of_lt (show k.length < 2 ^ 25 by
                  have : MaxKeyLen = 2 ^ 25 - 1 := by decide
                  omega)]
              rw [readBytesAt_append_right]
              exact hk
            have := ihSO _ _ _ _ _ _ he hkey
            by_cases h4 : e3 = none ∧ w3 = false
            · rw [if_pos h4] at hr
              cases hr
              simp
            · rw [if_neg h4] at hr
              cases hr
              exact this
    · intro m kOff kSz vOff vSz r hr hkey
      rw [exec] at hr
      exact ihProbe _ _ _ _ _ hr hkey
    · intro m inc idx idxStart r hr hinc
      rw [exec] at hr
      simp only at hr
      by_cases h1 : (itemKeyBytes m (readItem m idx)).length = 0
      · rw [if_pos h1] at hr
        cases hr
        simp
      · rw [if_neg h1] at hr
        by_cases h2 : itemKeyBytes m (readItem m idx) = itemKeyBytes m inc
        · rw [if_pos h2] at hr
          cases hr
          simp
        · rw [if_neg h2] at hr
          set swapped := distanceOf (readItem m idx) < distanceOf inc with hsw
          set m1 := if swapped then writeItem m idx inc else m with hm1
          set inc1 := if swapped then readItem m idx else inc with hinc1
          have hbytes : m1.bytes = m.bytes := by
            rw [hm1]
            by_cases hs : swapped
            · rw [if_pos hs, writeItem_bytes]
            · rw [if_neg hs]
          have hinc2key : (itemKeyBytes m1 (distanceAdd inc1 1)).length ≠ 0 := by
            rw [itemKeyBytes_distanceAdd, itemKeyBytes_congr_bytes m1 m _ hbytes]
            rw [hinc1]
            by_cases hs : swapped
            · rw [if_pos hs]
              exact h1
            · rw [if_neg hs]
              exact hinc
          by_cases h3 : m1.maxDistance < distanceOf (distanceAdd inc1 1) ∨
              nextIdx m1.size idx = idxStart
          · rw [if_pos h3] at hr
            cases hc : exec f (.copyRun (visitPairs m1) (growTarget m1 (2 * m1.size))) with
            | none =>
              rw [hc] at hr
              cases hr
            | some rg =>
              obtain ⟨g1, wg, eg⟩ := rg
              rw [hc] at hr
              simp only at hr
              apply ihSet _ _ _ _ hr
              unfold itemKeyBytes at hinc2key
              unfold itemKeyBytes bytesRead at *
              exact hinc2key
          · rw [if_neg h3] at hr
            exact ihProbe _ _ _ _ _ hr hinc2key

/-- C3 (amended): Set returns the empty-key error exactly when
`len k = 0`; it returns the key-too-large error when
`len k > 2^25 - 1`; it returns the value-too-large error when
`len v > 2^25 - 1` and the key passed its checks
(`1 ≤ len k ≤ 2^25 - 1`); and in each of these error cases it
returns before any state change -- the result state is the argument
store itself, so slots, count and backing arena bytes are unchanged. -/
theorem c3_validation_errors (f : Nat) (m : RHStore) (k v : List Nat) :
    (k.length = 0 →
      exec (f + 1) (.set m k v) = some (m, false, some GoErr.keyZeroLen)) ∧
    (∀ r, exec (f + 1) (.set m k v) = some r →
      r.2.2 = some GoErr.keyZeroLen → k.length = 0) ∧
    (MaxKeyLen < k.length →
      exec (f + 1) (.set m k v) = some (m, false, some GoErr.keyTooBig)) ∧
    (k.length ≠ 0 → k.length ≤ MaxKeyLen → MaxValLen < v.length →
      exec (f + 1) (.set m k v) = some (m, false, some GoErr.valTooBig)) := by
  refine ⟨?_, ?_, ?_, ?_⟩
  · intro hk
    rw [exec]
    simp only [if_pos hk]
  · intro r hr he
    by_cases hk : k.length = 0
    · exact hk
    · exact absurd he ((exec_no_spurious_keyZero (f + 1)).1 m k v r hr hk)
  · intro h2
    have hk : ¬ k.length = 0 := by
      have : MaxKeyLen = 2 ^ 25 - 1 := by decide
      omega
    rw [exec]
    simp only [if_neg hk, if_pos h2]
  · intro hk h2 h3
    rw [exec]
    simp only [if_neg hk, if_neg (by omega : ¬ MaxKeyLen < k.length), if_pos h3]

/-- C3 counterexample: with an empty key and an oversized value, Set
returns the empty-key error, not the value-too-large error the claim
promises for every oversized value. -/
theorem c3_counterexample :
    setF 1 wStore [] (List.replicate (2 ^ 25) 0) =
      some (wStore, false, some GoErr.keyZeroLen) ∧
    MaxValLen < (List.replicate (2 ^ 25) (0 : Nat)).length ∧
    GoErr.keyZeroLen ≠ GoErr.valTooBig := by
  refine ⟨?_, ?_, by decide⟩
  · unfold setF
    rw [exec]
    simp
  · rw [List.length_replicate]
    decide

/-- Witness for the amended C3 theorem at concrete inputs. -/
theorem c3_witness :
    setF 1 wStore [] [5] = some (wStore, false, some GoErr.keyZeroLen) ∧
    setF 1 wStore [3] (List.replicate (2 ^ 25) 0) =
      some (wStore, false, some GoErr.valTooBig) := by
  constructor
  · exact (c3_validation_errors 0 wStore [] [5]).1 rfl
  · exact (c3_validation_errors 0 wStore [3] (List.replicate (2 ^ 25) 0)).2.2.2
      (by decide) (by decide)
      (by rw [List.length_replicate]; decide)

/-! ### Reachable stores

A store is reachable when it arises from `NewRHStore` (any positive
size, any hash function, the default configuration otherwise) by a
sequence of Set, Del and Reset operations. -/

inductive Reachable : RHStore → Prop where
  | init (sz : Nat) (h : List Nat → Nat) (hsz : 0 < sz) : Reachable (newRHStore sz h)
  | doSet {m : RHStore} {k v : List Nat} {f : Nat} {r : SRes} :
      Reachable m → exec f (.set m k v) = some r → Reachable r.1
  | doDel {m m1 : RHStore} {k : List Nat} {f : Nat} {prev ex er} :
      Reachable m → del f m k = some (m1, prev, ex, er) → Reachable m1
  | doReset {m : RHStore} : Reachable m → Reachable (reset m)

/-- The default hash function: fnv-1a 32-bit over the key bytes
(hash/fnv New32a). -/
def fnv1a32 (bs : List Nat) : Nat :=
  bs.foldl (fun h b => ((h ^^^ b) * 16777619) % 2 ^ 32) 2166136261

/-! ### Lookup and occupancy characterizations -/

theorem findSome?_const {α β : Type} (F : α → Option β) (b : β) :
    ∀ l : List α, (∃ a ∈ l, F a = some b) → (∀ a ∈ l, F a = none ∨ F a = some b) →
      l.findSome? F = some b := by
  intro l
  induction l with
  | nil => rintro ⟨a, ha, _⟩ _; cases ha
  | cons a l ih =>
    rintro ⟨w, hw, hFw⟩ huniq
    cases hFa : F a with
    | none =>
      rw [List.findSome?_cons_of_isNone _ (by rw [hFa]; rfl)]
      apply ih ?_ (fun x hx => huniq x (List.mem_cons_of_mem a hx))
      rcases List.mem_cons.mp hw with rfl | hwl
      · rw [hFa] at hFw; cases hFw
      · exact ⟨w, hwl, hFw⟩
    | some c =>
      rw [List.findSome?_cons_of_isSome _ (by rw [hFa]; rfl), hFa]
      rcases huniq a (List.mem_cons_self a l) with h | h
      · rw [hFa] at h; cases h
      · rw [hFa] at h; exact h

theorem lookup_eq_none_iff (m : RHStore) (k : List Nat) :
    lookup m k = none ↔ ∀ i, i < m.size → occupied m i → keyBytesAt m i ≠ k := by
  unfold lookup
  rw [List.findSome?_eq_none_iff]
  constructor
  · intro h i hi hocc hkey
    have := h i (List.mem_range.mpr hi)
    rw [if_pos ⟨hocc, hkey⟩] at this
    cases this
  · intro h i hi
    rw [if_neg]
    rintro ⟨hocc, hkey⟩
    exact h i (List.mem_range.mp hi) hocc hkey

/-- Under key uniqueness, lookup returns the value of the (unique)
slot holding `k`. -/
theorem lookup_eq_some_intro (m : RHStore) (k : List Nat) (i : Nat)
    (hnodup : ∀ i2, i2 < m.size → ∀ j2, j2 < m.size → occupied m i2 → occupied m j2 →
      keyBytesAt m i2 = keyBytesAt m j2 → i2 = j2)
    (hi : i < m.size) (hocc : occupied m i) (hkey : keyBytesAt m i = k) :
    lookup m k = some (valBytesAt m i) := by
  unfold lookup
  apply findSome?_const
  · refine ⟨i, List.mem_range.mpr hi, ?_⟩
    rw [if_pos ⟨hocc, hkey⟩]
  · intro j hj
    by_cases hc : occupied m j ∧ keyBytesAt m j = k
    · right
      rw [if_pos hc]
      have : j = i := hnodup j (List.mem_range.mp hj) i hi hc.1 hocc (by rw [hc.2, hkey])
      rw [this]
    · left
      rw [if_neg hc]

theorem containsKey_of_lookup_eq_some (m : RHStore) (k : List Nat) (v2 : List Nat)
    (h : lookup m k = some v2) : containsKey m k := by
  by_contra habs
  rw [(lookup_eq_none_iff m k).mpr] at h
  · cases h
  · intro i hi hocc hkey
    exact habs ⟨i, hi, hocc, hkey⟩

theorem lookup_eq_none_of_not_contains (m : RHStore) (k : List Nat)
    (h : ¬ containsKey m k) : lookup m k = none := by
  rw [lookup_eq_none_iff]
  intro i hi hocc hkey
  exact h ⟨i, hi, hocc, hkey⟩

theorem lookup_ne_none_of_contains (m : RHStore) (k : List Nat)
    (h : containsKey m k) : lookup m k ≠ none := by
  obtain ⟨i, hi, hocc, hkey⟩ := h
  unfold lookup
  intro hnone
  rw [List.findSome?_eq_none_iff] at hnone
  have := hnone i (List.mem_range.mpr hi)
  rw [if_pos ⟨hocc, hkey⟩] at this
  cases this

/-- occCount as a countP. -/
theorem occCount_eq_countP (m : RHStore) :
    occCount m = (List.range m.size).countP (fun i => decide (occupied m i)) := by
  unfold occCount
  rw [List.countP_eq_length_filter]

/-- Two stores with the same size and pointwise equal occupancy have
the same occupied count. -/
theorem occCount_congr (m m2 : RHStore) (hsz : m2.size = m.size)
    (h : ∀ i, i < m.size → (occupied m2 i ↔ occupied m i)) :
    occCount m2 = occCount m := by
  rw [occCount_eq_countP, occCount_eq_countP, hsz]
  apply List.countP_congr
  intro i hi
  have := h i (List.mem_range.mp hi)
  constructor <;> intro hx <;> simp only [decide_eq_true_eq] at * <;> tauto

theorem countP_flip_true (p q : Nat → Bool) (idx : Nat) :
    ∀ l : List Nat, l.Nodup → idx ∈ l →
      (∀ a ∈ l, a ≠ idx → p a = q a) → p idx = false → q idx = true →
      l.countP q = l.countP p + 1 := by
  intro l
  induction l with
  | nil => intro _ h; cases h
  | cons a l ih =>
    intro hnd hmem hagree hp hq
    rcases List.mem_cons.mp hmem with heq | hmem2
    · subst heq
      rw [List.countP_cons_of_pos _ _ hq, List.countP_cons_of_neg _ _ (by simp [hp])]
      have heqc : l.countP q = l.countP p := by
        apply List.countP_congr
        intro x hx
        have hne : x ≠ idx := by
          intro h
          subst h
          exact (List.nodup_cons.mp hnd).1 hx
        rw [hagree x (List.mem_cons_of_mem idx hx) hne]
      omega
    · have hne : a ≠ idx := by
        intro h
        subst h
        exact (List.nodup_cons.mp hnd).1 hmem2
      have ht := ih (List.nodup_cons.mp hnd).2 hmem2
        (fun x hx hxne => hagree x (List.mem_cons_of_mem a hx) hxne) hp hq
      rw [List.countP_cons, List.countP_cons, hagree a (List.mem_cons_self a l) hne, ht]
      exact Nat.add_right_comm _ _ _

/-- Adding one newly occupied slot increments the occupied count. -/
theorem occCount_succ (m m2 : RHStore) (idx : Nat) (hsz : m2.size = m.size)
    (hidx : idx < m.size) (hold : ¬ occupied m idx) (hnew : occupied m2 idx)
    (h : ∀ i, i < m.size → i ≠ idx → (occupied m2 i ↔ occupied m i)) :
    occCount m2 = occCount m + 1 := by
  rw [occCount_eq_countP, occCount_eq_countP, hsz]
  apply countP_flip_true _ _ idx _ (List.nodup_range _) (List.mem_range.mpr hidx)
  · intro a ha hane
    have := h a (List.mem_range.mp ha) hane
    by_cases hx : occupied m a
    · rw [decide_eq_true (this.mpr hx), decide_eq_true hx]
    · rw [decide_eq_false hx, decide_eq_false (fun hmm => hx (this.mp hmm))]
  · exact decide_eq_false hold
  · exact decide_eq_true hnew

/-! ### Transfer lemmas for stores differing only in their byte arena -/

/-- The byte list `bs` agrees with the store's arena on all in-range
reads (it extends or conservatively truncates it). -/
def ReadCompat (m0 : RHStore) (bs : List Nat) : Prop :=
  ∀ off sz, off + sz ≤ m0.bytes.length → readBytesAt bs off sz = readBytesAt m0.bytes off sz

theorem readCompat_append (m0 : RHStore) (ext : List Nat) :
    ReadCompat m0 (m0.bytes ++ ext) := fun _o _s h => readBytesAt_append _ _ _ _ h

theorem readCompat_append2 (m0 : RHStore) (a b : List Nat) :
    ReadCompat m0 (m0.bytes ++ a ++ b) := by
  rw [List.append_assoc]
  exact readCompat_append m0 (a ++ b)

theorem readCompat_take (m0 : RHStore) (bs : List Nat) (n : Nat)
    (h : ReadCompat m0 bs) (hn : m0.bytes.length ≤ n) :
    ReadCompat m0 (bs.take n) := by
  intro off sz hsz
  rw [readBytesAt_take _ _ _ _ (by omega)]
  exact h off sz hsz

theorem keyBytesAt_compat (m0 : RHStore) (bs : List Nat) (i : Nat)
    (hrc : ReadCompat m0 bs)
    (hr : keyOffsetOf (readItem m0 i) + keySizeOf (readItem m0 i) ≤ m0.bytes.length) :
    keyBytesAt { m0 with bytes := bs } i = keyBytesAt m0 i := by
  unfold keyBytesAt itemKeyBytes bytesRead
  exact hrc _ _ hr

theorem valBytesAt_compat (m0 : RHStore) (bs : List Nat) (i : Nat)
    (hrc : ReadCompat m0 bs)
    (hr : valOffsetOf (readItem m0 i) + valSizeOf (readItem m0 i) ≤ m0.bytes.length) :
    valBytesAt { m0 with bytes := bs } i = valBytesAt m0 i := by
  unfold valBytesAt itemValBytes bytesRead
  exact hrc _ _ hr

theorem findSome?_congr {α β : Type} (F G : α → Option β) :
    ∀ l : List α, (∀ a ∈ l, F a = G a) → l.findSome? F = l.findSome? G := by
  intro l
  induction l with
  | nil => intro _; rfl
  | cons a l ih =>
    intro h
    rw [List.findSome?_cons, List.findSome?_cons, h a (List.mem_cons_self a l)]
    cases G a with
    | some b => rfl
    | none => exact ih (fun x hx => h x (List.mem_cons_of_mem a hx))

theorem filterMap_congr_mem {α β : Type} (F G : α → Option β) :
    ∀ l : List α, (∀ a ∈ l, F a = G a) → l.filterMap F = l.filterMap G := by
  intro l
  induction l with
  | nil => intro _; rfl
  | cons a l ih =>
    intro h
    rw [List.filterMap_cons, List.filterMap_cons, h a (List.mem_cons_self a l),
      ih (fun x hx => h x (List.mem_cons_of_mem a hx))]

theorem lookup_compat (m0 : RHStore) (bs : List Nat) (hInv : Inv m0)
    (hrc : ReadCompat m0 bs) (k : List Nat) :
    lookup { m0 with bytes := bs } k = lookup m0 k := by
  unfold lookup
  apply findSome?_congr
  intro i hi
  have hi2 : i < m0.size := List.mem_range.mp hi
  by_cases hocc : occupied m0 i
  · have hkey := keyBytesAt_compat m0 bs i hrc (hInv.key_range i hi2 hocc)
    have hval := valBytesAt_compat m0 bs i hrc (hInv.val_range i hi2 hocc)
    rw [hkey, hval]
    rfl
  · have hoc : ¬ occupied { m0 with bytes := bs } i := hocc
    rw [if_neg (fun hc => hocc hc.1), if_neg (fun hc => hoc hc.1)]

theorem containsKey_compat (m0 : RHStore) (bs : List Nat) (hInv : Inv m0)
    (hrc : ReadCompat m0 bs) (k : List Nat) :
    containsKey { m0 with bytes := bs } k ↔ containsKey m0 k := by
  unfold containsKey
  constructor
  · rintro ⟨i, hi, hocc, hkey⟩
    refine ⟨i, hi, hocc, ?_⟩
    rw [← keyBytesAt_compat m0 bs i hrc (hInv.key_range i hi hocc)]
    exact hkey
  · rintro ⟨i, hi, hocc, hkey⟩
    refine ⟨i, hi, hocc, ?_⟩
    rw [keyBytesAt_compat m0 bs i hrc (hInv.key_range i hi hocc)]
    exact hkey

theorem occCount_compat (m0 : RHStore) (bs : List Nat) :
    occCount { m0 with bytes := bs } = occCount m0 := rfl

theorem inv_compat (m0 : RHStore) (bs : List Nat) (hInv : Inv m0)
    (hrc : ReadCompat m0 bs) (hlen : m0.bytes.length ≤ bs.length) :
    Inv { m0 with bytes := bs } := by
  constructor
  · exact hInv.size_pos
  · exact hInv.slots_len
  · exact hInv.maxd_small
  · exact hInv.empty_zero
  · intro i hi hocc
    have := hInv.key_range i hi hocc
    show keyOffsetOf (readItem m0 i) + keySizeOf (readItem m0 i) ≤ bs.length
    omega
  · intro i hi hocc
    have := hInv.val_range i hi hocc
    show valOffsetOf (readItem m0 i) + valSizeOf (readItem m0 i) ≤ bs.length
    omega
  · intro i hi hocc
    have hkey := keyBytesAt_compat m0 bs i hrc (hInv.key_range i hi hocc)
    show distanceOf (readItem m0 i) =
      cdist m0.size (home { m0 with bytes := bs } (keyBytesAt { m0 with bytes := bs } i)) i
    rw [hkey]
    exact hInv.dist_eq i hi hocc
  · exact hInv.dist_le
  · exact hInv.loc_inv
  · intro i hi j hj hocci hoccj hkey
    apply hInv.key_nodup i hi j hj hocci hoccj
    rw [← keyBytesAt_compat m0 bs i hrc (hInv.key_range i hi hocci),
      ← keyBytesAt_compat m0 bs j hrc (hInv.key_range j hj hoccj)]
    exact hkey
  · exact hInv.count_occ

theorem visitPairs_compat (m0 : RHStore) (bs : List Nat) (hInv : Inv m0)
    (hrc : ReadCompat m0 bs) :
    visitPairs { m0 with bytes := bs } = visitPairs m0 := by
  unfold visitPairs visitSeq
  congr 1
  apply filterMap_congr_mem
  intro i hi
  have hi2 : i < m0.size := List.mem_range.mp hi
  by_cases hocc : occupied m0 i
  · have hkey := keyBytesAt_compat m0 bs i hrc (hInv.key_range i hi2 hocc)
    have hval := valBytesAt_compat m0 bs i hrc (hInv.val_range i hi2 hocc)
    simp only
    rw [show itemKeyBytes { m0 with bytes := bs } (readItem { m0 with bytes := bs } i)
        = keyBytesAt { m0 with bytes := bs } i from rfl]
    rw [show itemValBytes { m0 with bytes := bs } (readItem { m0 with bytes := bs } i)
        = valBytesAt { m0 with bytes := bs } i from rfl]
    rw [show itemKeyBytes m0 (readItem m0 i) = keyBytesAt m0 i from rfl]
    rw [show itemValBytes m0 (readItem m0 i) = valBytesAt m0 i from rfl]
    rw [hkey, hval]
  · have h1 : keyBytesAt { m0 with bytes := bs } i = [] :=
      keyBytes_nil_of_not_occupied _ _ hocc
    have h2 : keyBytesAt m0 i = [] := keyBytes_nil_of_not_occupied _ _ hocc
    simp only
    rw [show itemKeyBytes { m0 with bytes := bs } (readItem { m0 with bytes := bs } i)
        = keyBytesAt { m0 with bytes := bs } i from rfl]
    rw [show itemKeyBytes m0 (readItem m0 i) = keyBytesAt m0 i from rfl]
    rw [h1, h2]
    simp

/-! ### Fresh stores and the assoc-list view of Visit -/

theorem not_occupied_growTarget (m : RHStore) (nsz i : Nat) :
    ¬ occupied (growTarget m nsz) i := by
  intro hocc
  apply hocc
  show keySizeOf (readItem (growTarget m nsz) i) = 0
  unfold growTarget
  rw [show readItem { newRHStore nsz m.hashFunc with maxDistance := m.maxDistance } i
      = readItem (newRHStore nsz m.hashFunc) i from rfl]
  rw [readItem_newRHStore]
  exact keySizeOf_zero

theorem inv_growTarget (m : RHStore) (nsz : Nat) (hsz : 0 < nsz)
    (hmax : m.maxDistance + 1 < 2 ^ 14) : Inv (growTarget m nsz) := by
  have hro : ∀ i, readItem (growTarget m nsz) i = (0, 0, 0) := by
    intro i
    exact readItem_newRHStore nsz m.hashFunc i
  have hnocc := not_occupied_growTarget m nsz
  constructor
  · exact hsz
  · show (List.replicate (nsz * ItemLen) (0 : Nat)).length = 3 * nsz
    rw [List.length_replicate]
    unfold ItemLen
    ring
  · exact hmax
  · intro i _ _
    exact hro i
  · intro i _ hocc
    exact absurd hocc (hnocc i)
  · intro i _ hocc
    exact absurd hocc (hnocc i)
  · intro i _ hocc
    exact absurd hocc (hnocc i)
  · intro i _ hocc
    exact absurd hocc (hnocc i)
  · intro i _ hocc
    exact absurd hocc (hnocc i)
  · intro i _ j _ hocc
    exact absurd hocc (hnocc i)
  · show (0 : Int) = (occCount (growTarget m nsz) : Int)
    have : occCount (growTarget m nsz) = 0 := by
      rw [occCount_eq_countP]
      rw [List.countP_eq_zero]
      intro i _
      simp only [decide_eq_true_eq]
      exact hnocc i
    rw [this]
    rfl

theorem lookup_growTarget (m : RHStore) (nsz : Nat) (k : List Nat) :
    lookup (growTarget m nsz) k = none := by
  rw [lookup_eq_none_iff]
  intro i _ hocc
  exact absurd hocc (not_occupied_growTarget m nsz i)

/-- First match in an association list of key/value pairs. -/
def listLookup (items : List (List Nat × List Nat)) (k2 : List Nat) : Option (List Nat) :=
  items.findSome? (fun kv => if kv.1 = k2 then some kv.2 else none)

theorem listLookup_eq_none_iff (items : List (List Nat × List Nat)) (k2 : List Nat) :
    listLookup items k2 = none ↔ ∀ kv ∈ items, kv.1 ≠ k2 := by
  unfold listLookup
  rw [List.findSome?_eq_none_iff]
  constructor
  · intro h kv hkv hkey
    have := h kv hkv
    rw [if_pos hkey] at this
    cases this
  · intro h kv hkv
    rw [if_neg (h kv hkv)]

theorem listLookup_eq_some_intro (items : List (List Nat × List Nat)) (k2 v2 : List Nat)
    (hmem : (k2, v2) ∈ items) (huniq : ∀ kv ∈ items, kv.1 = k2 → kv.2 = v2) :
    listLookup items k2 = some v2 := by
  unfold listLookup
  apply findSome?_const
  · exact ⟨(k2, v2), hmem, by rw [if_pos rfl]⟩
  · intro kv hkv
    by_cases hc : kv.1 = k2
    · right
      rw [if_pos hc, huniq kv hkv hc]
    · left
      rw [if_neg hc]

/-- Membership in the Visit pairs is exactly a live slot. -/
theorem mem_visitPairs_iff (m : RHStore) (hInv : Inv m) (k2 v2 : List Nat) :
    (k2, v2) ∈ visitPairs m ↔
      ∃ i, i < m.size ∧ occupied m i ∧ keyBytesAt m i = k2 ∧ valBytesAt m i = v2 := by
  unfold visitPairs visitSeq
  rw [List.mem_map]
  constructor
  · rintro ⟨x, hmem, hsnd⟩
    rw [List.mem_filterMap] at hmem
    obtain ⟨j, hj, hFj⟩ := hmem
    by_cases hlen : (itemKeyBytes m (readItem m j)).length ≠ 0
    · simp only [if_pos hlen] at hFj
      cases hFj
      simp only [Prod.snd] at hsnd
      rw [Prod.mk.injEq] at hsnd
      obtain ⟨h1, h2⟩ := hsnd
      exact ⟨j, List.mem_range.mp hj, occupied_of_keyBytes_ne_nil m j hlen, h1, h2⟩
    · simp only [if_neg hlen] at hFj
      cases hFj
  · rintro ⟨i, hi, hocc, hkey, hval⟩
    refine ⟨(i, k2, v2), ?_, rfl⟩
    rw [List.mem_filterMap]
    refine ⟨i, List.mem_range.mpr hi, ?_⟩
    have hlen : (itemKeyBytes m (readItem m i)).length ≠ 0 := by
      rw [show itemKeyBytes m (readItem m i) = keyBytesAt m i from rfl,
        keyBytesAt_length m i hInv hi hocc]
      exact hocc
    simp only [if_pos hlen]
    rw [show itemKeyBytes m (readItem m i) = keyBytesAt m i from rfl,
      show itemValBytes m (readItem m i) = valBytesAt m i from rfl, hkey, hval]

/-- The pairs reported by Visit, read associatively, agree with lookup. -/
theorem listLookup_visitPairs (m : RHStore) (hInv : Inv m) (k2 : List Nat) :
    listLookup (visitPairs m) k2 = lookup m k2 := by
  by_cases hc : containsKey m k2
  · obtain ⟨i, hi, hocc, hkey⟩ := hc
    rw [lookup_eq_some_intro m k2 i hInv.key_nodup hi hocc hkey]
    apply listLookup_eq_some_intro
    · rw [mem_visitPairs_iff m hInv]
      exact ⟨i, hi, hocc, hkey, rfl⟩
    · rintro ⟨ka, va⟩ hmem hka
      rw [mem_visitPairs_iff m hInv] at hmem
      obtain ⟨j, hj, hoccj, hkeyj, hvalj⟩ := hmem
      have : j = i := by
        apply hInv.key_nodup j hj i hi hoccj hocc
        rw [hkeyj, hkey]
        exact hka
      subst this
      rw [← hvalj]
  · rw [lookup_eq_none_of_not_contains m k2 hc]
    rw [listLookup_eq_none_iff]
    rintro ⟨ka, va⟩ hmem hka
    rw [mem_visitPairs_iff m hInv] at hmem
    obtain ⟨j, hj, hoccj, hkeyj, _⟩ := hmem
    apply hc
    refine ⟨j, hj, hoccj, ?_⟩
    rw [hkeyj]
    exact hka

/-! ### The Get walk agrees with the abstract lookup -/

theorem getGo_absent (m : RHStore) (k : List Nat)
    (habs : ∀ i, i < m.size → occupied m i → keyBytesAt m i ≠ k) :
    ∀ rem idx, idx < m.size → getGo m k idx rem = none := by
  intro rem
  induction rem with
  | zero => intro idx _; rfl
  | succ rem ih =>
    intro idx hidx
    show getGo m k idx (rem + 1) = none
    unfold getGo
    simp only
    have hkb : itemKeyBytes m (readItem m idx) = keyBytesAt m idx := rfl
    rw [hkb]
    by_cases hempty : (keyBytesAt m idx).length = 0
    · rw [if_pos hempty]
    · rw [if_neg hempty]
      have hocc : occupied m idx := occupied_of_keyBytes_ne_nil m idx hempty
      rw [if_neg (habs idx hidx hocc)]
      exact ih (nextIdx m.size idx) (nextIdx_lt _ _ (by omega))

theorem getGo_finds (m : RHStore) (k : List Nat) (t : Nat) (hInv : Inv m)
    (ht : t < m.size) (hocc : occupied m t) (hkey : keyBytesAt m t = k) :
    ∀ n j, j + n = cdist m.size (home m k) t → ∀ rem, n < rem →
      getGo m k (walkPos m.size (home m k) j) rem = some (valBytesAt m t) := by
  have hstart : home m k < m.size := home_lt m k hInv.size_pos
  have hdt : distanceOf (readItem m t) = cdist m.size (home m k) t := by
    rw [hInv.dist_eq t ht hocc, hkey]
  have hwt : walkPos m.size (home m k) (cdist m.size (home m k) t) = t :=
    walkPos_cdist _ _ _ hstart ht
  intro n
  induction n with
  | zero =>
    intro j hj rem hrem
    obtain ⟨r, rfl⟩ : ∃ r, rem = r + 1 := ⟨rem - 1, by omega⟩
    have hjt : walkPos m.size (home m k) j = t := by
      rw [show j = cdist m.size (home m k) t by omega] at *
      exact hwt
    unfold getGo
    simp only
    rw [hjt]
    have hkb : itemKeyBytes m (readItem m t) = keyBytesAt m t := rfl
    rw [hkb, hkey]
    rw [if_neg ?hne, if_pos rfl]
    · rfl
    case hne =>
      have := keyBytesAt_ne_nil m t hInv ht hocc
      rw [hkey] at this
      intro hc
      exact this (List.length_eq_zero.mp hc)
  | succ n ih =>
    intro j hj rem hrem
    obtain ⟨r, rfl⟩ : ∃ r, rem = r + 1 := ⟨rem - 1, by omega⟩
    have hjle : j ≤ distanceOf (readItem m t) := by
      rw [hdt]
      omega
    have hchain := chain_dist_lb m hInv t ht hocc j hjle
    rw [hkey] at hchain
    obtain ⟨hoccp, _⟩ := hchain
    set p := walkPos m.size (home m k) j with hp
    have hplt : p < m.size := walkPos_lt _ _ _ hInv.size_pos
    have hpne : keyBytesAt m p ≠ k := by
      intro hc
      have hpt : p = t := by
        apply hInv.key_nodup p hplt t ht hoccp hocc
        rw [hc, hkey]
      have hjwt : j = cdist m.size (home m k) t := by
        rw [← hpt, hp]
        exact (cdist_walkPos m.size (home m k) j (home_lt m k hInv.size_pos) (by
          have := cdist_lt m.size (home m k) t hInv.size_pos
          omega)).symm
      omega
    unfold getGo
    simp only
    have hkb : itemKeyBytes m (readItem m p) = keyBytesAt m p := rfl
    rw [hkb]
    rw [if_neg ?hne2, if_neg hpne]
    case hne2 =>
      have := keyBytesAt_ne_nil m p hInv hplt hoccp
      intro hc
      exact this (List.length_eq_zero.mp hc)
    rw [hp, nextIdx_walkPos _ _ _ hInv.size_pos]
    exact ih (j + 1) (by omega) r (by omega)

/-- Under the invariant, the Get walk computes the abstract lookup. -/
theorem get_eq_lookup (m : RHStore) (hInv : Inv m) (k : List Nat) :
    get m k = lookup m k := by
  unfold get
  by_cases hk : k.length = 0
  · rw [if_pos hk]
    have hknil : k = [] := List.length_eq_zero.mp hk
    subst hknil
    symm
    rw [lookup_eq_none_iff]
    intro i hi hocc
    exact keyBytesAt_ne_nil m i hInv hi hocc
  · rw [if_neg hk]
    by_cases hc : containsKey m k
    · obtain ⟨t, ht, hocc, hkey⟩ := hc
      rw [lookup_eq_some_intro m k t hInv.key_nodup ht hocc hkey]
      have h0 := getGo_finds m k t hInv ht hocc hkey (cdist m.size (home m k) t) 0
        (Nat.zero_add _) m.size (cdist_lt _ _ _ hInv.size_pos)
      rw [walkPos_zero _ _ (home_lt m k hInv.size_pos)] at h0
      exact h0
    · rw [lookup_eq_none_of_not_contains m k hc]
      apply getGo_absent m k ?_ m.size (home m k) (home_lt m k hInv.size_pos)
      intro i hi hocc hkey
      exact hc ⟨i, hi, hocc, hkey⟩

/-! ### Specifications for Set, SetOffsets, the probe loop and CopyTo -/

def validKV (k v : List Nat) : Prop :=
  k ≠ [] ∧ k.length ≤ MaxKeyLen ∧ v.length ≤ MaxValLen

/-- The functional contract of a successful Set against the abstract
map view of the store. -/
def SetSpec (m : RHStore) (k v : List Nat) (r : SRes) : Prop :=
  r.2.2 = none ∧ Inv r.1 ∧
  lookup r.1 k = some v ∧
  (∀ k2, k2 ≠ k → lookup r.1 k2 = lookup m k2) ∧
  (r.2.1 = true ↔ ¬ containsKey m k) ∧
  r.1.count = m.count + (if r.2.1 then 1 else 0) ∧
  r.1.hashFunc = m.hashFunc ∧ r.1.maxDistance = m.maxDistance

/-- The contract of SetOffsets (and of its probe loop) relative to the
base store `m0`, before the appended-but-unused key bytes are clipped:
the final store of the enclosing Set is the result state, truncated
back to the key offset when the operation was an update. -/
def SORes (m0 : RHStore) (k v : List Nat) (r : SRes) : Prop :=
  r.2.2 = none ∧
  SetSpec m0 k v
    (if r.2.1 = true then r.1 else bytesTruncate r.1 ((m0.bytes ++ v).length), r.2.1, r.2.2)

def CopyPre (items : List (List Nat × List Nat)) (g : RHStore) : Prop :=
  Inv g ∧ (∀ kv ∈ items, validKV kv.1 kv.2 ∧ lookup g kv.1 = none) ∧
  items.Pairwise (fun a b => a.1 ≠ b.1)

def CopySpec (items : List (List Nat × List Nat)) (g : RHStore) (r : SRes) : Prop :=
  Inv r.1 ∧
  (∀ k2, lookup r.1 k2 =
    (match listLookup items k2 with
     | some v2 => some v2
     | none => lookup g k2)) ∧
  r.1.count = g.count + items.length ∧
  r.1.hashFunc = g.hashFunc ∧ r.1.maxDistance = g.maxDistance

/-- Facts holding at the top of every probe-loop iteration, in both
phases: `m0` is the base store, `k`/`v` the pair being set, `w` the
number of slots walked so far. -/
structure ProbeCommon (m0 : RHStore) (k v : List Nat) (m : RHStore) (inc : Slot)
    (idx idxStart w : Nat) : Prop where
  hInv0 : Inv m0
  hInvM : Inv m
  hkv : validKV k v
  hstart : idxStart = home m0 k
  hidx : idx = walkPos m0.size idxStart w
  hw : w < m0.size
  hsz : m.size = m0.size
  hhash : m.hashFunc = m0.hashFunc
  hmaxd : m.maxDistance = m0.maxDistance
  hbytes : m.bytes = m0.bytes ++ v ++ k
  hcount : m.count = m0.count
  hdle : distanceOf inc ≤ m0.maxDistance
  hdw : distanceOf inc ≤ w
  hpred : w = 0 ∨ (occupied m (walkPos m0.size idxStart (w - 1)) ∧
    distanceOf inc ≤ distanceOf (readItem m (walkPos m0.size idxStart (w - 1))) + 1)

/-- Phase 1: the incoming item still carries the key/value appended by
Set; no slot has been modified yet. -/
structure ProbePending (m0 : RHStore) (k v : List Nat) (m : RHStore) (inc : Slot)
    (idxStart w : Nat) : Prop where
  hio : keyOffsetOf inc = m0.bytes.length + v.length
  his : keySizeOf inc = k.length
  hivo : valOffsetOf inc = m0.bytes.length
  hivs : valSizeOf inc = v.length
  hid : distanceOf inc = w
  hm : m = { m0 with bytes := m0.bytes ++ v ++ k }
  hwalk : ∀ j, j < w → occupied m (walkPos m0.size idxStart j) ∧
    keyBytesAt m (walkPos m0.size idxStart j) ≠ k

/-- Phase 2: the key/value pair has been swapped into slot `s`; the
incoming item is a displaced resident whose key is unique and now
absent from the table. -/
structure ProbePlaced (m0 : RHStore) (k v : List Nat) (m : RHStore) (inc : Slot)
    (idxStart w : Nat) (s : Nat) : Prop where
  hslt : s < m0.size
  hsocc : occupied m s
  hskey : keyBytesAt m s = k
  hsval : valBytesAt m s = v
  hpko : keyOffsetOf inc + keySizeOf inc ≤ m0.bytes.length
  hpvo : valOffsetOf inc + valSizeOf inc ≤ m0.bytes.length
  hpks : keySizeOf inc ≠ 0
  hpdist : distanceOf inc =
    cdist m0.size (home m0 (itemKeyBytes m inc)) (walkPos m0.size idxStart w)
  hpnotin : ∀ i, i < m0.size → occupied m i → keyBytesAt m i ≠ itemKeyBytes m inc
  hpne : itemKeyBytes m inc ≠ k
  hrange0 : ∀ i, i < m0.size → occupied m i → i ≠ s →
    keyOffsetOf (readItem m i) + keySizeOf (readItem m i) ≤ m0.bytes.length ∧
    valOffsetOf (readItem m i) + valSizeOf (readItem m i) ≤ m0.bytes.length
  hplook0 : lookup m0 (itemKeyBytes m inc) = some (itemValBytes m inc)
  hknot0 : ¬ containsKey m0 k
  hocc_eq : occCount m = occCount m0
  hframe : ∀ k2, k2 ≠ k → k2 ≠ itemKeyBytes m inc → lookup m k2 = lookup m0 k2
  hlookk : lookup m k = some v

/-! ### Slot-write transfer lemmas -/

theorem keyBytesAt_writeItem_ne (m : RHStore) (idx : Nat) (s : Slot) (j : Nat)
    (h : j ≠ idx) : keyBytesAt (writeItem m idx s) j = keyBytesAt m j := by
  unfold keyBytesAt
  rw [readItem_writeItem_ne m idx j s (fun hc => h hc.symm)]
  exact itemKeyBytes_congr_bytes _ _ _ rfl

theorem valBytesAt_writeItem_ne (m : RHStore) (idx : Nat) (s : Slot) (j : Nat)
    (h : j ≠ idx) : valBytesAt (writeItem m idx s) j = valBytesAt m j := by
  unfold valBytesAt
  rw [readItem_writeItem_ne m idx j s (fun hc => h hc.symm)]
  exact itemValBytes_congr_bytes _ _ _ rfl

theorem occupied_writeItem_ne (m : RHStore) (idx : Nat) (s : Slot) (j : Nat)
    (h : j ≠ idx) : occupied (writeItem m idx s) j ↔ occupied m j := by
  unfold occupied
  rw [readItem_writeItem_ne m idx j s (fun hc => h hc.symm)]

theorem keyBytesAt_writeItem_self (m : RHStore) (idx : Nat) (s : Slot)
    (hlen : 3 * idx + 2 < m.slots.length) :
    keyBytesAt (writeItem m idx s) idx = itemKeyBytes m s := by
  unfold keyBytesAt
  rw [readItem_writeItem_self m idx s hlen]
  exact itemKeyBytes_congr_bytes _ _ _ rfl

theorem valBytesAt_writeItem_self (m : RHStore) (idx : Nat) (s : Slot)
    (hlen : 3 * idx + 2 < m.slots.length) :
    valBytesAt (writeItem m idx s) idx = itemValBytes m s := by
  unfold valBytesAt
  rw [readItem_writeItem_self m idx s hlen]
  exact itemValBytes_congr_bytes _ _ _ rfl

theorem occupied_writeItem_self (m : RHStore) (idx : Nat) (s : Slot)
    (hlen : 3 * idx + 2 < m.slots.length) :
    occupied (writeItem m idx s) idx ↔ keySizeOf s ≠ 0 := by
  unfold occupied
  rw [readItem_writeItem_self m idx s hlen]

/-! ### Further structural lemmas used by the Set correctness proof -/

theorem readBytesAt_middle (bs b c : List Nat) :
    readBytesAt (bs ++ b ++ c) bs.length b.length = b := by
  rw [List.append_assoc]
  unfold readBytesAt
  rw [List.drop_append_of_le_length (Nat.le_refl _), List.drop_length, List.nil_append]
  rw [List.take_append_of_le_length (Nat.le_refl _), List.take_length]

theorem rhstore_eq (a b : RHStore) (h1 : a.slots = b.slots) (h2 : a.size = b.size)
    (h3 : a.bytes = b.bytes) (h4 : a.count = b.count) (h5 : a.hashFunc = b.hashFunc)
    (h6 : a.maxDistance = b.maxDistance) : a = b := by
  cases a
  cases b
  simp_all

theorem readItem_setCount (m : RHStore) (c : Int) (i : Nat) :
    readItem { m with count := c } i = readItem m i := rfl

theorem lookup_setCount (m : RHStore) (c : Int) (k2 : List Nat) :
    lookup { m with count := c } k2 = lookup m k2 := rfl

theorem occCount_setCount (m : RHStore) (c : Int) :
    occCount { m with count := c } = occCount m := rfl

theorem occupied_setCount (m : RHStore) (c : Int) (i : Nat) :
    occupied { m with count := c } i ↔ occupied m i := Iff.rfl

theorem keyBytesAt_setCount (m : RHStore) (c : Int) (i : Nat) :
    keyBytesAt { m with count := c } i = keyBytesAt m i := rfl

theorem valBytesAt_setCount (m : RHStore) (c : Int) (i : Nat) :
    valBytesAt { m with count := c } i = valBytesAt m i := rfl

/-- Two stores that agree outside slot `idx`, and both fail the lookup
condition at `idx` for the key `k2`, look `k2` up identically. -/
theorem lookup_skip (a b : RHStore) (idx : Nat) (k2 : List Nat)
    (hsz : a.size = b.size)
    (hother : ∀ i, i < b.size → i ≠ idx → readItem a i = readItem b i)
    (hbytes : a.bytes = b.bytes)
    (hna : occupied a idx → keyBytesAt a idx ≠ k2)
    (hnb : occupied b idx → keyBytesAt b idx ≠ k2) :
    lookup a k2 = lookup b k2 := by
  unfold lookup
  rw [hsz]
  apply findSome?_congr
  intro i hi
  by_cases hc : i = idx
  · subst hc
    rw [if_neg (fun hx => hna hx.1 hx.2), if_neg (fun hx => hnb hx.1 hx.2)]
  · have hri := hother i (List.mem_range.mp hi) hc
    have hocc : occupied a i ↔ occupied b i := by unfold occupied; rw [hri]
    have hkey : keyBytesAt a i = keyBytesAt b i := by
      unfold keyBytesAt; rw [hri]; exact itemKeyBytes_congr_bytes _ _ _ hbytes
    have hval : valBytesAt a i = valBytesAt b i := by
      unfold valBytesAt; rw [hri]; exact itemValBytes_congr_bytes _ _ _ hbytes
    by_cases hcnd : occupied b i ∧ keyBytesAt b i = k2
    · rw [if_pos hcnd, if_pos ⟨hocc.mpr hcnd.1, by rw [hkey]; exact hcnd.2⟩, hval]
    · rw [if_neg hcnd, if_neg (fun hx => hcnd ⟨hocc.mp hx.1, by rw [← hkey]; exact hx.2⟩)]

theorem pairwise_filterMap_of {α β : Type} (F : α → Option β) (R : β → β → Prop) :
    ∀ l : List α, l.Nodup →
      (∀ i ∈ l, ∀ j ∈ l, i ≠ j → ∀ b c, F i = some b → F j = some c → R b c) →
      (l.filterMap F).Pairwise R := by
  intro l
  induction l with
  | nil => intro _ _; exact List.Pairwise.nil
  | cons a l ih =>
    intro hnd h
    rw [List.filterMap_cons]
    cases hFa : F a with
    | none =>
      exact ih (List.nodup_cons.mp hnd).2
        (fun i hi j hj hij => h i (List.mem_cons_of_mem a hi) j (List.mem_cons_of_mem a hj) hij)
    | some b =>
      apply List.Pairwise.cons
      · intro c hc
        rw [List.mem_filterMap] at hc
        obtain ⟨j, hj, hFj⟩ := hc
        have hne : a ≠ j := by
          intro he
          subst he
          exact (List.nodup_cons.mp hnd).1 hj
        exact h a (List.mem_cons_self a l) j (List.mem_cons_of_mem a hj) hne b c hFa hFj
      · exact ih (List.nodup_cons.mp hnd).2
          (fun i hi j hj hij => h i (List.mem_cons_of_mem a hi) j (List.mem_cons_of_mem a hj) hij)

theorem length_filterMap_eq_countP {α β : Type} (F : α → Option β) :
    ∀ l : List α, (l.filterMap F).length = l.countP (fun a => (F a).isSome) := by
  intro l
  induction l with
  | nil => rfl
  | cons a l ih =>
    cases hFa : F a with
    | none => simp [List.filterMap_cons, List.countP_cons, hFa, ih]
    | some b => simp [List.filterMap_cons, List.countP_cons, hFa, ih]

/-- The keys reported by Visit are pairwise distinct. -/
theorem visitSeq_pairwise_keys (m : RHStore) (hInv : Inv m) :
    (visitSeq m).Pairwise (fun a b => a.2.1 ≠ b.2.1) := by
  unfold visitSeq
  apply pairwise_filterMap_of _ _ _ (List.nodup_range _)
  intro i hi j hj hij b c hFb hFc
  by_cases hci : (itemKeyBytes m (readItem m i)).length ≠ 0
  · by_cases hcj : (itemKeyBytes m (readItem m j)).length ≠ 0
    · simp only [if_pos hci] at hFb
      simp only [if_pos hcj] at hFc
      cases hFb
      cases hFc
      show keyBytesAt m i ≠ keyBytesAt m j
      intro hkk
      exact hij (hInv.key_nodup i (List.mem_range.mp hi) j (List.mem_range.mp hj)
        (occupied_of_keyBytes_ne_nil m i hci) (occupied_of_keyBytes_ne_nil m j hcj) hkk)
    · simp only [if_neg hcj] at hFc
      cases hFc
  · simp only [if_neg hci] at hFb
    cases hFb

theorem visitPairs_pairwise_keys (m : RHStore) (hInv : Inv m) :
    (visitPairs m).Pairwise (fun a b => a.1 ≠ b.1) := by
  unfold visitPairs
  rw [List.pairwise_map]
  exact visitSeq_pairwise_keys m hInv

/-- Visit reports exactly one pair per occupied slot. -/
theorem visitPairs_length (m : RHStore) (hInv : Inv m) :
    (visitPairs m).length = occCount m := by
  unfold visitPairs visitSeq
  rw [List.length_map, length_filterMap_eq_countP, occCount_eq_countP]
  apply List.countP_congr
  intro i hi
  have hi2 : i < m.size := List.mem_range.mp hi
  by_cases hocc : occupied m i
  · have hlen : (itemKeyBytes m (readItem m i)).length ≠ 0 := by
      rw [show itemKeyBytes m (readItem m i) = keyBytesAt m i from rfl,
        keyBytesAt_length m i hInv hi2 hocc]
      exact hocc
    simp [hlen, hocc]
  · have hlen : ¬ (itemKeyBytes m (readItem m i)).length ≠ 0 := by
      rw [show itemKeyBytes m (readItem m i) = keyBytesAt m i from rfl,
        keyBytes_nil_of_not_occupied m i hocc]
      simp
    simp [hlen, hocc]

/-- A key cannot be stored anywhere once the probe walk from its home
is blocked: every slot within the walked prefix holds another key, and
the walk endpoint is empty or holds an item strictly closer to its own
home.  This is the robin-hood early-exit argument. -/
theorem key_absent_of_blocked (m : RHStore) (hInv : Inv m) (k : List Nat) (w : Nat)
    (hwalk : ∀ j, j < w → occupied m (walkPos m.size (home m k) j) →
      keyBytesAt m (walkPos m.size (home m k) j) ≠ k)
    (hblock : ¬ occupied m (walkPos m.size (home m k) w) ∨
      distanceOf (readItem m (walkPos m.size (home m k) w)) < w) :
    ∀ t, t < m.size → occupied m t → keyBytesAt m t ≠ k := by
  intro t ht hocc hkey
  have hd := hInv.dist_eq t ht hocc
  rw [hkey] at hd
  have htc : t = walkPos m.size (home m k) (cdist m.size (home m k) t) :=
    pos_eq_walkPos _ _ _ (home_lt m k hInv.size_pos) ht
  rcases Nat.lt_or_ge (cdist m.size (home m k) t) w with hlt | hge
  · rw [htc] at hocc hkey
    exact hwalk _ hlt hocc hkey
  · have hch := (chain_dist_lb m hInv t ht hocc) w (by omega)
    rw [hkey] at hch
    rcases hblock with hb | hb
    · exact hb hch.1
    · omega

/-- A key cannot be stored anywhere once the walked prefix excludes it
and every conceivable position is inside the prefix: either stored
distances are capped by `w`, or the prefix covers the whole table. -/
theorem key_absent_upto (m : RHStore) (hInv : Inv m) (k : List Nat) (w : Nat)
    (hwalk : ∀ j, j < w → occupied m (walkPos m.size (home m k) j) →
      keyBytesAt m (walkPos m.size (home m k) j) ≠ k)
    (hidxne : occupied m (walkPos m.size (home m k) w) →
      keyBytesAt m (walkPos m.size (home m k) w) ≠ k)
    (hbound : m.maxDistance ≤ w ∨ m.size = w + 1) :
    ∀ t, t < m.size → occupied m t → keyBytesAt m t ≠ k := by
  intro t ht hocc hkey
  have hd := hInv.dist_eq t ht hocc
  have hdle := hInv.dist_le t ht hocc
  rw [hkey] at hd
  have hclt : cdist m.size (home m k) t < m.size := cdist_lt _ _ _ hInv.size_pos
  have hcs : cdist m.size (home m k) t ≤ w := by
    rcases hbound with hb | hb
    · omega
    · omega
  have htc : t = walkPos m.size (home m k) (cdist m.size (home m k) t) :=
    pos_eq_walkPos _ _ _ (home_lt m k hInv.size_pos) ht
  rcases Nat.lt_or_eq_of_le hcs with hlt | heq
  · rw [htc] at hocc hkey
    exact hwalk _ hlt hocc hkey
  · rw [heq] at htc
    rw [htc] at hocc hkey
    exact hidxne hocc hkey

/-- The effect of writing an item into a slot, as SetOffsets does when
placing, swapping or updating: provided the item's byte ranges are
valid, its distance matches its home, its key occurs in no other slot,
and the local probe conditions hold at the target slot, the result
satisfies the invariant again and the abstract map changes only at the
written key (plus, when the resident key is displaced, at that key). -/
theorem write_spec (m : RHStore) (idx : Nat) (inc : Slot) (c : Int) (hInv : Inv m)
    (hidx : idx < m.size)
    (hks : keySizeOf inc ≠ 0)
    (hkr : keyOffsetOf inc + keySizeOf inc ≤ m.bytes.length)
    (hvr : valOffsetOf inc + valSizeOf inc ≤ m.bytes.length)
    (hdist : distanceOf inc = cdist m.size (home m (itemKeyBytes m inc)) idx)
    (hdle : distanceOf inc ≤ m.maxDistance)
    (hnotin : ∀ i, i < m.size → i ≠ idx → occupied m i → keyBytesAt m i ≠ itemKeyBytes m inc)
    (hpred : distanceOf inc = 0 ∨ (occupied m (prevIdx m.size idx) ∧
      distanceOf inc ≤ distanceOf (readItem m (prevIdx m.size idx)) + 1))
    (hde : occupied m idx → distanceOf (readItem m idx) ≤ distanceOf inc)
    (hc : c = m.count + (if occupied m idx then 0 else 1)) :
    Inv { writeItem m idx inc with count := c } ∧
    lookup { writeItem m idx inc with count := c } (itemKeyBytes m inc)
      = some (itemValBytes m inc) ∧
    (∀ k2, k2 ≠ itemKeyBytes m inc → (occupied m idx → k2 ≠ keyBytesAt m idx) →
      lookup { writeItem m idx inc with count := c } k2 = lookup m k2) ∧
    occCount { writeItem m idx inc with count := c }
      = occCount m + (if occupied m idx then 0 else 1) ∧
    (occupied m idx → itemKeyBytes m inc ≠ keyBytesAt m idx →
      lookup { writeItem m idx inc with count := c } (keyBytesAt m idx) = none) := by
  have hlen3 : 3 * idx + 2 < m.slots.length := by
    rw [hInv.slots_len]
    omega
  have hRidx : readItem { writeItem m idx inc with count := c } idx = inc := by
    rw [readItem_setCount]
    exact readItem_writeItem_self m idx inc hlen3
  have hRo : ∀ j, j ≠ idx →
      readItem { writeItem m idx inc with count := c } j = readItem m j := by
    intro j hj
    rw [readItem_setCount]
    exact readItem_writeItem_ne m idx j inc (fun hcc => hj hcc.symm)
  have hoccF : ∀ j, j ≠ idx →
      (occupied { writeItem m idx inc with count := c } j ↔ occupied m j) := by
    intro j hj
    unfold occupied
    rw [hRo j hj]
  have hoccFidx : occupied { writeItem m idx inc with count := c } idx := by
    unfold occupied
    rw [hRidx]
    exact hks
  have hkeyFo : ∀ j, j ≠ idx →
      keyBytesAt { writeItem m idx inc with count := c } j = keyBytesAt m j := by
    intro j hj
    unfold keyBytesAt
    rw [hRo j hj]
    exact itemKeyBytes_congr_bytes _ _ _ rfl
  have hkeyFidx : keyBytesAt { writeItem m idx inc with count := c } idx
      = itemKeyBytes m inc := by
    unfold keyBytesAt
    rw [hRidx]
    exact itemKeyBytes_congr_bytes _ _ _ rfl
  have hvalFo : ∀ j, j ≠ idx →
      valBytesAt { writeItem m idx inc with count := c } j = valBytesAt m j := by
    intro j hj
    unfold valBytesAt
    rw [hRo j hj]
    exact itemValBytes_congr_bytes _ _ _ rfl
  have hvalFidx : valBytesAt { writeItem m idx inc with count := c } idx
      = itemValBytes m inc := by
    unfold valBytesAt
    rw [hRidx]
    exact itemValBytes_congr_bytes _ _ _ rfl
  have hocs : occCount { writeItem m idx inc with count := c }
      = occCount m + (if occupied m idx then 0 else 1) := by
    by_cases ho : occupied m idx
    · rw [if_pos ho, Nat.add_zero]
      apply occCount_congr
      · rfl
      · intro i hi
        by_cases hie : i = idx
        · subst hie
          exact iff_of_true hoccFidx ho
        · exact hoccF i hie
    · rw [if_neg ho]
      apply occCount_succ m { writeItem m idx inc with count := c } idx rfl hidx ho hoccFidx
      intro i _ hie
      exact hoccF i hie
  have hInvF : Inv { writeItem m idx inc with count := c } := by
    constructor
    · exact hInv.size_pos
    · show (writeItem m idx inc).slots.length = 3 * m.size
      rw [writeItem_slots_length, hInv.slots_len]
    · exact hInv.maxd_small
    · intro j hj hnocc
      by_cases hje : j = idx
      · subst hje
        exact absurd hoccFidx hnocc
      · rw [hRo j hje]
        exact hInv.empty_zero j hj (fun ho => hnocc ((hoccF j hje).mpr ho))
    · intro j hj hocc
      by_cases hje : j = idx
      · subst hje
        rw [hRidx]
        exact hkr
      · rw [hRo j hje]
        exact hInv.key_range j hj ((hoccF j hje).mp hocc)
    · intro j hj hocc
      by_cases hje : j = idx
      · subst hje
        rw [hRidx]
        exact hvr
      · rw [hRo j hje]
        exact hInv.val_range j hj ((hoccF j hje).mp hocc)
    · intro j hj hocc
      by_cases hje : j = idx
      · subst hje
        rw [hRidx, hkeyFidx]
        exact hdist
      · rw [hRo j hje, hkeyFo j hje]
        exact hInv.dist_eq j hj ((hoccF j hje).mp hocc)
    · intro j hj hocc
      by_cases hje : j = idx
      · subst hje
        rw [hRidx]
        exact hdle
      · rw [hRo j hje]
        exact hInv.dist_le j hj ((hoccF j hje).mp hocc)
    · intro j hj hocc hdpos
      show occupied { writeItem m idx inc with count := c } (prevIdx m.size j) ∧
        distanceOf (readItem { writeItem m idx inc with count := c } j) ≤
          distanceOf (readItem { writeItem m idx inc with count := c }
            (prevIdx m.size j)) + 1
      by_cases hje : j = idx
      · subst hje
        rw [hRidx] at hdpos ⊢
        by_cases hpe : prevIdx m.size j = j
        · rw [hpe, hRidx]
          exact ⟨hoccFidx, Nat.le_succ _⟩
        · rcases hpred with h0 | ⟨hpo, hpd⟩
          · omega
          · rw [hRo _ hpe]
            exact ⟨(hoccF _ hpe).mpr hpo, hpd⟩
      · rw [hRo j hje] at hdpos ⊢
        obtain ⟨hpo, hpd⟩ := hInv.loc_inv j hj ((hoccF j hje).mp hocc) hdpos
        by_cases hpe : prevIdx m.size j = idx
        · rw [hpe] at hpo hpd ⊢
          rw [hRidx]
          refine ⟨hoccFidx, ?_⟩
          have := hde hpo
          omega
        · rw [hRo _ hpe]
          exact ⟨(hoccF _ hpe).mpr hpo, hpd⟩
    · intro i hi j hj ho1 ho2 hkk
      by_cases hie : i = idx
      · by_cases hje : j = idx
        · rw [hie, hje]
        · subst hie
          rw [hkeyFidx, hkeyFo j hje] at hkk
          exact absurd hkk.symm (hnotin j hj hje ((hoccF j hje).mp ho2))
      · by_cases hje : j = idx
        · subst hje
          rw [hkeyFo i hie, hkeyFidx] at hkk
          exact absurd hkk (hnotin i hi hie ((hoccF i hie).mp ho1))
        · rw [hkeyFo i hie, hkeyFo j hje] at hkk
          exact hInv.key_nodup i hi j hj ((hoccF i hie).mp ho1) ((hoccF j hje).mp ho2) hkk
    · show c = (occCount { writeItem m idx inc with count := c } : Int)
      rw [hocs, hc, hInv.count_occ]
      by_cases ho : occupied m idx
      · rw [if_pos ho, if_pos ho]
        push_cast
        ring
      · rw [if_neg ho, if_neg ho]
        push_cast
        ring
  refine ⟨hInvF, ?_, ?_, hocs, ?_⟩
  · rw [← hkeyFidx, ← hvalFidx]
    exact lookup_eq_some_intro _ _ idx hInvF.key_nodup hidx hoccFidx rfl
  · intro k2 hk2 hk2o
    apply lookup_skip { writeItem m idx inc with count := c } m idx k2 rfl
      (fun i _ hie => hRo i hie) rfl
    · intro hoF
      rw [hkeyFidx]
      intro hkF
      exact hk2 hkF.symm
    · intro hom hkm
      exact hk2o hom hkm.symm
  · intro hom hKne
    rw [lookup_eq_none_iff]
    intro i hi hocc hkey
    by_cases hie : i = idx
    · subst hie
      rw [hkeyFidx] at hkey
      exact hKne hkey
    · rw [hkeyFo i hie] at hkey
      exact hie (hInv.key_nodup i hi idx hidx ((hoccF i hie).mp hocc) hom hkey)

theorem listLookup_cons (a : List Nat × List Nat) (l : List (List Nat × List Nat))
    (k2 : List Nat) :
    listLookup (a :: l) k2 = if a.1 = k2 then some a.2 else listLookup l k2 := by
  unfold listLookup
  rw [List.findSome?_cons]
  by_cases hc : a.1 = k2
  · rw [if_pos hc, if_pos hc]
  · rw [if_neg hc, if_neg hc]

/-- The rebuild target of a grow together with the Visit pairs of the
source satisfies the CopyTo precondition. -/
theorem copyPre_visit (m1 : RHStore) (hInv1 : Inv m1) :
    CopyPre (visitPairs m1) (growTarget m1 (2 * m1.size)) := by
  refine ⟨inv_growTarget m1 (2 * m1.size)
    (by have := hInv1.size_pos; omega) hInv1.maxd_small, ?_, ?_⟩
  · intro kv hkv
    obtain ⟨k2, v2⟩ := kv
    rw [mem_visitPairs_iff m1 hInv1] at hkv
    obtain ⟨i, hi, hocc, hkey, hval⟩ := hkv
    refine ⟨⟨?_, ?_, ?_⟩, lookup_growTarget _ _ _⟩
    · show k2 ≠ []
      rw [← hkey]
      exact keyBytesAt_ne_nil m1 i hInv1 hi hocc
    · show k2.length ≤ MaxKeyLen
      rw [← hkey, keyBytesAt_length m1 i hInv1 hi hocc]
      have h1 := keySizeOf_lt (readItem m1 i)
      have h2 : MaxKeyLen = 2 ^ 25 - 1 := by decide
      omega
    · show v2.length ≤ MaxValLen
      rw [← hval, valBytesAt_length m1 i hInv1 hi hocc]
      have h1 := valSizeOf_lt (readItem m1 i)
      have h2 : MaxValLen = 2 ^ 25 - 1 := by decide
      omega
  · exact visitPairs_pairwise_keys m1 hInv1

/-- What CopyTo of the Visit pairs into a grow target achieves: a store
with the same abstract map, a count equal to the source's occupancy,
and the source's hash function and max distance. -/
theorem copy_rebuild (m1 g1 : RHStore) (wg : Bool) (eg : Option GoErr)
    (hInv1 : Inv m1)
    (hcs : CopySpec (visitPairs m1) (growTarget m1 (2 * m1.size)) (g1, wg, eg)) :
    Inv g1 ∧ (∀ k2, lookup g1 k2 = lookup m1 k2) ∧
    g1.count = (occCount m1 : Int) ∧
    g1.hashFunc = m1.hashFunc ∧ g1.maxDistance = m1.maxDistance := by
  obtain ⟨hI, hlk, hcnt, hh, hmd⟩ := hcs
  refine ⟨hI, ?_, ?_, hh, hmd⟩
  · intro k2
    have hthis := hlk k2
    rw [listLookup_visitPairs m1 hInv1 k2] at hthis
    cases hcase : lookup m1 k2 with
    | some v2 =>
      rw [hcase] at hthis
      exact hthis
    | none =>
      rw [hcase] at hthis
      rw [hthis]
      exact lookup_growTarget _ _ _
  · have hcnt' : g1.count = (growTarget m1 (2 * m1.size)).count
        + ((visitPairs m1).length : Int) := hcnt
    rw [hcnt', visitPairs_length m1 hInv1]
    show (0 : Int) + (occCount m1 : Int) = (occCount m1 : Int)
    ring

/-- One step of the interpreter, Set arm: validation plus SetOffsets
plus the final truncation of the unused key bytes. -/
theorem master_set_step (f : Nat)
    (ihSO : ∀ m0 k v r, Inv m0 → validKV k v →
      exec f (.setOffsets { m0 with bytes := m0.bytes ++ v ++ k }
        ((m0.bytes ++ v).length) k.length m0.bytes.length v.length) = some r →
      SORes m0 k v r) :
    ∀ m k v r, Inv m → validKV k v → exec (f + 1) (.set m k v) = some r →
      SetSpec m k v r := by
  intro m k v r hInv hkv hr
  have hk0 : ¬ k.length = 0 := by
    have h1 := hkv.1
    intro h
    exact h1 (List.length_eq_zero.mp h)
  have hk1 : ¬ MaxKeyLen < k.length := by
    have h1 := hkv.2.1
    omega
  have hv1 : ¬ MaxValLen < v.length := by
    have h1 := hkv.2.2
    omega
  rw [exec] at hr
  simp only [if_neg hk0, if_neg hk1, if_neg hv1] at hr
  cases he : exec f (.setOffsets (bytesAppend (bytesAppend m v).1 k).1
      (bytesAppend (bytesAppend m v).1 k).2.1 k.length (bytesAppend m v).2.1 v.length) with
  | none =>
    rw [he] at hr
    cases hr
  | some r3 =>
    obtain ⟨m3, w3, e3⟩ := r3
    rw [he] at hr
    simp only at hr
    have hso : SORes m k v (m3, w3, e3) := ihSO m k v (m3, w3, e3) hInv hkv he
    obtain ⟨he3, hspec⟩ := hso
    have he3' : e3 = none := he3
    subst he3'
    by_cases hw3 : w3 = true
    · subst hw3
      rw [if_neg (by simp : ¬ ((none : Option GoErr) = none ∧ true = false))] at hr
      cases hr
      exact hspec
    · have hw3f : w3 = false := by
        cases w3
        · rfl
        · exact absurd rfl hw3
      subst hw3f
      rw [if_pos ⟨rfl, rfl⟩] at hr
      cases hr
      exact hspec

/-- One step of the interpreter, SetOffsets arm: decode the incoming
item and enter the probe loop at the key's home slot. -/
theorem master_setOffsets_step (f : Nat)
    (ihProbe : ∀ m0 k v m inc idx idxStart w r,
      ProbeCommon m0 k v m inc idx idxStart w →
      (ProbePending m0 k v m inc idxStart w ∨ ∃ s, ProbePlaced m0 k v m inc idxStart w s) →
      exec f (.probe m inc idx idxStart) = some r → SORes m0 k v r) :
    ∀ m0 k v r, Inv m0 → validKV k v →
      exec (f + 1) (.setOffsets { m0 with bytes := m0.bytes ++ v ++ k }
        ((m0.bytes ++ v).length) k.length m0.bytes.length v.length) = some r →
      SORes m0 k v r := by
  intro m0 k v r hInv0 hkv hr
  have hklt : k.length < 2 ^ 25 := by
    have h1 := hkv.2.1
    have h2 : MaxKeyLen = 2 ^ 25 - 1 := by decide
    omega
  have hvlt : v.length < 2 ^ 25 := by
    have h1 := hkv.2.2
    have h2 : MaxValLen = 2 ^ 25 - 1 := by decide
    omega
  have hik : itemKeyBytes { m0 with bytes := m0.bytes ++ v ++ k }
      (encodeItem ((m0.bytes ++ v).length) k.length m0.bytes.length v.length 0) = k := by
    unfold itemKeyBytes bytesRead
    rw [keyOffsetOf_encode, keySizeOf_encode, Nat.mod_eq_of_lt hklt]
    exact readBytesAt_append_right _ _
  rw [exec] at hr
  rw [hik] at hr
  have hIM : Inv { m0 with bytes := m0.bytes ++ v ++ k } :=
    inv_compat m0 _ hInv0 (readCompat_append2 m0 v k)
      (by rw [List.length_append, List.length_append]; omega)
  have hhlt : home { m0 with bytes := m0.bytes ++ v ++ k } k < m0.size :=
    home_lt _ k hInv0.size_pos
  refine ihProbe m0 k v { m0 with bytes := m0.bytes ++ v ++ k } _ _ _ 0 r
    ⟨hInv0, hIM, hkv, rfl, (walkPos_zero m0.size _ hhlt).symm, hInv0.size_pos,
      rfl, rfl, rfl, rfl, rfl, ?_, ?_, Or.inl rfl⟩
    (Or.inl ⟨?_, ?_, ?_, ?_, ?_, rfl, ?_⟩) hr
  · rw [distanceOf_encode]
    simp
  · rw [distanceOf_encode]
    simp
  · rw [keyOffsetOf_encode, List.length_append]
  · rw [keySizeOf_encode]
    exact Nat.mod_eq_of_lt hklt
  · rw [valOffsetOf_encode]
  · rw [valSizeOf_encode]
    exact Nat.mod_eq_of_lt hvlt
  · rw [distanceOf_encode]
    simp
  · intro j hj
    exact absurd hj (Nat.not_lt_zero j)

/-- One step of the interpreter, CopyTo arm: re-Set each visited pair
into the destination store. -/
theorem master_copy_step (f : Nat)
    (ihSet : ∀ m k v r, Inv m → validKV k v → exec f (.set m k v) = some r → SetSpec m k v r)
    (ihCopy : ∀ items g r, CopyPre items g → exec f (.copyRun items g) = some r →
      CopySpec items g r) :
    ∀ items g r, CopyPre items g → exec (f + 1) (.copyRun items g) = some r →
      CopySpec items g r := by
  intro items g r hpre hr
  cases items with
  | nil =>
    rw [exec] at hr
    cases hr
    refine ⟨hpre.1, ?_, ?_, rfl, rfl⟩
    · intro k2
      rfl
    · show g.count = g.count + (([] : List (List Nat × List Nat)).length : Int)
      simp
  | cons kv rest =>
    obtain ⟨k, v⟩ := kv
    rw [exec] at hr
    cases hset : exec f (.set g k v) with
    | none =>
      rw [hset] at hr
      cases hr
    | some r1 =>
      obtain ⟨g1, w1, e1⟩ := r1
      rw [hset] at hr
      simp only at hr
      obtain ⟨hInvG, hitems, hpw⟩ := hpre
      have hkv : validKV k v := (hitems (k, v) (List.mem_cons_self _ _)).1
      have habs : lookup g k = none := (hitems (k, v) (List.mem_cons_self _ _)).2
      have hss := ihSet g k v (g1, w1, e1) hInvG hkv hset
      obtain ⟨hserr, hsInv, hslook, hsframe, hsnew, hscnt, hsh, hsmd⟩ := hss
      have hsInv' : Inv g1 := hsInv
      have hslook' : lookup g1 k = some v := hslook
      have hsframe' : ∀ k2, k2 ≠ k → lookup g1 k2 = lookup g k2 := hsframe
      have hscnt' : g1.count = g.count + (if w1 = true then 1 else 0) := hscnt
      have hsh' : g1.hashFunc = g.hashFunc := hsh
      have hsmd' : g1.maxDistance = g.maxDistance := hsmd
      have hw1 : w1 = true :=
        hsnew.mpr (fun hcon => lookup_ne_none_of_contains g k hcon habs)
      have hpw' := List.pairwise_cons.mp hpw
      have hpre1 : CopyPre rest g1 := by
        refine ⟨hsInv', ?_, hpw'.2⟩
        intro kv2 hkv2
        refine ⟨(hitems kv2 (List.mem_cons_of_mem _ hkv2)).1, ?_⟩
        rw [hsframe' kv2.1 (fun he => hpw'.1 kv2 hkv2 he.symm)]
        exact (hitems kv2 (List.mem_cons_of_mem _ hkv2)).2
      have hcs := ihCopy rest g1 r hpre1 hr
      obtain ⟨hcInv, hclook, hccnt, hch, hcmd⟩ := hcs
      have hrestk : listLookup rest k = none := by
        rw [listLookup_eq_none_iff]
        intro kv2 hkv2 hkey
        exact hpw'.1 kv2 hkv2 hkey.symm
      refine ⟨hcInv, ?_, ?_, ?_, ?_⟩
      · intro k2
        rw [hclook k2, listLookup_cons]
        by_cases hk2 : k2 = k
        · subst hk2
          rw [if_pos rfl, hrestk]
          show lookup g1 k2 = some v
          exact hslook'
        · rw [if_neg (fun he => hk2 he.symm)]
          cases hll : listLookup rest k2 with
          | some v2 => rfl
          | none =>
            show lookup g1 k2 = lookup g k2
            exact hsframe' k2 hk2
      · rw [hccnt, hscnt', hw1, List.length_cons, if_pos rfl]
        push_cast
        ring
      · rw [hch]
        exact hsh'
      · rw [hcmd]
        exact hsmd'

/-- The grow path of the probe loop: rebuild every live pair into a
double-size table, then re-Set the pending key/value.  `m1` is the
mid-probe store, `inc2` the pending item; the hypotheses record how
`m1`'s abstract map relates to the base store `m0` (either the pending
item is still the incoming pair, or the pair is already placed and the
pending item is a displaced resident). -/
theorem grow_spec (f : Nat)
    (ihSet : ∀ m k v r, Inv m → validKV k v → exec f (.set m k v) = some r → SetSpec m k v r)
    (m0 : RHStore) (k v : List Nat) (m1 : RHStore) (inc2 : Slot)
    (g1 : RHStore) (r : SRes)
    (hInv0 : Inv m0)
    (hocc1 : occCount m1 = occCount m0)
    (hh1 : m1.hashFunc = m0.hashFunc) (hmd1 : m1.maxDistance = m0.maxDistance)
    (hkc : validKV (itemKeyBytes m1 inc2) (itemValBytes m1 inc2))
    (hpabs : lookup m1 (itemKeyBytes m1 inc2) = none)
    (hkstate : (itemKeyBytes m1 inc2 = k ∧ itemValBytes m1 inc2 = v ∧
        (∀ k2, k2 ≠ k → lookup m1 k2 = lookup m0 k2)) ∨
      (itemKeyBytes m1 inc2 ≠ k ∧
        lookup m0 (itemKeyBytes m1 inc2) = some (itemValBytes m1 inc2) ∧
        lookup m1 k = some v ∧
        (∀ k2, k2 ≠ k → k2 ≠ itemKeyBytes m1 inc2 → lookup m1 k2 = lookup m0 k2)))
    (hknot0 : ¬ containsKey m0 k)
    (hrebuild : Inv g1 ∧ (∀ k2, lookup g1 k2 = lookup m1 k2) ∧
      g1.count = (occCount m1 : Int) ∧ g1.hashFunc = m1.hashFunc ∧
      g1.maxDistance = m1.maxDistance)
    (hset : exec f (.set g1 (itemKeyBytes m1 inc2) (itemValBytes m1 inc2)) = some r) :
    SORes m0 k v r := by
  obtain ⟨hIg, hg1look, hg1cnt, hg1h, hg1md⟩ := hrebuild
  have hss := ihSet g1 _ _ r hIg hkc hset
  obtain ⟨hserr, hsInv, hslook, hsframe, hsnew, hscnt, hsh, hsmd⟩ := hss
  have hnc : ¬ containsKey g1 (itemKeyBytes m1 inc2) := by
    intro hcon
    apply lookup_ne_none_of_contains g1 _ hcon
    rw [hg1look]
    exact hpabs
  have hwt : r.2.1 = true := hsnew.mpr hnc
  refine ⟨hserr, ?_⟩
  rw [if_pos hwt]
  refine ⟨hserr, hsInv, ?_, ?_, ?_, ?_, ?_, ?_⟩
  · show lookup r.1 k = some v
    rcases hkstate with ⟨hek, hev, _⟩ | ⟨hne, _, hlk1, _⟩
    · rw [← hek, ← hev]
      exact hslook
    · rw [hsframe k (fun he => hne he.symm), hg1look]
      exact hlk1
  · intro k2 hk2
    show lookup r.1 k2 = lookup m0 k2
    by_cases hkc2 : k2 = itemKeyBytes m1 inc2
    · subst hkc2
      rw [hslook]
      rcases hkstate with ⟨hek, _, _⟩ | ⟨_, hlk0, _, _⟩
      · exact absurd hek hk2
      · exact hlk0.symm
    · rw [hsframe k2 hkc2, hg1look]
      rcases hkstate with ⟨hek, _, hfr⟩ | ⟨_, _, _, hfr⟩
      · exact hfr k2 hk2
      · exact hfr k2 hk2 hkc2
  · show r.2.1 = true ↔ ¬ containsKey m0 k
    constructor
    · intro _
      exact hknot0
    · intro _
      exact hwt
  · show r.1.count = m0.count + (if r.2.1 = true then 1 else 0)
    rw [hscnt, hwt, hg1cnt, hocc1, ← hInv0.count_occ]
  · show r.1.hashFunc = m0.hashFunc
    rw [hsh, hg1h, hh1]
  · show r.1.maxDistance = m0.maxDistance
    rw [hsmd, hg1md, hmd1]

/-- The robin-hood swap: writing the incoming item over a poorer
resident (with the incoming key absent from the whole table) keeps the
invariant, binds the incoming key, unbinds the resident key, and
leaves every other binding and the occupancy count unchanged. -/
theorem swap_core (m : RHStore) (idx : Nat) (inc : Slot) (hInv : Inv m)
    (hidx : idx < m.size) (hocc : occupied m idx)
    (hks : keySizeOf inc ≠ 0)
    (hkr : keyOffsetOf inc + keySizeOf inc ≤ m.bytes.length)
    (hvr : valOffsetOf inc + valSizeOf inc ≤ m.bytes.length)
    (hdist : distanceOf inc = cdist m.size (home m (itemKeyBytes m inc)) idx)
    (hdle : distanceOf inc ≤ m.maxDistance)
    (hnotin : ∀ i, i < m.size → occupied m i → keyBytesAt m i ≠ itemKeyBytes m inc)
    (hpred : distanceOf inc = 0 ∨ (occupied m (prevIdx m.size idx) ∧
      distanceOf inc ≤ distanceOf (readItem m (prevIdx m.size idx)) + 1))
    (hsw : distanceOf (readItem m idx) ≤ distanceOf inc) :
    Inv (writeItem m idx inc) ∧
    lookup (writeItem m idx inc) (itemKeyBytes m inc) = some (itemValBytes m inc) ∧
    (∀ k2, k2 ≠ itemKeyBytes m inc → k2 ≠ keyBytesAt m idx →
      lookup (writeItem m idx inc) k2 = lookup m k2) ∧
    occCount (writeItem m idx inc) = occCount m ∧
    lookup (writeItem m idx inc) (keyBytesAt m idx) = none ∧
    keyBytesAt (writeItem m idx inc) idx = itemKeyBytes m inc ∧
    valBytesAt (writeItem m idx inc) idx = itemValBytes m inc ∧
    occupied (writeItem m idx inc) idx := by
  have hws := write_spec m idx inc m.count hInv hidx hks hkr hvr hdist hdle
    (fun i hi _ ho => hnotin i hi ho) hpred (fun _ => hsw)
    (by rw [if_pos hocc]; ring)
  have hceq : ({ writeItem m idx inc with count := m.count } : RHStore)
      = writeItem m idx inc := by
    apply rhstore_eq <;> rfl
  rw [hceq] at hws
  obtain ⟨hI, hlk, hfr, hoc, hnone⟩ := hws
  rw [if_pos hocc, Nat.add_zero] at hoc
  have hlen3 : 3 * idx + 2 < m.slots.length := by
    rw [hInv.slots_len]
    omega
  exact ⟨hI, hlk, fun k2 ha hb => hfr k2 ha (fun _ => hb), hoc,
    hnone hocc (hnotin idx hidx hocc).symm,
    keyBytesAt_writeItem_self m idx inc hlen3,
    valBytesAt_writeItem_self m idx inc hlen3,
    (occupied_writeItem_self m idx inc hlen3).mpr hks⟩

/-- Phase 1 survives one non-swapping probe step: the incoming item's
distance is bumped and the walked prefix grows by the current slot. -/
theorem pending_bump (m0 : RHStore) (k v : List Nat) (m : RHStore) (inc : Slot)
    (idxStart w : Nat)
    (hpd : ProbePending m0 k v m inc idxStart w)
    (hocc : occupied m (walkPos m0.size idxStart w))
    (hne : keyBytesAt m (walkPos m0.size idxStart w) ≠ k)
    (hd14 : distanceOf inc + 1 < 2 ^ 14) :
    ProbePending m0 k v m (distanceAdd inc 1) idxStart (w + 1) := by
  obtain ⟨hio, his, hivo, hivs, hid, hm, hwalk⟩ := hpd
  refine ⟨?_, ?_, ?_, ?_, ?_, hm, ?_⟩
  · rw [keyOffsetOf_distanceAdd]
    exact hio
  · rw [keySizeOf_distanceAdd]
    exact his
  · rw [valOffsetOf_distanceAdd]
    exact hivo
  · rw [valSizeOf_distanceAdd]
    exact hivs
  · rw [distanceOf_distanceAdd_one inc hd14, hid]
  · intro j hj
    rcases Nat.lt_or_ge j w with h | h
    · exact hwalk j h
    · have hje : j = w := by omega
      subst hje
      exact ⟨hocc, hne⟩

/-- Phase 2 survives one non-swapping probe step. -/
theorem placed_bump (m0 : RHStore) (k v : List Nat) (m : RHStore) (inc : Slot)
    (idxStart w s : Nat) (hsz0 : 0 < m0.size)
    (hpl : ProbePlaced m0 k v m inc idxStart w s)
    (hwlt : w + 1 < m0.size) (hdw : distanceOf inc ≤ w)
    (hd14 : distanceOf inc + 1 < 2 ^ 14) :
    ProbePlaced m0 k v m (distanceAdd inc 1) idxStart (w + 1) s := by
  obtain ⟨hslt, hsocc, hskey, hsval, hpko, hpvo, hpks, hpdist, hpnotin, hpne,
    hrange0, hplook0, hknot0, hocc_eq, hframe, hlookk⟩ := hpl
  have hd2 : distanceOf (distanceAdd inc 1) = distanceOf inc + 1 :=
    distanceOf_distanceAdd_one inc hd14
  have hPhlt : home m0 (itemKeyBytes m inc) < m0.size := home_lt m0 _ hsz0
  refine ⟨hslt, hsocc, hskey, hsval, ?_, ?_, ?_, ?_, ?_, ?_, hrange0, ?_, hknot0,
    hocc_eq, ?_, hlookk⟩
  · rw [keyOffsetOf_distanceAdd, keySizeOf_distanceAdd]
    exact hpko
  · rw [valOffsetOf_distanceAdd, valSizeOf_distanceAdd]
    exact hpvo
  · rw [keySizeOf_distanceAdd]
    exact hpks
  · have h6 : walkPos m0.size idxStart w
        = walkPos m0.size (home m0 (itemKeyBytes m inc)) (distanceOf inc) := by
      rw [hpdist]
      exact (walkPos_cdist m0.size _ _ hPhlt (walkPos_lt _ _ _ hsz0)).symm
    have h7 : walkPos m0.size idxStart (w + 1)
        = walkPos m0.size (home m0 (itemKeyBytes m inc)) (distanceOf inc + 1) := by
      rw [← nextIdx_walkPos m0.size idxStart w hsz0, h6,
        nextIdx_walkPos m0.size _ _ hsz0]
    rw [hd2, itemKeyBytes_distanceAdd, h7]
    exact (cdist_walkPos m0.size _ _ hPhlt (by omega)).symm
  · intro i hi ho
    rw [itemKeyBytes_distanceAdd]
    exact hpnotin i hi ho
  · rw [itemKeyBytes_distanceAdd]
    exact hpne
  · rw [itemKeyBytes_distanceAdd, itemValBytes_distanceAdd]
    exact hplook0
  · intro k2 hk2 hk2p
    rw [itemKeyBytes_distanceAdd] at hk2p
    exact hframe k2 hk2 hk2p

/-- One step of the interpreter, probe arm: place on an empty slot,
update on an equal key, otherwise swap-if-richer and either grow or
continue walking. -/
theorem master_probe_step (f : Nat)
    (ihSet : ∀ m k v r, Inv m → validKV k v → exec f (.set m k v) = some r → SetSpec m k v r)
    (ihProbe : ∀ m0 k v m inc idx idxStart w r,
      ProbeCommon m0 k v m inc idx idxStart w →
      (ProbePending m0 k v m inc idxStart w ∨ ∃ s, ProbePlaced m0 k v m inc idxStart w s) →
      exec f (.probe m inc idx idxStart) = some r → SORes m0 k v r)
    (ihCopy : ∀ items g r, CopyPre items g → exec f (.copyRun items g) = some r →
      CopySpec items g r) :
    ∀ m0 k v m inc idx idxStart w r,
      ProbeCommon m0 k v m inc idx idxStart w →
      (ProbePending m0 k v m inc idxStart w ∨ ∃ s, ProbePlaced m0 k v m inc idxStart w s) →
      exec (f + 1) (.probe m inc idx idxStart) = some r → SORes m0 k v r := by
  intro m0 k v m inc idx idxStart w r hcom hph hr
  obtain ⟨hInv0, hInvM, hkv, hstart, hidx, hw, hsz, hhash, hmaxd, hbytes, hcount,
    hdle, hdw, hpred⟩ := hcom
  have hsz0 : 0 < m0.size := hInv0.size_pos
  have hidxlt : idx < m0.size := by
    rw [hidx]
    exact walkPos_lt _ _ _ hsz0
  have hidxltM : idx < m.size := by
    rw [hsz]
    exact hidxlt
  have hstartlt : idxStart < m0.size := by
    rw [hstart]
    exact home_lt m0 k hsz0
  have hhomeM : ∀ k2, home m k2 = home m0 k2 := by
    intro k2
    unfold home
    rw [hhash, hsz]
  have hmbl : m.bytes.length = m0.bytes.length + v.length + k.length := by
    rw [hbytes, List.length_append, List.length_append]
  have hklt : k.length < 2 ^ 25 := by
    have h1 := hkv.2.1
    have h2 : MaxKeyLen = 2 ^ 25 - 1 := by decide
    omega
  have hvlt : v.length < 2 ^ 25 := by
    have h1 := hkv.2.2
    have h2 : MaxValLen = 2 ^ 25 - 1 := by decide
    omega
  have hknil : k.length ≠ 0 := fun h => hkv.1 (List.length_eq_zero.mp h)
  have hmaxd14 : m0.maxDistance + 1 < 2 ^ 14 := hInv0.maxd_small
  have hpred' : distanceOf inc = 0 ∨ (occupied m (prevIdx m.size idx) ∧
      distanceOf inc ≤ distanceOf (readItem m (prevIdx m.size idx)) + 1) := by
    rcases hpred with hw0 | ⟨hpo, hpd⟩
    · left
      omega
    · rcases Nat.eq_zero_or_pos w with hw0 | hwpos
      · left
        omega
      · right
        obtain ⟨w', rfl⟩ : ∃ w', w = w' + 1 := ⟨w - 1, by omega⟩
        rw [Nat.add_sub_cancel] at hpo hpd
        have hpe : prevIdx m.size idx = walkPos m0.size idxStart w' := by
          rw [hsz, hidx]
          exact prevIdx_walkPos m0.size idxStart w' hsz0
        rw [hpe]
        exact ⟨hpo, hpd⟩
  rw [exec] at hr
  simp only at hr
  by_cases h1 : (itemKeyBytes m (readItem m idx)).length = 0
  · rw [if_pos h1] at hr
    cases hr
    have hemp : ¬ occupied m idx := by
      intro ho
      have hl := keyBytesAt_length m idx hInvM hidxltM ho
      have h1' : (keyBytesAt m idx).length = 0 := h1
      exact ho (by omega)
    rcases hph with hpd | ⟨s, hpl⟩
    · -- phase 1: place the incoming pair
      obtain ⟨hio, his, hivo, hivs, hid, hm, hwalk⟩ := hpd
      subst hm
      set M : RHStore := { m0 with bytes := m0.bytes ++ v ++ k } with hM
      have hpkey : itemKeyBytes M inc = k := by
        unfold itemKeyBytes bytesRead
        rw [hio, his]
        show readBytesAt (m0.bytes ++ v ++ k) (m0.bytes.length + v.length) k.length = k
        rw [show m0.bytes.length + v.length = (m0.bytes ++ v).length by
          rw [List.length_append]]
        exact readBytesAt_append_right _ _
      have hpval : itemValBytes M inc = v := by
        unfold itemValBytes bytesRead
        rw [hivo, hivs]
        exact readBytesAt_middle m0.bytes v k
      have hhk : home M k = idxStart := by
        rw [hhomeM, ← hstart]
      have habs : ∀ t, t < M.size → occupied M t → keyBytesAt M t ≠ k := by
        apply key_absent_of_blocked M hInvM k w
        · intro j hj
          rw [hsz, hhk]
          exact fun _ => (hwalk j hj).2
        · left
          rw [hsz, hhk, ← hidx]
          exact hemp
      have hnc0 : ¬ containsKey m0 k := by
        intro hc
        rw [← containsKey_compat m0 (m0.bytes ++ v ++ k) hInv0
          (readCompat_append2 m0 v k) k] at hc
        obtain ⟨t, ht, hocct, hkeyt⟩ := hc
        exact habs t ht hocct hkeyt
      have hws := write_spec M idx inc (M.count + 1) hInvM hidxltM
        (by rw [his]; exact hknil)
        (by rw [hio, his]; omega)
        (by rw [hivo, hivs]; omega)
        (by rw [hpkey, hid, hsz, hhk, hidx]
            exact (cdist_walkPos m0.size idxStart w hstartlt hw).symm)
        (by rw [hmaxd]; exact hdle)
        (by intro i hi _ ho
            rw [hpkey]
            exact habs i hi ho)
        hpred'
        (fun ho => absurd ho hemp)
        (by rw [if_neg hemp])
      obtain ⟨hFInv, hFlook, hFframe, hFocc, _⟩ := hws
      have hFlk := hFlook
      rw [hpkey, hpval] at hFlk
      refine ⟨rfl, ?_⟩
      rw [if_pos rfl]
      refine ⟨rfl, hFInv, hFlk, ?_, ?_, ?_, rfl, rfl⟩
      · intro k2 hk2
        show lookup { writeItem M idx inc with count := M.count + 1 } k2 = lookup m0 k2
        rw [hFframe k2 (by rw [hpkey]; exact hk2) (fun ho => absurd ho hemp), hM]
        exact lookup_compat m0 _ hInv0 (readCompat_append2 m0 v k) k2
      · constructor
        · intro _
          exact hnc0
        · intro _
          rfl
      · show m0.count + 1 = m0.count + (if true = true then 1 else 0)
        norm_num
    · -- phase 2: place the displaced resident
      obtain ⟨hslt, hsocc, hskey, hsval, hpko, hpvo, hpks, hpdist, hpnotin, hpne,
        hrange0, hplook0, hknot0, hocc_eq, hframe, hlookk⟩ := hpl
      have hws := write_spec m idx inc (m.count + 1) hInvM hidxltM hpks
        (by omega)
        (by omega)
        (by rw [hsz, hhomeM, hidx]; exact hpdist)
        (by rw [hmaxd]; exact hdle)
        (by intro i hi hine ho
            rw [hsz] at hi
            exact hpnotin i hi ho)
        hpred'
        (fun ho => absurd ho hemp)
        (by rw [if_neg hemp])
      obtain ⟨hFInv, hFlook, hFframe, hFocc, _⟩ := hws
      refine ⟨rfl, ?_⟩
      rw [if_pos rfl]
      refine ⟨rfl, hFInv, ?_, ?_, ?_, ?_, ?_, ?_⟩
      · show lookup { writeItem m idx inc with count := m.count + 1 } k = some v
        rw [hFframe k (fun he => hpne he.symm) (fun ho => absurd ho hemp)]
        exact hlookk
      · intro k2 hk2
        show lookup { writeItem m idx inc with count := m.count + 1 } k2 = lookup m0 k2
        by_cases hkc2 : k2 = itemKeyBytes m inc
        · subst hkc2
          rw [hFlook, hplook0]
        · rw [hFframe k2 hkc2 (fun ho => absurd ho hemp)]
          exact hframe k2 hk2 hkc2
      · constructor
        · intro _
          exact hknot0
        · intro _
          rfl
      · show m.count + 1 = m0.count + (if true = true then 1 else 0)
        rw [hcount, if_pos rfl]
      · show m.hashFunc = m0.hashFunc
        exact hhash
      · show m.maxDistance = m0.maxDistance
        exact hmaxd
  · rw [if_neg h1] at hr
    have hocc : occupied m idx := occupied_of_keyBytes_ne_nil m idx h1
    by_cases h2 : itemKeyBytes m (readItem m idx) = itemKeyBytes m inc
    · rw [if_pos h2] at hr
      cases hr
      rcases hph with hpd | ⟨s, hpl⟩
      · -- phase 1: update in place, then the enclosing Set truncates the key bytes
        obtain ⟨hio, his, hivo, hivs, hid, hm, hwalk⟩ := hpd
        subst hm
        set M : RHStore := { m0 with bytes := m0.bytes ++ v ++ k } with hM
        set mV : RHStore := { m0 with bytes := m0.bytes ++ v } with hmV
        have hpkey : itemKeyBytes M inc = k := by
          unfold itemKeyBytes bytesRead
          rw [hio, his]
          show readBytesAt (m0.bytes ++ v ++ k) (m0.bytes.length + v.length) k.length = k
          rw [show m0.bytes.length + v.length = (m0.bytes ++ v).length by
            rw [List.length_append]]
          exact readBytesAt_append_right _ _
        have hocc0 : occupied m0 idx := hocc
        have hInvV : Inv mV := by
          rw [hmV]
          exact inv_compat m0 _ hInv0 (readCompat_append m0 v)
            (by rw [List.length_append]; omega)
        have hVbl : mV.bytes.length = m0.bytes.length + v.length := by
          rw [hmV]
          show (m0.bytes ++ v).length = _
          rw [List.length_append]
        have hkeyidx : keyBytesAt M idx = k := by
          rw [← hpkey]
          exact h2
        have hkey0 : keyBytesAt M idx = keyBytesAt m0 idx := by
          rw [hM]
          exact keyBytesAt_compat m0 _ idx (readCompat_append2 m0 v k)
            (hInv0.key_range idx hidxlt hocc0)
        have hkeyV0 : keyBytesAt mV idx = keyBytesAt m0 idx := by
          rw [hmV]
          exact keyBytesAt_compat m0 _ idx (readCompat_append m0 v)
            (hInv0.key_range idx hidxlt hocc0)
        have hkeyV : keyBytesAt mV idx = k := by
          rw [hkeyV0, ← hkey0, hkeyidx]
        have hoccV : occupied mV idx := hocc
        have hde2 : distanceOf (readItem M idx) = distanceOf inc := by
          have hd1 := hInvM.dist_eq idx hidxltM hocc
          rw [hkeyidx, hhomeM, ← hstart, hsz, hidx,
            cdist_walkPos m0.size idxStart w hstartlt hw] at hd1
          rw [hidx, hd1, hid]
        set UPD : Slot := encodeItem (keyOffsetOf (readItem mV idx))
          (keySizeOf (readItem mV idx)) (valOffsetOf inc) (valSizeOf inc)
          (distanceOf (readItem mV idx)) with hUPD
        have h5 : distanceOf inc = distanceOf (readItem mV idx) := hde2.symm
        have hupd : encodeItem (keyOffsetOf (readItem M idx)) (keySizeOf (readItem M idx))
            (valOffsetOf inc) (valSizeOf inc) (distanceOf inc) = UPD := by
          rw [hUPD]
          exact congrArg (encodeItem (keyOffsetOf (readItem M idx))
            (keySizeOf (readItem M idx)) (valOffsetOf inc) (valSizeOf inc)) h5
        have hUk : keySizeOf UPD = keySizeOf (readItem mV idx) := by
          rw [hUPD, keySizeOf_encode]
          exact Nat.mod_eq_of_lt (keySizeOf_lt _)
        have hUko : keyOffsetOf UPD = keyOffsetOf (readItem mV idx) := by
          rw [hUPD, keyOffsetOf_encode]
        have hUvo : valOffsetOf UPD = valOffsetOf inc := by
          rw [hUPD, valOffsetOf_encode]
        have hUvs : valSizeOf UPD = valSizeOf inc := by
          rw [hUPD, valSizeOf_encode]
          exact Nat.mod_eq_of_lt (valSizeOf_lt inc)
        have hUd : distanceOf UPD = distanceOf (readItem mV idx) := by
          rw [hUPD, distanceOf_encode]
          exact Nat.mod_eq_of_lt (distanceOf_lt _)
        have hkeyU : itemKeyBytes mV UPD = keyBytesAt mV idx := by
          unfold keyBytesAt itemKeyBytes
          rw [hUko, hUk]
        have hvalU : itemValBytes mV UPD = v := by
          unfold itemValBytes bytesRead
          rw [hUvo, hUvs, hivo, hivs]
          show readBytesAt (m0.bytes ++ v) m0.bytes.length v.length = v
          exact readBytesAt_append_right _ _
        have hrange6 : keyOffsetOf (readItem mV idx) + keySizeOf (readItem mV idx)
            ≤ m0.bytes.length := hInv0.key_range idx hidxlt hocc0
        have hws := write_spec mV idx UPD mV.count hInvV hidxlt
          (by rw [hUk]; exact hoccV)
          (by rw [hUko, hUk]; omega)
          (by rw [hUvo, hUvs, hivo, hivs]; omega)
          (by rw [hUd, hkeyU]
              exact hInvV.dist_eq idx hidxlt hoccV)
          (by rw [hUd]
              exact hInvV.dist_le idx hidxlt hoccV)
          (by intro i hi hine hoi
              rw [hkeyU]
              exact fun hkk => hine (hInvV.key_nodup i hi idx hidxlt hoi hoccV hkk))
          (by rcases Nat.eq_zero_or_pos (distanceOf UPD) with h0 | hpos
              · left
                exact h0
              · right
                rw [hUd] at hpos ⊢
                exact hInvV.loc_inv idx hidxlt hoccV hpos)
          (fun _ => le_of_eq hUd.symm)
          (by rw [if_pos hoccV]; ring)
        have hceq : ({ writeItem mV idx UPD with count := mV.count } : RHStore)
            = writeItem mV idx UPD := by
          apply rhstore_eq <;> rfl
        rw [hceq] at hws
        obtain ⟨hUInv, hUlook, hUframe, hUocc, _⟩ := hws
        have hfin : bytesTruncate (writeItem M idx
            (encodeItem (keyOffsetOf (readItem M idx)) (keySizeOf (readItem M idx))
              (valOffsetOf inc) (valSizeOf inc) (distanceOf inc))) ((m0.bytes ++ v).length)
            = writeItem mV idx UPD := by
          rw [hupd]
          apply rhstore_eq
          · rfl
          · rfl
          · show (m0.bytes ++ v ++ k).take ((m0.bytes ++ v).length) = m0.bytes ++ v
            exact List.take_left _ _
          · rfl
          · rfl
          · rfl
        refine ⟨rfl, ?_⟩
        rw [if_neg (fun hcc => Bool.noConfusion hcc)]
        show SetSpec m0 k v (bytesTruncate (writeItem M idx
          (encodeItem (keyOffsetOf (readItem M idx)) (keySizeOf (readItem M idx))
            (valOffsetOf inc) (valSizeOf inc) (distanceOf inc))) ((m0.bytes ++ v).length),
          false, none)
        rw [hfin]
        refine ⟨rfl, hUInv, ?_, ?_, ?_, ?_, rfl, rfl⟩
        · show lookup (writeItem mV idx UPD) k = some v
          have h7 := hUlook
          rw [hkeyU, hkeyV, hvalU] at h7
          exact h7
        · intro k2 hk2
          show lookup (writeItem mV idx UPD) k2 = lookup m0 k2
          have h8 := hUframe k2 (by rw [hkeyU, hkeyV]; exact hk2)
            (fun _ hk2e => hk2 (hk2e.trans hkeyV))
          rw [h8, hmV]
          exact lookup_compat m0 _ hInv0 (readCompat_append m0 v) k2
        · constructor
          · intro hft
            exact Bool.noConfusion hft
          · intro hnc
            exact absurd ⟨idx, hidxlt, hocc0, by rw [← hkey0]; exact hkeyidx⟩ hnc
        · show m0.count = m0.count + (if false = true then 1 else 0)
          norm_num
      · exact absurd h2 (hpl.hpnotin idx hidxlt hocc)
    · rw [if_neg h2] at hr
      by_cases hsw : distanceOf (readItem m idx) < distanceOf inc
      · rw [if_pos hsw, if_pos hsw] at hr
        have hlen3m : 3 * idx + 2 < m.slots.length := by
          rw [hInvM.slots_len]
          omega
        rcases hph with hpd | ⟨s, hpl⟩
        · -- phase 1, swapped: the pair lands here, the resident becomes pending
          obtain ⟨hio, his, hivo, hivs, hid, hm, hwalk⟩ := hpd
          subst hm
          set M : RHStore := { m0 with bytes := m0.bytes ++ v ++ k } with hM
          have hpkey : itemKeyBytes M inc = k := by
            unfold itemKeyBytes bytesRead
            rw [hio, his]
            show readBytesAt (m0.bytes ++ v ++ k) (m0.bytes.length + v.length) k.length = k
            rw [show m0.bytes.length + v.length = (m0.bytes ++ v).length by
              rw [List.length_append]]
            exact readBytesAt_append_right _ _
          have hpval : itemValBytes M inc = v := by
            unfold itemValBytes bytesRead
            rw [hivo, hivs]
            exact readBytesAt_middle m0.bytes v k
          have hhk : home M k = idxStart := by
            rw [hhomeM, ← hstart]
          have hcompat : ∀ k2, lookup M k2 = lookup m0 k2 := by
            intro k2
            rw [hM]
            exact lookup_compat m0 _ hInv0 (readCompat_append2 m0 v k) k2
          have habs : ∀ t, t < M.size → occupied M t → keyBytesAt M t ≠ k := by
            apply key_absent_of_blocked M hInvM k w
            · intro j hj
              rw [hsz, hhk]
              exact fun _ => (hwalk j hj).2
            · right
              rw [hsz, hhk, ← hidx]
              omega
          have hnc0 : ¬ containsKey m0 k := by
            intro hc
            rw [← containsKey_compat m0 (m0.bytes ++ v ++ k) hInv0
              (readCompat_append2 m0 v k) k] at hc
            obtain ⟨t, ht, hocct, hkeyt⟩ := hc
            exact habs t ht hocct hkeyt
          have hsc := swap_core M idx inc hInvM hidxltM hocc
            (by rw [his]; exact hknil)
            (by rw [hio, his]; omega)
            (by rw [hivo, hivs]; omega)
            (by rw [hpkey, hid, hsz, hhk, hidx]
                exact (cdist_walkPos m0.size idxStart w hstartlt hw).symm)
            (by rw [hmaxd]; exact hdle)
            (by intro i hi ho
                rw [hpkey]
                exact habs i hi ho)
            hpred'
            (le_of_lt hsw)
          obtain ⟨hWInv, hWlook, hWframe, hWocc, hWnone, hWkey, hWval, hWocc2⟩ := hsc
          have hkeyP2 : itemKeyBytes (writeItem M idx inc) (distanceAdd (readItem M idx) 1)
              = keyBytesAt M idx := by
            rw [itemKeyBytes_distanceAdd]
            show itemKeyBytes (writeItem M idx inc) (readItem M idx)
              = itemKeyBytes M (readItem M idx)
            exact itemKeyBytes_congr_bytes _ _ _ rfl
          have hvalP2 : itemValBytes (writeItem M idx inc) (distanceAdd (readItem M idx) 1)
              = valBytesAt M idx := by
            rw [itemValBytes_distanceAdd]
            show itemValBytes (writeItem M idx inc) (readItem M idx)
              = itemValBytes M (readItem M idx)
            exact itemValBytes_congr_bytes _ _ _ rfl
          have hdP2 : distanceOf (distanceAdd (readItem M idx) 1)
              = distanceOf (readItem M idx) + 1 :=
            distanceOf_distanceAdd_one _ (by omega)
          have hkoldlen : (keyBytesAt M idx).length = keySizeOf (readItem M idx) :=
            keyBytesAt_length M idx hInvM hidxltM hocc
          have hkold_ne : keyBytesAt M idx ≠ k := by
            intro he
            apply h2
            rw [hpkey]
            exact he
          have hold_kr : keyOffsetOf (readItem M idx) + keySizeOf (readItem M idx)
              ≤ m0.bytes.length := hInv0.key_range idx hidxlt hocc
          have hold_vr : valOffsetOf (readItem M idx) + valSizeOf (readItem M idx)
              ≤ m0.bytes.length := hInv0.val_range idx hidxlt hocc
          have hold_home0 : home m0 (keyBytesAt M idx) < m0.size := home_lt m0 _ hsz0
          have hold_dist : distanceOf (readItem M idx)
              = cdist m0.size (home m0 (keyBytesAt M idx)) idx := by
            have h6 := hInvM.dist_eq idx hidxltM hocc
            rw [hhomeM, hsz] at h6
            exact h6
          have hlkold : lookup m0 (keyBytesAt M idx) = some (valBytesAt M idx) := by
            rw [← hcompat]
            exact lookup_eq_some_intro M _ idx hInvM.key_nodup hidxltM hocc rfl
          have hocc_eqM : occCount M = occCount m0 := by
            rw [hM]
            rfl
          have hlookWk : lookup (writeItem M idx inc) k = some v := by
            have h6 := hWlook
            rw [hpkey, hpval] at h6
            exact h6
          by_cases h3 : (writeItem M idx inc).maxDistance <
              distanceOf (distanceAdd (readItem M idx) 1) ∨
              nextIdx (writeItem M idx inc).size idx = idxStart
          · rw [if_pos h3] at hr
            cases hcopy : exec f (.copyRun (visitPairs (writeItem M idx inc))
                (growTarget (writeItem M idx inc) (2 * (writeItem M idx inc).size))) with
            | none =>
              rw [hcopy] at hr
              cases hr
            | some rg =>
              obtain ⟨g1, wg, eg⟩ := rg
              rw [hcopy] at hr
              simp only at hr
              refine grow_spec f ihSet m0 k v (writeItem M idx inc)
                (distanceAdd (readItem M idx) 1) g1 r hInv0 ?_ rfl rfl ?_ ?_ ?_ hnc0
                (copy_rebuild (writeItem M idx inc) g1 wg eg hWInv
                  (ihCopy _ _ _ (copyPre_visit (writeItem M idx inc) hWInv) hcopy)) hr
              · rw [hWocc]
                exact hocc_eqM
              · rw [hkeyP2, hvalP2]
                refine ⟨keyBytesAt_ne_nil M idx hInvM hidxltM hocc, ?_, ?_⟩
                · rw [hkoldlen]
                  have h6 := keySizeOf_lt (readItem M idx)
                  have h7 : MaxKeyLen = 2 ^ 25 - 1 := by decide
                  omega
                · rw [valBytesAt_length M idx hInvM hidxltM hocc]
                  have h6 := valSizeOf_lt (readItem M idx)
                  have h7 : MaxValLen = 2 ^ 25 - 1 := by decide
                  omega
              · rw [hkeyP2]
                exact hWnone
              · right
                refine ⟨?_, ?_, hlookWk, ?_⟩
                · rw [hkeyP2]
                  exact hkold_ne
                · rw [hkeyP2, hvalP2]
                  exact hlkold
                · intro k2 hk2 hk2p
                  rw [hkeyP2] at hk2p
                  rw [hWframe k2 (by rw [hpkey]; exact hk2) hk2p]
                  exact hcompat k2
          · rw [if_neg h3] at hr
            push_neg at h3
            obtain ⟨h3a, h3b⟩ := h3
            have hidx2 : nextIdx (writeItem M idx inc).size idx
                = walkPos m0.size idxStart (w + 1) := by
              show nextIdx m0.size idx = _
              rw [hidx]
              exact nextIdx_walkPos m0.size idxStart w hsz0
            have hw1lt : w + 1 < m0.size := by
              rcases Nat.lt_or_ge (w + 1) m0.size with h | h
              · exact h
              · exfalso
                apply h3b
                rw [hidx2]
                have he : w + 1 = m0.size := by omega
                rw [he]
                show (idxStart + m0.size) % m0.size = idxStart
                rw [Nat.add_mod_right]
                exact Nat.mod_eq_of_lt hstartlt
            have h6 : idx = walkPos m0.size (home m0 (keyBytesAt M idx))
                (distanceOf (readItem M idx)) := by
              rw [hold_dist]
              exact pos_eq_walkPos m0.size _ idx hold_home0 hidxlt
            have h8 : nextIdx m0.size idx = walkPos m0.size (home m0 (keyBytesAt M idx))
                (distanceOf (readItem M idx) + 1) := by
              conv_lhs => rw [h6]
              exact nextIdx_walkPos m0.size _ _ hsz0
            refine ihProbe m0 k v (writeItem M idx inc) (distanceAdd (readItem M idx) 1)
              (nextIdx (writeItem M idx inc).size idx) idxStart (w + 1) r
              ⟨hInv0, hWInv, hkv, hstart, hidx2, hw1lt, rfl, rfl, rfl, rfl, rfl,
                h3a, ?_, ?_⟩
              (Or.inr ⟨idx, hidxlt, hWocc2, ?_, ?_, ?_, ?_, ?_, ?_, ?_, ?_, ?_, ?_,
                hnc0, ?_, ?_, hlookWk⟩) hr
            · rw [hdP2]
              omega
            · right
              rw [Nat.add_sub_cancel, ← hidx]
              refine ⟨hWocc2, ?_⟩
              rw [hdP2, readItem_writeItem_self M idx inc hlen3m]
              omega
            · rw [hWkey]
              exact hpkey
            · rw [hWval]
              exact hpval
            · rw [keyOffsetOf_distanceAdd, keySizeOf_distanceAdd]
              exact hold_kr
            · rw [valOffsetOf_distanceAdd, valSizeOf_distanceAdd]
              exact hold_vr
            · rw [keySizeOf_distanceAdd]
              exact hocc
            · rw [hdP2, hkeyP2, ← hidx2]
              rw [show nextIdx (writeItem M idx inc).size idx = nextIdx m0.size idx
                from rfl]
              rw [h8, cdist_walkPos m0.size _ _ hold_home0 (by omega)]
            · intro i hi ho
              rw [hkeyP2]
              exact (lookup_eq_none_iff _ _).mp hWnone i hi ho
            · rw [hkeyP2]
              exact hkold_ne
            · intro i hi ho hine
              have h9 : readItem (writeItem M idx inc) i = readItem M i :=
                readItem_writeItem_ne M idx i inc (fun he => hine he.symm)
              rw [h9]
              have hoM : occupied M i := by
                unfold occupied at ho ⊢
                rw [h9] at ho
                exact ho
              exact ⟨hInv0.key_range i hi hoM, hInv0.val_range i hi hoM⟩
            · rw [hkeyP2, hvalP2]
              exact hlkold
            · rw [hWocc]
              exact hocc_eqM
            · intro k2 hk2 hk2p
              rw [hkeyP2] at hk2p
              rw [hWframe k2 (by rw [hpkey]; exact hk2) hk2p]
              exact hcompat k2
        · -- phase 2, swapped: the pending resident lands here, the new
          -- resident becomes pending
          obtain ⟨hslt, hsocc, hskey, hsval, hpko, hpvo, hpks, hpdist, hpnotin, hpne,
            hrange0, hplook0, hknot0, hocc_eq, hframe, hlookk⟩ := hpl
          have hsltM : s < m.size := by
            rw [hsz]
            exact hslt
          have hsne : s ≠ idx := by
            intro he
            subst he
            have hds : distanceOf (readItem m s) = cdist m0.size (home m0 k) s := by
              have h6 := hInvM.dist_eq s hidxltM hocc
              rw [hskey, hhomeM, hsz] at h6
              exact h6
            have h7 : cdist m0.size idxStart s = w := by
              rw [hidx]
              exact cdist_walkPos m0.size idxStart w hstartlt hw
            rw [← hstart, h7] at hds
            omega
          have hnotinP : ∀ i, i < m.size → occupied m i →
              keyBytesAt m i ≠ itemKeyBytes m inc := by
            intro i hi ho
            rw [hsz] at hi
            exact hpnotin i hi ho
          have hsc := swap_core m idx inc hInvM hidxltM hocc hpks
            (by omega)
            (by omega)
            (by rw [hsz, hhomeM, hidx]
                exact hpdist)
            (by rw [hmaxd]; exact hdle)
            hnotinP
            hpred'
            (le_of_lt hsw)
          obtain ⟨hWInv, hWlook, hWframe, hWocc, hWnone, hWkey, hWval, hWocc2⟩ := hsc
          have hkeyP2 : itemKeyBytes (writeItem m idx inc) (distanceAdd (readItem m idx) 1)
              = keyBytesAt m idx := by
            rw [itemKeyBytes_distanceAdd]
            show itemKeyBytes (writeItem m idx inc) (readItem m idx)
              = itemKeyBytes m (readItem m idx)
            exact itemKeyBytes_congr_bytes _ _ _ rfl
          have hvalP2 : itemValBytes (writeItem m idx inc) (distanceAdd (readItem m idx) 1)
              = valBytesAt m idx := by
            rw [itemValBytes_distanceAdd]
            show itemValBytes (writeItem m idx inc) (readItem m idx)
              = itemValBytes m (readItem m idx)
            exact itemValBytes_congr_bytes _ _ _ rfl
          have hdP2 : distanceOf (distanceAdd (readItem m idx) 1)
              = distanceOf (readItem m idx) + 1 :=
            distanceOf_distanceAdd_one _ (by omega)
          have hold_ne_k : keyBytesAt m idx ≠ k := by
            intro he
            have h6 : idx = s := hInvM.key_nodup idx hidxltM s hsltM hocc hsocc
              (by rw [he, hskey])
            exact hsne h6.symm
          have hold_ne_P : keyBytesAt m idx ≠ itemKeyBytes m inc :=
            hpnotin idx hidxlt hocc
          have hlkold0 : lookup m0 (keyBytesAt m idx) = some (valBytesAt m idx) := by
            rw [← hframe (keyBytesAt m idx) hold_ne_k hold_ne_P]
            exact lookup_eq_some_intro m _ idx hInvM.key_nodup hidxltM hocc rfl
          have hold_kr : keyOffsetOf (readItem m idx) + keySizeOf (readItem m idx)
              ≤ m0.bytes.length := (hrange0 idx hidxlt hocc (fun he => hsne he.symm)).1
          have hold_vr : valOffsetOf (readItem m idx) + valSizeOf (readItem m idx)
              ≤ m0.bytes.length := (hrange0 idx hidxlt hocc (fun he => hsne he.symm)).2
          have hold_home0 : home m0 (keyBytesAt m idx) < m0.size := home_lt m0 _ hsz0
          have hold_dist : distanceOf (readItem m idx)
              = cdist m0.size (home m0 (keyBytesAt m idx)) idx := by
            have h6 := hInvM.dist_eq idx hidxltM hocc
            rw [hhomeM, hsz] at h6
            exact h6
          have hWskey : keyBytesAt (writeItem m idx inc) s = k := by
            rw [keyBytesAt_writeItem_ne m idx inc s hsne]
            exact hskey
          have hWsval : valBytesAt (writeItem m idx inc) s = v := by
            rw [valBytesAt_writeItem_ne m idx inc s hsne]
            exact hsval
          have hWsocc : occupied (writeItem m idx inc) s :=
            (occupied_writeItem_ne m idx inc s hsne).mpr hsocc
          have hWframe0 : ∀ k2, k2 ≠ k → k2 ≠ keyBytesAt m idx →
              lookup (writeItem m idx inc) k2 = lookup m0 k2 := by
            intro k2 hk2 hk2o
            by_cases hk2p : k2 = itemKeyBytes m inc
            · subst hk2p
              rw [hWlook, hplook0]
            · rw [hWframe k2 hk2p hk2o]
              exact hframe k2 hk2 hk2p
          have hWlookk : lookup (writeItem m idx inc) k = some v := by
            have h6 := lookup_eq_some_intro (writeItem m idx inc) k s hWInv.key_nodup
              (by rw [writeItem_size]; exact hsltM) hWsocc hWskey
            rw [hWsval] at h6
            exact h6
          have hWocc0 : occCount (writeItem m idx inc) = occCount m0 := by
            rw [hWocc]
            exact hocc_eq
          have hkoldlen : (keyBytesAt m idx).length = keySizeOf (readItem m idx) :=
            keyBytesAt_length m idx hInvM hidxltM hocc
          by_cases h3 : (writeItem m idx inc).maxDistance <
              distanceOf (distanceAdd (readItem m idx) 1) ∨
              nextIdx (writeItem m idx inc).size idx = idxStart
          · rw [if_pos h3] at hr
            cases hcopy : exec f (.copyRun (visitPairs (writeItem m idx inc))
                (growTarget (writeItem m idx inc) (2 * (writeItem m idx inc).size))) with
            | none =>
              rw [hcopy] at hr
              cases hr
            | some rg =>
              obtain ⟨g1, wg, eg⟩ := rg
              rw [hcopy] at hr
              simp only at hr
              refine grow_spec f ihSet m0 k v (writeItem m idx inc)
                (distanceAdd (readItem m idx) 1) g1 r hInv0 hWocc0
                (by rw [writeItem_hashFunc]; exact hhash)
                (by rw [writeItem_maxDistance]; exact hmaxd)
                ?_ ?_ ?_ hknot0
                (copy_rebuild (writeItem m idx inc) g1 wg eg hWInv
                  (ihCopy _ _ _ (copyPre_visit (writeItem m idx inc) hWInv) hcopy)) hr
              · rw [hkeyP2, hvalP2]
                refine ⟨keyBytesAt_ne_nil m idx hInvM hidxltM hocc, ?_, ?_⟩
                · rw [hkoldlen]
                  have h6 := keySizeOf_lt (readItem m idx)
                  have h7 : MaxKeyLen = 2 ^ 25 - 1 := by decide
                  omega
                · rw [valBytesAt_length m idx hInvM hidxltM hocc]
                  have h6 := valSizeOf_lt (readItem m idx)
                  have h7 : MaxValLen = 2 ^ 25 - 1 := by decide
                  omega
              · rw [hkeyP2]
                exact hWnone
              · right
                refine ⟨?_, ?_, hWlookk, ?_⟩
                · rw [hkeyP2]
                  exact hold_ne_k
                · rw [hkeyP2, hvalP2]
                  exact hlkold0
                · intro k2 hk2 hk2p
                  rw [hkeyP2] at hk2p
                  exact hWframe0 k2 hk2 hk2p
          · rw [if_neg h3] at hr
            push_neg at h3
            obtain ⟨h3a, h3b⟩ := h3
            have hidx2 : nextIdx (writeItem m idx inc).size idx
                = walkPos m0.size idxStart (w + 1) := by
              rw [writeItem_size, hsz, hidx]
              exact nextIdx_walkPos m0.size idxStart w hsz0
            have hw1lt : w + 1 < m0.size := by
              rcases Nat.lt_or_ge (w + 1) m0.size with h | h
              · exact h
              · exfalso
                apply h3b
                rw [hidx2]
                have he : w + 1 = m0.size := by omega
                rw [he]
                show (idxStart + m0.size) % m0.size = idxStart
                rw [Nat.add_mod_right]
                exact Nat.mod_eq_of_lt hstartlt
            have h6 : idx = walkPos m0.size (home m0 (keyBytesAt m idx))
                (distanceOf (readItem m idx)) := by
              rw [hold_dist]
              exact pos_eq_walkPos m0.size _ idx hold_home0 hidxlt
            have h8 : nextIdx m0.size idx = walkPos m0.size (home m0 (keyBytesAt m idx))
                (distanceOf (readItem m idx) + 1) := by
              conv_lhs => rw [h6]
              exact nextIdx_walkPos m0.size _ _ hsz0
            refine ihProbe m0 k v (writeItem m idx inc) (distanceAdd (readItem m idx) 1)
              (nextIdx (writeItem m idx inc).size idx) idxStart (w + 1) r
              ⟨hInv0, hWInv, hkv, hstart, hidx2, hw1lt,
                (by rw [writeItem_size]; exact hsz),
                (by rw [writeItem_hashFunc]; exact hhash),
                (by rw [writeItem_maxDistance]; exact hmaxd),
                (by rw [writeItem_bytes]; exact hbytes),
                (by rw [writeItem_count]; exact hcount),
                (by rw [writeItem_maxDistance] at h3a; exact (by rw [← hmaxd]; exact h3a)),
                ?_, ?_⟩
              (Or.inr ⟨s, hslt, hWsocc, hWskey, hWsval, ?_, ?_, ?_, ?_, ?_, ?_, ?_, ?_,
                hknot0, hWocc0, ?_, hWlookk⟩) hr
            · rw [hdP2]
              omega
            · right
              rw [Nat.add_sub_cancel, ← hidx]
              refine ⟨hWocc2, ?_⟩
              rw [hdP2, readItem_writeItem_self m idx inc hlen3m]
              omega
            · rw [keyOffsetOf_distanceAdd, keySizeOf_distanceAdd]
              exact hold_kr
            · rw [valOffsetOf_distanceAdd, valSizeOf_distanceAdd]
              exact hold_vr
            · rw [keySizeOf_distanceAdd]
              exact hocc
            · rw [hdP2, hkeyP2, ← hidx2]
              have h9 : nextIdx (writeItem m idx inc).size idx = nextIdx m0.size idx := by
                rw [writeItem_size, hsz]
              rw [h9, h8, cdist_walkPos m0.size _ _ hold_home0 (by omega)]
            · intro i hi ho
              rw [hkeyP2]
              exact (lookup_eq_none_iff _ _).mp hWnone i
                (by rw [writeItem_size, hsz]; exact hi) ho
            · rw [hkeyP2]
              exact hold_ne_k
            · intro i hi ho hine
              by_cases hie : i = idx
              · subst hie
                rw [readItem_writeItem_self m i inc hlen3m]
                exact ⟨hpko, hpvo⟩
              · have h9 : readItem (writeItem m idx inc) i = readItem m i :=
                  readItem_writeItem_ne m idx i inc (fun he => hie he.symm)
                rw [h9]
                have hoM : occupied m i := by
                  unfold occupied at ho ⊢
                  rw [h9] at ho
                  exact ho
                exact hrange0 i hi hoM hine
            · rw [hkeyP2, hvalP2]
              exact hlkold0
            · intro k2 hk2 hk2p
              rw [hkeyP2] at hk2p
              exact hWframe0 k2 hk2 hk2p
      · rw [if_neg hsw, if_neg hsw] at hr
        have hdinc2 : distanceOf (distanceAdd inc 1) = distanceOf inc + 1 :=
          distanceOf_distanceAdd_one inc (by omega)
        by_cases h3 : m.maxDistance < distanceOf (distanceAdd inc 1) ∨
            nextIdx m.size idx = idxStart
        · rw [if_pos h3] at hr
          have hbound : m0.maxDistance ≤ w ∨ m0.size = w + 1 := by
            rcases h3 with h3a | h3b
            · left
              rw [hdinc2, hmaxd] at h3a
              omega
            · right
              have hnx : nextIdx m.size idx = walkPos m0.size idxStart (w + 1) := by
                rw [hsz, hidx]
                exact nextIdx_walkPos m0.size idxStart w hsz0
              have h6 : walkPos m0.size idxStart (w + 1) = idxStart := by
                rw [← hnx]
                exact h3b
              rcases Nat.lt_or_ge (w + 1) m0.size with hlt | hge
              · exfalso
                have h7 := cdist_walkPos m0.size idxStart (w + 1) hstartlt hlt
                rw [h6, cdist_self m0.size idxStart hsz0] at h7
                omega
              · omega
          rcases hph with hpd | ⟨s, hpl⟩
          · -- phase 1, not swapped, grow: the pending pair is still (k, v)
            obtain ⟨hio, his, hivo, hivs, hid, hm, hwalk⟩ := hpd
            subst hm
            set M : RHStore := { m0 with bytes := m0.bytes ++ v ++ k } with hM
            have hpkey : itemKeyBytes M inc = k := by
              unfold itemKeyBytes bytesRead
              rw [hio, his]
              show readBytesAt (m0.bytes ++ v ++ k) (m0.bytes.length + v.length)
                k.length = k
              rw [show m0.bytes.length + v.length = (m0.bytes ++ v).length by
                rw [List.length_append]]
              exact readBytesAt_append_right _ _
            have hpval : itemValBytes M inc = v := by
              unfold itemValBytes bytesRead
              rw [hivo, hivs]
              exact readBytesAt_middle m0.bytes v k
            have hhk : home M k = idxStart := by
              rw [hhomeM, ← hstart]
            have hcompat : ∀ k2, lookup M k2 = lookup m0 k2 := by
              intro k2
              rw [hM]
              exact lookup_compat m0 _ hInv0 (readCompat_append2 m0 v k) k2
            have habs : ∀ t, t < M.size → occupied M t → keyBytesAt M t ≠ k := by
              apply key_absent_upto M hInvM k w
              · intro j hj
                rw [hsz, hhk]
                exact fun _ => (hwalk j hj).2
              · rw [hsz, hhk, ← hidx]
                intro _ he
                apply h2
                rw [hpkey]
                exact he
              · rcases hbound with hb | hb
                · left
                  rw [hmaxd]
                  exact hb
                · right
                  rw [hsz]
                  exact hb
            have hMabs : lookup M k = none := by
              rw [lookup_eq_none_iff]
              exact habs
            have hnc0 : ¬ containsKey m0 k := by
              intro hc
              rw [← containsKey_compat m0 (m0.bytes ++ v ++ k) hInv0
                (readCompat_append2 m0 v k) k] at hc
              obtain ⟨t, ht, hocct, hkeyt⟩ := hc
              exact habs t ht hocct hkeyt
            cases hcopy : exec f (.copyRun (visitPairs M) (growTarget M (2 * M.size))) with
            | none =>
              rw [hcopy] at hr
              cases hr
            | some rg =>
              obtain ⟨g1, wg, eg⟩ := rg
              rw [hcopy] at hr
              simp only at hr
              refine grow_spec f ihSet m0 k v M (distanceAdd inc 1) g1 r hInv0
                (by rw [hM]; rfl) rfl rfl ?_ ?_ ?_ hnc0
                (copy_rebuild M g1 wg eg hInvM
                  (ihCopy _ _ _ (copyPre_visit M hInvM) hcopy)) hr
              · rw [itemKeyBytes_distanceAdd, itemValBytes_distanceAdd, hpkey, hpval]
                exact hkv
              · rw [itemKeyBytes_distanceAdd, hpkey]
                exact hMabs
              · left
                refine ⟨?_, ?_, ?_⟩
                · rw [itemKeyBytes_distanceAdd]
                  exact hpkey
                · rw [itemValBytes_distanceAdd]
                  exact hpval
                · intro k2 _
                  exact hcompat k2
          · -- phase 2, not swapped, grow: the pending displaced resident
            obtain ⟨hslt, hsocc, hskey, hsval, hpko, hpvo, hpks, hpdist, hpnotin, hpne,
              hrange0, hplook0, hknot0, hocc_eq, hframe, hlookk⟩ := hpl
            have hPlen : (itemKeyBytes m inc).length = keySizeOf inc := by
              unfold itemKeyBytes bytesRead
              exact length_readBytesAt _ _ _ (by omega)
            have hPvlen : (itemValBytes m inc).length = valSizeOf inc := by
              unfold itemValBytes bytesRead
              exact length_readBytesAt _ _ _ (by omega)
            have hmabs : lookup m (itemKeyBytes m inc) = none := by
              rw [lookup_eq_none_iff]
              intro i hi ho
              rw [hsz] at hi
              exact hpnotin i hi ho
            cases hcopy : exec f (.copyRun (visitPairs m) (growTarget m (2 * m.size))) with
            | none =>
              rw [hcopy] at hr
              cases hr
            | some rg =>
              obtain ⟨g1, wg, eg⟩ := rg
              rw [hcopy] at hr
              simp only at hr
              refine grow_spec f ihSet m0 k v m (distanceAdd inc 1) g1 r hInv0
                hocc_eq hhash hmaxd ?_ ?_ ?_ hknot0
                (copy_rebuild m g1 wg eg hInvM
                  (ihCopy _ _ _ (copyPre_visit m hInvM) hcopy)) hr
              · rw [itemKeyBytes_distanceAdd, itemValBytes_distanceAdd]
                refine ⟨?_, ?_, ?_⟩
                · intro he
                  apply hpks
                  rw [← hPlen, he]
                  rfl
                · rw [hPlen]
                  have h6 := keySizeOf_lt inc
                  have h7 : MaxKeyLen = 2 ^ 25 - 1 := by decide
                  omega
                · rw [hPvlen]
                  have h6 := valSizeOf_lt inc
                  have h7 : MaxValLen = 2 ^ 25 - 1 := by decide
                  omega
              · rw [itemKeyBytes_distanceAdd]
                exact hmabs
              · right
                refine ⟨?_, ?_, hlookk, ?_⟩
                · rw [itemKeyBytes_distanceAdd]
                  exact hpne
                · rw [itemKeyBytes_distanceAdd, itemValBytes_distanceAdd]
                  exact hplook0
                · intro k2 hk2 hk2p
                  rw [itemKeyBytes_distanceAdd] at hk2p
                  exact hframe k2 hk2 hk2p
        · rw [if_neg h3] at hr
          push_neg at h3
          obtain ⟨h3a, h3b⟩ := h3
          have hidx2 : nextIdx m.size idx = walkPos m0.size idxStart (w + 1) := by
            rw [hsz, hidx]
            exact nextIdx_walkPos m0.size idxStart w hsz0
          have hw1lt : w + 1 < m0.size := by
            rcases Nat.lt_or_ge (w + 1) m0.size with h | h
            · exact h
            · exfalso
              apply h3b
              rw [hidx2]
              have he : w + 1 = m0.size := by omega
              rw [he]
              show (idxStart + m0.size) % m0.size = idxStart
              rw [Nat.add_mod_right]
              exact Nat.mod_eq_of_lt hstartlt
          have hnewdle : distanceOf (distanceAdd inc 1) ≤ m0.maxDistance := by
            rw [← hmaxd]
            exact h3a
          have hnewdw : distanceOf (distanceAdd inc 1) ≤ w + 1 := by
            rw [hdinc2]
            omega
          have hnewpred : w + 1 = 0 ∨ (occupied m (walkPos m0.size idxStart (w + 1 - 1)) ∧
              distanceOf (distanceAdd inc 1)
                ≤ distanceOf (readItem m (walkPos m0.size idxStart (w + 1 - 1))) + 1) := by
            right
            rw [Nat.add_sub_cancel, ← hidx]
            refine ⟨hocc, ?_⟩
            rw [hdinc2]
            omega
          rcases hph with hpd | ⟨s, hpl⟩
          · -- phase 1 continues walking
            have hpkey : itemKeyBytes m inc = k := by
              unfold itemKeyBytes bytesRead
              rw [hpd.hio, hpd.his, hbytes]
              rw [show m0.bytes.length + v.length = (m0.bytes ++ v).length by
                rw [List.length_append]]
              exact readBytesAt_append_right _ _
            have hocc' : occupied m (walkPos m0.size idxStart w) := by
              rw [← hidx]
              exact hocc
            have hne' : keyBytesAt m (walkPos m0.size idxStart w) ≠ k := by
              rw [← hidx]
              intro he
              apply h2
              rw [hpkey]
              exact he
            refine ihProbe m0 k v m (distanceAdd inc 1) (nextIdx m.size idx) idxStart
              (w + 1) r
              ⟨hInv0, hInvM, hkv, hstart, hidx2, hw1lt, hsz, hhash, hmaxd, hbytes,
                hcount, hnewdle, hnewdw, hnewpred⟩
              (Or.inl (pending_bump m0 k v m inc idxStart w hpd hocc' hne' (by omega)))
              hr
          · -- phase 2 continues walking
            refine ihProbe m0 k v m (distanceAdd inc 1) (nextIdx m.size idx) idxStart
              (w + 1) r
              ⟨hInv0, hInvM, hkv, hstart, hidx2, hw1lt, hsz, hhash, hmaxd, hbytes,
                hcount, hnewdle, hnewdw, hnewpred⟩
              (Or.inr ⟨s, placed_bump m0 k v m inc idxStart w s hsz0 hpl hw1lt hdw
                (by omega)⟩)
              hr

/-- The master correctness theorem of the Set interpreter: with any
fuel, a completing call satisfies its specification — Set meets
SetSpec on valid inputs, SetOffsets and the probe loop meet the
SetOffsets contract, and CopyTo meets the rebuild contract. -/
theorem exec_master : ∀ f : Nat,
    (∀ m k v r, Inv m → validKV k v → exec f (.set m k v) = some r → SetSpec m k v r) ∧
    (∀ m0 k v r, Inv m0 → validKV k v →
      exec f (.setOffsets { m0 with bytes := m0.bytes ++ v ++ k }
        ((m0.bytes ++ v).length) k.length m0.bytes.length v.length) = some r →
      SORes m0 k v r) ∧
    (∀ m0 k v m inc idx idxStart w r,
      ProbeCommon m0 k v m inc idx idxStart w →
      (ProbePending m0 k v m inc idxStart w ∨ ∃ s, ProbePlaced m0 k v m inc idxStart w s) →
      exec f (.probe m inc idx idxStart) = some r → SORes m0 k v r) ∧
    (∀ items g r, CopyPre items g → exec f (.copyRun items g) = some r →
      CopySpec items g r) := by
  intro f
  induction f with
  | zero =>
    refine ⟨?_, ?_, ?_, ?_⟩
    · intro m k v r _ _ hr
      simp [exec] at hr
    · intro m0 k v r _ _ hr
      simp [exec] at hr
    · intro m0 k v m inc idx idxStart w r _ _ hr
      simp [exec] at hr
    · intro items g r _ hr
      simp [exec] at hr
  | succ f ih =>
    obtain ⟨ihSet, ihSO, ihProbe, ihCopy⟩ := ih
    exact ⟨master_set_step f ihSO, master_setOffsets_step f ihProbe,
      master_probe_step f ihSet ihProbe ihCopy, master_copy_step f ihSet ihCopy⟩

/-! ### Invariant preservation for Set, Reset and fresh stores -/

theorem inv_newRHStore (sz : Nat) (h : List Nat → Nat) (hsz : 0 < sz) :
    Inv (newRHStore sz h) := by
  have hro := readItem_newRHStore sz h
  have hnocc := not_occupied_newRHStore sz h
  constructor
  · exact hsz
  · show (List.replicate (sz * ItemLen) (0 : Nat)).length = 3 * sz
    rw [List.length_replicate]
    unfold ItemLen
    ring
  · show 10 + 1 < 2 ^ 14
    norm_num
  · intro i _ _
    exact hro i
  · intro i _ hocc
    exact absurd hocc (hnocc i)
  · intro i _ hocc
    exact absurd hocc (hnocc i)
  · intro i _ hocc
    exact absurd hocc (hnocc i)
  · intro i _ hocc
    exact absurd hocc (hnocc i)
  · intro i _ hocc
    exact absurd hocc (hnocc i)
  · intro i _ j _ hocc
    exact absurd hocc (hnocc i)
  · show (0 : Int) = (occCount (newRHStore sz h) : Int)
    have hz : occCount (newRHStore sz h) = 0 := by
      rw [occCount_eq_countP, List.countP_eq_zero]
      intro i _
      simp only [decide_eq_true_eq]
      exact hnocc i
    rw [hz]
    rfl

theorem readItem_reset (m : RHStore) (i : Nat) : readItem (reset m) i = (0, 0, 0) := by
  unfold reset bytesTruncate readItem
  simp only
  have hz : ∀ j, (List.replicate m.slots.length (0 : Nat)).getD j 0 = 0 := by
    intro j
    rw [List.getD_eq_getElem?_getD, List.getElem?_replicate]
    by_cases hj : j < m.slots.length
    · rw [if_pos hj]
      rfl
    · rw [if_neg hj]
      rfl
  rw [hz, hz, hz]

theorem not_occupied_reset (m : RHStore) (i : Nat) : ¬ occupied (reset m) i := by
  intro hocc
  apply hocc
  rw [readItem_reset]
  exact keySizeOf_zero

theorem reset_inv (m : RHStore) (hInv : Inv m) : Inv (reset m) := by
  have hro := readItem_reset m
  have hnocc := not_occupied_reset m
  have hsz : (reset m).size = m.size := rfl
  constructor
  · rw [hsz]
    exact hInv.size_pos
  · show (List.replicate m.slots.length (0 : Nat)).length = 3 * m.size
    rw [List.length_replicate]
    exact hInv.slots_len
  · exact hInv.maxd_small
  · intro i _ _
    exact hro i
  · intro i _ hocc
    exact absurd hocc (hnocc i)
  · intro i _ hocc
    exact absurd hocc (hnocc i)
  · intro i _ hocc
    exact absurd hocc (hnocc i)
  · intro i _ hocc
    exact absurd hocc (hnocc i)
  · intro i _ hocc
    exact absurd hocc (hnocc i)
  · intro i _ j _ hocc
    exact absurd hocc (hnocc i)
  · show (0 : Int) = (occCount (reset m) : Int)
    have hz : occCount (reset m) = 0 := by
      rw [occCount_eq_countP, List.countP_eq_zero]
      intro i _
      simp only [decide_eq_true_eq]
      exact hnocc i
    rw [hz]
    rfl

/-- Set preserves the invariant on any input: the validation paths
return the store unchanged, the valid path satisfies SetSpec. -/
theorem set_inv (f : Nat) (m : RHStore) (k v : List Nat) (r : SRes)
    (hInv : Inv m) (hr : exec f (.set m k v) = some r) : Inv r.1 := by
  cases f with
  | zero => simp [exec] at hr
  | succ f =>
    by_cases hk0 : k.length = 0
    · rw [exec] at hr
      simp only [if_pos hk0] at hr
      cases hr
      exact hInv
    · by_cases hk1 : MaxKeyLen < k.length
      · rw [exec] at hr
        simp only [if_neg hk0, if_pos hk1] at hr
        cases hr
        exact hInv
      · by_cases hv1 : MaxValLen < v.length
        · rw [exec] at hr
          simp only [if_neg hk0, if_neg hk1, if_pos hv1] at hr
          cases hr
          exact hInv
        · have hkv : validKV k v :=
            ⟨fun he => hk0 (by rw [he]; rfl), by omega, by omega⟩
          exact ((exec_master (f + 1)).1 m k v r hInv hkv hr).2.1

/-! ### Invariant preservation for Del -/

theorem prevIdx_lt (sz i : Nat) (h0 : 0 < sz) : prevIdx sz i < sz :=
  Nat.mod_lt _ h0

theorem nextIdx_eq_walkPos_one (sz h : Nat) (hh : h < sz) :
    nextIdx sz h = walkPos sz h 1 := by
  have h0 : 0 < sz := by omega
  have hx := nextIdx_walkPos sz h 0 h0
  rw [walkPos_zero sz h hh, Nat.zero_add] at hx
  exact hx

theorem prevIdx_nextIdx (sz h : Nat) (hh : h < sz) :
    prevIdx sz (nextIdx sz h) = h := by
  have h0 : 0 < sz := by omega
  rw [nextIdx_eq_walkPos_one sz h hh,
    show (1 : Nat) = 0 + 1 from rfl, prevIdx_walkPos sz h 0 h0]
  exact walkPos_zero sz h hh

theorem nextIdx_prevIdx (sz i : Nat) (hi : i < sz) : nextIdx sz (prevIdx sz i) = i := by
  unfold nextIdx prevIdx
  rcases Nat.eq_zero_or_pos i with h0 | hpos
  · subst h0
    rw [Nat.zero_add, Nat.mod_eq_of_lt (by omega)]
    rw [if_pos (by omega)]
  · rw [show i + sz - 1 = (i - 1) + sz by omega, Nat.add_mod_right,
      Nat.mod_eq_of_lt (by omega)]
    rw [if_neg (by omega)]
    omega

theorem prevIdx_ne (sz h : Nat) (hh : h < sz) (hsz2 : 2 ≤ sz) : prevIdx sz h ≠ h := by
  unfold prevIdx
  rcases Nat.eq_zero_or_pos h with h0 | hpos
  · subst h0
    rw [Nat.zero_add, Nat.mod_eq_of_lt (by omega)]
    omega
  · rw [show h + sz - 1 = (h - 1) + sz by omega, Nat.add_mod_right,
      Nat.mod_eq_of_lt (by omega)]
    omega

theorem cdist_prevIdx (sz a b : Nat) (ha : a < sz) (hb : b < sz)
    (hpos : 0 < cdist sz a b) :
    cdist sz a (prevIdx sz b) = cdist sz a b - 1 := by
  have hlt := cdist_lt sz a b (by omega : 0 < sz)
  obtain ⟨c, hc⟩ : ∃ c, cdist sz a b = c + 1 := ⟨cdist sz a b - 1, by omega⟩
  have hbw : b = walkPos sz a (c + 1) := by
    rw [← hc]
    exact pos_eq_walkPos sz a b ha hb
  rw [hc, hbw, prevIdx_walkPos sz a c (by omega), cdist_walkPos sz a c ha (by omega)]
  omega

/-- The state between iterations of Del's left-shift loop: the hole
slot `h` holds a stale copy, every other slot is intact, and `vd` is
the original distance of the last item copied out (linking the hole to
its neighbours in place of the usual local probe invariant). -/
structure DelHole (m0 m2 : RHStore) (h vd : Nat) : Prop where
  hsz : m2.size = m0.size
  hbytes : m2.bytes = m0.bytes
  hhash : m2.hashFunc = m0.hashFunc
  hmaxd : m2.maxDistance = m0.maxDistance
  hcnt : m2.count = m0.count
  hcnt_occ : m2.count = (occCount m2 : Int)
  hslen : m2.slots.length = 3 * m0.size
  hh : h < m0.size
  hhocc : occupied m2 h
  hempty : ∀ i, i < m0.size → ¬ occupied m2 i → readItem m2 i = (0, 0, 0)
  hkr : ∀ i, i < m0.size → occupied m2 i →
    keyOffsetOf (readItem m2 i) + keySizeOf (readItem m2 i) ≤ m0.bytes.length
  hvr : ∀ i, i < m0.size → occupied m2 i →
    valOffsetOf (readItem m2 i) + valSizeOf (readItem m2 i) ≤ m0.bytes.length
  hdeq : ∀ i, i < m0.size → occupied m2 i → i ≠ h →
    distanceOf (readItem m2 i) = cdist m0.size (home m2 (keyBytesAt m2 i)) i
  hdle : ∀ i, i < m0.size → occupied m2 i → distanceOf (readItem m2 i) ≤ m0.maxDistance
  hloc : ∀ i, i < m0.size → occupied m2 i → i ≠ h → prevIdx m0.size i ≠ h →
    0 < distanceOf (readItem m2 i) →
    occupied m2 (prevIdx m0.size i) ∧
      distanceOf (readItem m2 i) ≤ distanceOf (readItem m2 (prevIdx m0.size i)) + 1
  hnodup : ∀ i, i < m0.size → ∀ j, j < m0.size → i ≠ h → j ≠ h →
    occupied m2 i → occupied m2 j → keyBytesAt m2 i = keyBytesAt m2 j → i = j
  hsucc : nextIdx m0.size h ≠ h → occupied m2 (nextIdx m0.size h) →
    distanceOf (readItem m2 (nextIdx m0.size h)) ≤ vd + 1
  hpredh : 0 < vd → occupied m2 (prevIdx m0.size h) ∧
    vd ≤ distanceOf (readItem m2 (prevIdx m0.size h)) + 1

/-- A successful Del find returns a live slot holding the key. -/
theorem delFind_found (m : RHStore) (k : List Nat) :
    ∀ rem idx t prev, idx < m.size → delFind m k idx rem = some (t, prev) →
      t < m.size ∧ occupied m t ∧ keyBytesAt m t = k ∧ prev = valBytesAt m t := by
  intro rem
  induction rem with
  | zero =>
    intro idx t prev _ h
    have h2 : (none : Option (Nat × List Nat)) = some (t, prev) := h
    cases h2
  | succ rem ih =>
    intro idx t prev hidx h
    have h2 : (if (itemKeyBytes m (readItem m idx)).length = 0 then none
        else if itemKeyBytes m (readItem m idx) = k then
          some (idx, itemValBytes m (readItem m idx))
        else delFind m k (nextIdx m.size idx) rem) = some (t, prev) := h
    by_cases hc1 : (itemKeyBytes m (readItem m idx)).length = 0
    · rw [if_pos hc1] at h2
      cases h2
    · rw [if_neg hc1] at h2
      by_cases hc2 : itemKeyBytes m (readItem m idx) = k
      · rw [if_pos hc2] at h2
        cases h2
        exact ⟨hidx, occupied_of_keyBytes_ne_nil m idx hc1, hc2, rfl⟩
      · rw [if_neg hc2] at h2
        exact ih (nextIdx m.size idx) t prev (nextIdx_lt _ _ (by omega)) h2

/-- The shift loop of Del preserves the hole invariant and stops with
the hole's successor empty or at distance zero (or a one-slot table). -/
theorem delShift_inv (m0 : RHStore) :
    ∀ fuel m2 h vd, DelHole m0 m2 h vd → h < m0.size →
      ∀ m1 last, delShift fuel m2 h = some (m1, last) →
        ∃ vd2, DelHole m0 m1 last vd2 ∧
          (nextIdx m0.size last = last ∨ ¬ occupied m1 (nextIdx m0.size last) ∨
            distanceOf (readItem m1 (nextIdx m0.size last)) = 0) := by
  intro fuel
  induction fuel with
  | zero =>
    intro m2 h vd hD _ m1 last hr
    have h2 : (none : Option (RHStore × Nat)) = some (m1, last) := hr
    cases h2
  | succ fuel ih =>
    intro m2 h vd hD hh m1 last hr
    have hr2 : (if nextIdx m2.size h = h then some (m2, h)
        else if (itemKeyBytes m2 (readItem m2 (nextIdx m2.size h))).length = 0 ∨
            distanceOf (readItem m2 (nextIdx m2.size h)) = 0 then some (m2, h)
        else delShift fuel
          (writeItem (writeItem m2 (nextIdx m2.size h)
              (distanceAdd (readItem m2 (nextIdx m2.size h)) (-1))) h
            (distanceAdd (readItem m2 (nextIdx m2.size h)) (-1)))
          (nextIdx m2.size h)) = some (m1, last) := hr
    rw [hD.hsz] at hr2
    have hszpos : 0 < m0.size := by omega
    by_cases hc1 : nextIdx m0.size h = h
    · rw [if_pos hc1] at hr2
      cases hr2
      exact ⟨vd, hD, Or.inl hc1⟩
    · rw [if_neg hc1] at hr2
      by_cases hc2 : (itemKeyBytes m2 (readItem m2 (nextIdx m0.size h))).length = 0 ∨
          distanceOf (readItem m2 (nextIdx m0.size h)) = 0
      · rw [if_pos hc2] at hr2
        cases hr2
        refine ⟨vd, hD, ?_⟩
        rcases hc2 with hc2 | hc2
        · right
          left
          intro ho
          have hb : keyOffsetOf (readItem m2 (nextIdx m0.size h)) +
              keySizeOf (readItem m2 (nextIdx m0.size h)) ≤ m2.bytes.length := by
            rw [hD.hbytes]
            exact hD.hkr _ (nextIdx_lt _ _ hszpos) ho
          have hlen : (itemKeyBytes m2 (readItem m2 (nextIdx m0.size h))).length
              = keySizeOf (readItem m2 (nextIdx m0.size h)) :=
            length_readBytesAt _ _ _ hb
          rw [hc2] at hlen
          exact ho hlen.symm
        · right
          right
          exact hc2
      · rw [if_neg hc2] at hr2
        push_neg at hc2
        obtain ⟨hlen0, hd0⟩ := hc2
        set nxt : Nat := nextIdx m0.size h with hnxt
        set S : Slot := distanceAdd (readItem m2 nxt) (-1) with hS
        set M2 : RHStore := writeItem (writeItem m2 nxt S) h S with hM2
        have hnxtlt : nxt < m0.size := by
          rw [hnxt]
          exact nextIdx_lt _ _ hszpos
        have hsz2 : 2 ≤ m0.size := by
          by_contra hlt
          apply hc1
          have h1 : m0.size = 1 := by omega
          have h0 : h = 0 := by omega
          rw [hnxt, h1, h0]
          decide
        have hoccnxt : occupied m2 nxt := occupied_of_keyBytes_ne_nil m2 nxt hlen0
        have hdpos : 0 < distanceOf (readItem m2 nxt) := Nat.pos_of_ne_zero hd0
        have hlen3 : 3 * nxt + 2 < m2.slots.length := by
          rw [hD.hslen]
          omega
        have hlen3h : 3 * h + 2 < (writeItem m2 nxt S).slots.length := by
          rw [writeItem_slots_length, hD.hslen]
          omega
        have hRh : readItem M2 h = S := by
          rw [hM2]
          exact readItem_writeItem_self _ h _ hlen3h
        have hRnxt : readItem M2 nxt = S := by
          rw [hM2]
          rw [readItem_writeItem_ne _ h nxt _ (fun he => hc1 he.symm)]
          exact readItem_writeItem_self _ nxt _ hlen3
        have hRo : ∀ i, i ≠ h → i ≠ nxt → readItem M2 i = readItem m2 i := by
          intro i hih hin
          rw [hM2]
          rw [readItem_writeItem_ne _ h i _ (fun he => hih he.symm),
            readItem_writeItem_ne _ nxt i _ (fun he => hin he.symm)]
        have hSd : distanceOf S = distanceOf (readItem m2 nxt) - 1 := by
          rw [hS]
          exact distanceOf_distanceAdd_neg_one _ hdpos
        have hSk : keySizeOf S = keySizeOf (readItem m2 nxt) := by
          rw [hS]
          exact keySizeOf_distanceAdd _ _
        have hSko : keyOffsetOf S = keyOffsetOf (readItem m2 nxt) := by
          rw [hS]
          exact keyOffsetOf_distanceAdd _ _
        have hSv : valSizeOf S = valSizeOf (readItem m2 nxt) := by
          rw [hS]
          exact valSizeOf_distanceAdd _ _
        have hSvo : valOffsetOf S = valOffsetOf (readItem m2 nxt) := by
          rw [hS]
          exact valOffsetOf_distanceAdd _ _
        have hSocc : keySizeOf S ≠ 0 := by
          rw [hSk]
          exact hoccnxt
        have hM2bytes : M2.bytes = m2.bytes := rfl
        have homeM2 : ∀ x, home M2 x = home m2 x := fun x => rfl
        have hM2keyh : keyBytesAt M2 h = keyBytesAt m2 nxt := by
          unfold keyBytesAt itemKeyBytes bytesRead
          rw [hRh, hSko, hSk, hM2bytes]
        have hM2keyo : ∀ i, i ≠ h → i ≠ nxt → keyBytesAt M2 i = keyBytesAt m2 i := by
          intro i hih hin
          unfold keyBytesAt itemKeyBytes bytesRead
          rw [hRo i hih hin, hM2bytes]
        have hoccM2 : ∀ i, i ≠ h → i ≠ nxt → (occupied M2 i ↔ occupied m2 i) := by
          intro i hih hin
          unfold occupied
          rw [hRo i hih hin]
        have hoccM2h : occupied M2 h := by
          unfold occupied
          rw [hRh]
          exact hSocc
        have hoccM2nxt : occupied M2 nxt := by
          unfold occupied
          rw [hRnxt]
          exact hSocc
        have hoccCnt : occCount M2 = occCount m2 := by
          apply occCount_congr
          · rfl
          · intro i _
            by_cases hih : i = h
            · rw [hih]
              exact iff_of_true hoccM2h hD.hhocc
            · by_cases hin : i = nxt
              · rw [hin]
                exact iff_of_true hoccM2nxt hoccnxt
              · exact hoccM2 i hih hin
        have hph : prevIdx m0.size nxt = h := by
          rw [hnxt]
          exact prevIdx_nextIdx m0.size h hh
        have hDnew : DelHole m0 M2 nxt (distanceOf (readItem m2 nxt)) := by
          constructor
          · exact hD.hsz
          · exact hD.hbytes
          · exact hD.hhash
          · exact hD.hmaxd
          · exact hD.hcnt
          · show m2.count = (occCount M2 : Int)
            rw [hoccCnt]
            exact hD.hcnt_occ
          · rw [hM2, writeItem_slots_length, writeItem_slots_length]
            exact hD.hslen
          · exact hnxtlt
          · exact hoccM2nxt
          · intro i hi hno
            by_cases hih : i = h
            · exact absurd (show occupied M2 i by rw [hih]; exact hoccM2h) hno
            · by_cases hin : i = nxt
              · exact absurd (show occupied M2 i by rw [hin]; exact hoccM2nxt) hno
              · rw [hRo i hih hin]
                exact hD.hempty i hi (fun ho => hno ((hoccM2 i hih hin).mpr ho))
          · intro i hi hoi
            by_cases hih : i = h
            · rw [hih, hRh, hSko, hSk]
              exact hD.hkr nxt hnxtlt hoccnxt
            · by_cases hin : i = nxt
              · rw [hin, hRnxt, hSko, hSk]
                exact hD.hkr nxt hnxtlt hoccnxt
              · rw [hRo i hih hin]
                exact hD.hkr i hi ((hoccM2 i hih hin).mp hoi)
          · intro i hi hoi
            by_cases hih : i = h
            · rw [hih, hRh, hSvo, hSv]
              exact hD.hvr nxt hnxtlt hoccnxt
            · by_cases hin : i = nxt
              · rw [hin, hRnxt, hSvo, hSv]
                exact hD.hvr nxt hnxtlt hoccnxt
              · rw [hRo i hih hin]
                exact hD.hvr i hi ((hoccM2 i hih hin).mp hoi)
          · intro i hi hoi hine
            by_cases hih : i = h
            · rw [hih, hRh, hSd, hM2keyh, homeM2]
              have hdq := hD.hdeq nxt hnxtlt hoccnxt (fun he => hc1 he)
              have hhm : home m2 (keyBytesAt m2 nxt) < m0.size := by
                have h6 := home_lt m2 (keyBytesAt m2 nxt) (by rw [hD.hsz]; omega)
                rw [hD.hsz] at h6
                exact h6
              rw [← hph, cdist_prevIdx m0.size _ nxt hhm hnxtlt (by rw [← hdq]; omega),
                ← hdq]
            · rw [hRo i hih hine, hM2keyo i hih hine, homeM2]
              exact hD.hdeq i hi ((hoccM2 i hih hine).mp hoi) hih
          · intro i hi hoi
            by_cases hih : i = h
            · rw [hih, hRh, hSd]
              have h6 := hD.hdle nxt hnxtlt hoccnxt
              omega
            · by_cases hin : i = nxt
              · rw [hin, hRnxt, hSd]
                have h6 := hD.hdle nxt hnxtlt hoccnxt
                omega
              · rw [hRo i hih hin]
                exact hD.hdle i hi ((hoccM2 i hih hin).mp hoi)
          · intro i hi hoi hine hpine hdposi
            by_cases hih : i = h
            · rw [hih] at hdposi hpine ⊢
              rw [hRh, hSd] at hdposi ⊢
              have hpne2 : prevIdx m0.size h ≠ h := prevIdx_ne m0.size h hh hsz2
              have hsuc := hD.hsucc hc1 hoccnxt
              rw [← hnxt] at hsuc
              have hpred := hD.hpredh (by omega)
              refine ⟨(hoccM2 _ hpne2 hpine).mpr hpred.1, ?_⟩
              rw [hRo _ hpne2 hpine]
              have h6 := hpred.2
              omega
            · by_cases hpih : prevIdx m0.size i = h
              · exfalso
                apply hine
                rw [hnxt, ← hpih]
                exact (nextIdx_prevIdx m0.size i hi).symm
              · rw [hRo i hih hine] at hdposi ⊢
                rw [hRo _ hpih hpine]
                have hcon := hD.hloc i hi ((hoccM2 i hih hine).mp hoi) hih hpih hdposi
                exact ⟨(hoccM2 _ hpih hpine).mpr hcon.1, hcon.2⟩
          · intro i hi j hj hinxt hjnxt hoi hoj hkk
            by_cases hih : i = h
            · by_cases hjh : j = h
              · rw [hih, hjh]
              · rw [hih] at hkk
                rw [hM2keyh, hM2keyo j hjh hjnxt] at hkk
                exact absurd (hD.hnodup nxt hnxtlt j hj (fun he => hc1 he) hjh hoccnxt
                  ((hoccM2 j hjh hjnxt).mp hoj) hkk) (fun he => hjnxt he.symm)
            · by_cases hjh : j = h
              · rw [hjh] at hkk
                rw [hM2keyo i hih hinxt, hM2keyh] at hkk
                exact absurd (hD.hnodup i hi nxt hnxtlt hih (fun he => hc1 he)
                  ((hoccM2 i hih hinxt).mp hoi) hoccnxt hkk) hinxt
              · rw [hM2keyo i hih hinxt, hM2keyo j hjh hjnxt] at hkk
                exact hD.hnodup i hi j hj hih hjh ((hoccM2 i hih hinxt).mp hoi)
                  ((hoccM2 j hjh hjnxt).mp hoj) hkk
          · intro hne2 ho2
            by_cases hs2h : nextIdx m0.size nxt = h
            · rw [hs2h, hRh, hSd]
              omega
            · have hprev2 : prevIdx m0.size (nextIdx m0.size nxt) = nxt :=
                prevIdx_nextIdx m0.size nxt hnxtlt
              have ho2' : occupied m2 (nextIdx m0.size nxt) :=
                (hoccM2 _ hs2h hne2).mp ho2
              rw [hRo _ hs2h hne2]
              rcases Nat.eq_zero_or_pos
                  (distanceOf (readItem m2 (nextIdx m0.size nxt))) with h0 | hp
              · omega
              · have hcon := hD.hloc _ (nextIdx_lt _ _ hszpos) ho2' hs2h
                  (by rw [hprev2]; exact hc1) hp
                rw [hprev2] at hcon
                obtain ⟨_, hcon2⟩ := hcon
                omega
          · intro _
            rw [hph, hRh, hSd]
            exact ⟨hoccM2h, by omega⟩
        exact ih M2 nxt (distanceOf (readItem m2 nxt)) hDnew hnxtlt m1 last hr2

/-- Zeroing the final hole after the shift loop restores the full invariant. -/
theorem delhole_finish (m0 m1 : RHStore) (last vd : Nat)
    (hInv0 : Inv m0) (hD : DelHole m0 m1 last vd)
    (hexit : nextIdx m0.size last = last ∨ ¬ occupied m1 (nextIdx m0.size last) ∨
      distanceOf (readItem m1 (nextIdx m0.size last)) = 0) :
    Inv { writeItem m1 last (0, 0, 0) with count := m1.count - 1 } := by
  set F : RHStore := { writeItem m1 last (0, 0, 0) with count := m1.count - 1 } with hF
  have hszpos : 0 < m0.size := by
    have h6 := hD.hh
    omega
  have hlenl : 3 * last + 2 < m1.slots.length := by
    rw [hD.hslen]
    have h6 := hD.hh
    omega
  have hRlast : readItem F last = (0, 0, 0) :=
    readItem_writeItem_self m1 last (0, 0, 0) hlenl
  have hRo : ∀ i, i ≠ last → readItem F i = readItem m1 i := fun i hie =>
    readItem_writeItem_ne m1 last i (0, 0, 0) (fun he => hie he.symm)
  have hoccF : ∀ i, i ≠ last → (occupied F i ↔ occupied m1 i) := by
    intro i hie
    unfold occupied
    rw [hRo i hie]
  have hnoccl : ¬ occupied F last := by
    unfold occupied
    rw [hRlast]
    decide
  have hFsz : F.size = m0.size := hD.hsz
  have hFb : F.bytes = m0.bytes := hD.hbytes
  have hFmd : F.maxDistance = m0.maxDistance := hD.hmaxd
  have hkeyF : ∀ i, i ≠ last → keyBytesAt F i = keyBytesAt m1 i := fun i hie =>
    congrArg (itemKeyBytes m1) (hRo i hie)
  have homeF : ∀ x, home F x = home m1 x := fun x => rfl
  constructor
  · show 0 < m1.size
    rw [hD.hsz]
    exact hszpos
  · show (writeItem m1 last (0, 0, 0)).slots.length = 3 * m1.size
    rw [writeItem_slots_length, hD.hslen, hD.hsz]
  · show m1.maxDistance + 1 < 2 ^ 14
    rw [hD.hmaxd]
    exact hInv0.maxd_small
  · intro i hi hno
    by_cases hie : i = last
    · rw [hie]
      exact hRlast
    · rw [hRo i hie]
      exact hD.hempty i (by rw [← hD.hsz]; exact hi)
        (fun ho => hno ((hoccF i hie).mpr ho))
  · intro i hi hoi
    by_cases hie : i = last
    · exact absurd (show occupied F last by rw [← hie]; exact hoi) hnoccl
    · rw [hRo i hie, hFb]
      exact hD.hkr i (by rw [← hD.hsz]; exact hi) ((hoccF i hie).mp hoi)
  · intro i hi hoi
    by_cases hie : i = last
    · exact absurd (show occupied F last by rw [← hie]; exact hoi) hnoccl
    · rw [hRo i hie, hFb]
      exact hD.hvr i (by rw [← hD.hsz]; exact hi) ((hoccF i hie).mp hoi)
  · intro i hi hoi
    by_cases hie : i = last
    · exact absurd (show occupied F last by rw [← hie]; exact hoi) hnoccl
    · rw [hRo i hie, hkeyF i hie, homeF, hFsz]
      exact hD.hdeq i (by rw [← hD.hsz]; exact hi) ((hoccF i hie).mp hoi) hie
  · intro i hi hoi
    by_cases hie : i = last
    · exact absurd (show occupied F last by rw [← hie]; exact hoi) hnoccl
    · rw [hRo i hie, hFmd]
      exact hD.hdle i (by rw [← hD.hsz]; exact hi) ((hoccF i hie).mp hoi)
  · intro i hi hoi hdp
    by_cases hie : i = last
    · exact absurd (show occupied F last by rw [← hie]; exact hoi) hnoccl
    · have hi' : i < m0.size := by rw [← hD.hsz]; exact hi
      rw [hRo i hie] at hdp
      rw [hFsz, hRo i hie]
      by_cases hpil : prevIdx m0.size i = last
      · exfalso
        have hieq : i = nextIdx m0.size last := by
          rw [← hpil]
          exact (nextIdx_prevIdx m0.size i hi').symm
        rcases hexit with hx | hx | hx
        · exact hie (hieq.trans hx)
        · rw [← hieq] at hx
          exact hx ((hoccF i hie).mp hoi)
        · rw [← hieq] at hx
          omega
      · have hcon := hD.hloc i hi' ((hoccF i hie).mp hoi) hie hpil hdp
        rw [hRo _ hpil]
        exact ⟨(hoccF _ hpil).mpr hcon.1, hcon.2⟩
  · intro i hi j hj hoi hoj hkk
    by_cases hie : i = last
    · exact absurd (show occupied F last by rw [← hie]; exact hoi) hnoccl
    · by_cases hje : j = last
      · exact absurd (show occupied F last by rw [← hje]; exact hoj) hnoccl
      · rw [hkeyF i hie, hkeyF j hje] at hkk
        exact hD.hnodup i (by rw [← hD.hsz]; exact hi) j (by rw [← hD.hsz]; exact hj)
          hie hje ((hoccF i hie).mp hoi) ((hoccF j hje).mp hoj) hkk
  · have hlastF : last < F.size := by
      show last < m1.size
      rw [hD.hsz]
      exact hD.hh
    have hcc : occCount m1 = occCount F + 1 :=
      occCount_succ F m1 last rfl hlastF hnoccl hD.hhocc
        (fun i _ hie => (hoccF i hie).symm)
    show m1.count - 1 = (occCount F : Int)
    rw [hD.hcnt_occ, hcc]
    push_cast
    ring

/-- Del preserves the store invariant. -/
theorem del_inv (fuel : Nat) (m : RHStore) (k : List Nat) (m1 : RHStore)
    (prev : Option (List Nat)) (ex : Bool) (er : Option GoErr)
    (hInv : Inv m) (hr : del fuel m k = some (m1, prev, ex, er)) : Inv m1 := by
  unfold del at hr
  by_cases hk : k.length = 0
  · rw [if_pos hk] at hr
    cases hr
    exact hInv
  · rw [if_neg hk] at hr
    rcases hfind : delFind m k (home m k) m.size with _ | ⟨t, pv⟩
    · rw [hfind] at hr
      have hr3 : some (m, (none : Option (List Nat)), false, (none : Option GoErr))
          = some (m1, prev, ex, er) := hr
      cases hr3
      exact hInv
    · rw [hfind] at hr
      have hr3 : (match delShift fuel m t with
          | none => none
          | some (m2, last) =>
            some ({ writeItem m2 last (0, 0, 0) with count := m2.count - 1 },
              some pv, true, none)) = some (m1, prev, ex, er) := hr
      rcases hshift : delShift fuel m t with _ | ⟨m2, last⟩
      · rw [hshift] at hr3
        have hr4 : (none : Option (RHStore × Option (List Nat) × Bool × Option GoErr))
            = some (m1, prev, ex, er) := hr3
        cases hr4
      · rw [hshift] at hr3
        have hr4 : some ({ writeItem m2 last (0, 0, 0) with count := m2.count - 1 },
            some pv, true, (none : Option GoErr)) = some (m1, prev, ex, er) := hr3
        cases hr4
        obtain ⟨ht, hocct, hkeyt, hpv⟩ := delFind_found m k m.size (home m k) t pv
          (home_lt m k hInv.size_pos) hfind
        have hD0 : DelHole m m t (distanceOf (readItem m t)) := by
          constructor
          · rfl
          · rfl
          · rfl
          · rfl
          · rfl
          · exact hInv.count_occ
          · exact hInv.slots_len
          · exact ht
          · exact hocct
          · exact hInv.empty_zero
          · exact hInv.key_range
          · exact hInv.val_range
          · exact fun i hi ho _ => hInv.dist_eq i hi ho
          · exact hInv.dist_le
          · exact fun i hi ho _ _ hd => hInv.loc_inv i hi ho hd
          · exact fun i hi j hj _ _ hoi hoj => hInv.key_nodup i hi j hj hoi hoj
          · intro hne hocc2
            rcases Nat.eq_zero_or_pos
                (distanceOf (readItem m (nextIdx m.size t))) with h0 | hp
            · omega
            · have hcon := hInv.loc_inv (nextIdx m.size t)
                (nextIdx_lt _ _ hInv.size_pos) hocc2 hp
              rw [prevIdx_nextIdx m.size t ht] at hcon
              obtain ⟨_, h2⟩ := hcon
              omega
          · intro hvp
            exact hInv.loc_inv t ht hocct hvp
        obtain ⟨vd2, hD2, hexit⟩ :=
          delShift_inv m fuel m t (distanceOf (readItem m t)) hD0 ht m2 last hshift
        exact delhole_finish m m2 last vd2 hInv hD2 hexit

/-- Every reachable store satisfies the invariant. -/
theorem reachable_inv (m : RHStore) (hm : Reachable m) : Inv m := by
  induction hm with
  | init sz h hsz => exact inv_newRHStore sz h hsz
  | doSet hm hr ih => exact set_inv _ _ _ _ _ ih hr
  | doDel hm hr ih => exact del_inv _ _ _ _ _ _ _ ih hr
  | doReset hm ih => exact reset_inv _ ih

/-- A Set that returns with no error on a non-empty key implicitly
certifies the key and value length bounds (the oversize checks are the
only error exits). -/
theorem set_ok_bounds (f : Nat) (m : RHStore) (k v : List Nat) (r : SRes)
    (hk : k.length ≠ 0) (hr : exec f (.set m k v) = some r) (hne : r.2.2 = none) :
    validKV k v := by
  cases f with
  | zero => simp [exec] at hr
  | succ f =>
    rw [exec] at hr
    rw [if_neg hk] at hr
    by_cases h2 : MaxKeyLen < k.length
    · rw [if_pos h2] at hr
      cases hr
      exact Option.noConfusion hne
    · rw [if_neg h2] at hr
      by_cases h3 : MaxValLen < v.length
      · rw [if_pos h3] at hr
        cases hr
        exact Option.noConfusion hne
      · exact ⟨fun he => hk (by rw [he]; rfl), by omega, by omega⟩

/-- Claim C1: on every reachable store, a Set of a key with
`1 ≤ len k ≤ MaxKeyLen` and value with `len v ≤ MaxValLen` that returns
without error is immediately visible — Get of that key finds the value,
byte for byte. -/
theorem c1_set_then_get (f : Nat) (m : RHStore) (k v : List Nat) (r : SRes)
    (hm : Reachable m) (hk1 : 1 ≤ k.length) (hk2 : k.length ≤ MaxKeyLen)
    (hv : v.length ≤ MaxValLen) (hr : exec f (.set m k v) = some r)
    (hne : r.2.2 = none) :
    get r.1 k = some v := by
  have hInv := reachable_inv m hm
  have hS := (exec_master f).1 m k v r hInv
    ⟨fun he => by rw [he] at hk1; exact absurd hk1 (by decide), hk2, hv⟩ hr
  obtain ⟨-, hInv1, hlook, -⟩ := hS
  rw [get_eq_lookup r.1 hInv1 k]
  exact hlook

/-- The result of one concrete Set on a fresh two-slot store. -/
def c1r : SRes := (exec 20 (.set wStore [7] [5])).getD (wStore, false, none)

/-- Witness for C1 at a concrete store, key and value. -/
theorem c1_witness : get c1r.1 [7] = some [5] :=
  c1_set_then_get 20 wStore [7] [5] c1r
    (Reachable.init 2 (fun _ => 0) (by norm_num))
    (by decide) (by decide) (by decide) rfl rfl

/-- Claim C2: on every reachable store, an error-free Set of a non-empty
key reports wasNew = true exactly when the key was absent before the
call, and the count grows by one when wasNew is true and is unchanged
otherwise. -/
theorem c2_wasnew_count (f : Nat) (m : RHStore) (k v : List Nat) (r : SRes)
    (hm : Reachable m) (hk : k.length ≠ 0)
    (hr : exec f (.set m k v) = some r) (hne : r.2.2 = none) :
    (r.2.1 = true ↔ ¬ containsKey m k) ∧
    r.1.count = m.count + (if r.2.1 then 1 else 0) := by
  have hInv := reachable_inv m hm
  have hvk := set_ok_bounds f m k v r hk hr hne
  have hS := (exec_master f).1 m k v r hInv hvk hr
  obtain ⟨-, -, -, -, hwn, hcnt, -, -⟩ := hS
  exact ⟨hwn, hcnt⟩

/-- The result of one concrete Set on a fresh two-slot store (C2 copy). -/
def c2r : SRes := (exec 20 (.set wStore [7] [5])).getD (wStore, false, none)

/-- Witness for C2 at a concrete store, key and value. -/
theorem c2_witness :
    (c2r.2.1 = true ↔ ¬ containsKey wStore [7]) ∧
    c2r.1.count = wStore.count + (if c2r.2.1 then 1 else 0) :=
  c2_wasnew_count 20 wStore [7] [5] c2r
    (Reachable.init 2 (fun _ => 0) (by norm_num))
    (by decide) rfl rfl

/-! ### Claim C6: Visit versus VisitOffsets

VisitOffsets guards each slot with `kOffset != 0 && kSize != 0`,
while Visit only requires a non-empty key read.  A live item whose
key bytes start at arena offset 0 -- which happens on the very first
Set when the value is empty, since the value is appended before the
key -- is therefore reported by Visit but silently skipped by
VisitOffsets, contradicting VisitOffsets' own documentation
("invokes the callback on each item's key/val offsets") and losing
the item during a GrowSlots rehash. -/

/-- Extract the state from a Set result, with a fallback. -/
def stateOf (fb : RHStore) : Option SRes → RHStore
  | some (m, _, _) => m
  | none => fb

def wasNewOf : Option SRes → Bool
  | some (_, w, _) => w
  | none => false

def errOf : Option SRes → Option GoErr
  | some (_, _, e) => e
  | none => none

theorem opt_eta (r : Option SRes) (fb : RHStore) (h : r.isSome = true) :
    r = some (stateOf fb r, wasNewOf r, errOf r) := by
  match r with
  | some (m, w, e) => rfl

/-- The store after `Set([97], [])` on a fresh 4-slot table: one live
item whose key bytes sit at arena offset 0. -/
def c6Store : RHStore := stateOf wStore (setF 9 (newRHStore 4 (fun _ => 0)) [97] [])

/-- C6 failing input, evaluated: after the first `Set(k, v)` with an
empty `v`, the single live slot (index 0, key [97] at key offset 0)
is visited by Visit but skipped by VisitOffsets, and Get still finds
the key.  The claim that VisitOffsets invokes its callback on exactly
the same slots as Visit is false at this store. -/
theorem c6_visit_offsets_skips_live_slot :
    setF 9 (newRHStore 4 (fun _ => 0)) [97] [] = some (c6Store, true, none) ∧
    visitSeq c6Store = [(0, [97], [])] ∧
    visitOffsetsSeq c6Store = [] ∧
    occupied c6Store 0 ∧
    keyOffsetOf (readItem c6Store 0) = 0 ∧
    get c6Store [97] = some [] := by
  refine ⟨rfl, ?_, ?_, ?_, rfl, rfl⟩
  · rfl
  · rfl
  · show keySizeOf (readItem c6Store 0) ≠ 0
    decide

/-! ### Claim C4, counterexample side

The claim asserts that walking forward from the home slot of any
stored key, the stored distances of occupied slots never decrease
until an empty slot is reached.  That is false: a slot holding a key
at its own home (distance 0) can directly follow a displaced key with
a positive distance inside the same gap-free run. -/

/-- The distances of the occupied slots walked forward from `s`,
up to the first empty slot (the probe run the claim talks about). -/
def distRun (m : RHStore) (s : Nat) : List Nat :=
  ((((List.range m.size).map (fun j => readItem m (walkPos m.size s j))).takeWhile
    (fun e => keySizeOf e != 0)).map distanceOf)

def nonDecreasing (l : List Nat) : Prop :=
  ∀ j, j < l.length - 1 → l.getD j 0 ≤ l.getD (j + 1) 0

instance (l : List Nat) : Decidable (nonDecreasing l) :=
  inferInstanceAs (Decidable (∀ j < l.length - 1, _))

/-- The probe-monotonicity property exactly as claimed. -/
def c4ClaimHolds (m : RHStore) : Prop :=
  ∀ i, i < m.size → occupied m i → nonDecreasing (distRun m (home m (keyBytesAt m i)))

instance (m : RHStore) : Decidable (c4ClaimHolds m) :=
  inferInstanceAs (Decidable (∀ i, i < m.size → _))

/-- The three-set reachable store refuting the claim.  Under fnv-1a
32-bit hashing with table size 4, keys [97] and [101] share home slot
0 and key [99] homes at slot 2: the table ends up with distances
0, 1, 0 in slots 0, 1, 2 and slot 3 empty. -/
def mc4a : RHStore := stateOf wStore (setF 9 (newRHStore 4 fnv1a32) [97] [65])

def mc4b : RHStore := stateOf wStore (setF 9 mc4a [101] [69])

def mc4 : RHStore := stateOf wStore (setF 9 mc4b [99] [67])

/-- C4 counterexample: a store reachable by three Sets from a fresh
4-slot table (with the default fnv-1a hash) on which the claimed
probe monotonicity fails: walking from the home slot of the stored
key [97], the distance run is 0, 1, 0 before the first empty slot. -/
theorem c4_counterexample :
    Reachable mc4 ∧ ¬ c4ClaimHolds mc4 ∧
    distRun mc4 (home mc4 (keyBytesAt mc4 0)) = [0, 1, 0] := by
  refine ⟨?_, by decide, by decide⟩
  have r0 : Reachable (newRHStore 4 fnv1a32) := .init 4 _ (by norm_num)
  have r1 : Reachable mc4a :=
    Reachable.doSet r0 (opt_eta (setF 9 (newRHStore 4 fnv1a32) [97] [65]) wStore rfl)
  have r2 : Reachable mc4b :=
    Reachable.doSet r1 (opt_eta (setF 9 mc4a [101] [69]) wStore rfl)
  exact Reachable.doSet r2 (opt_eta (setF 9 mc4b [99] [67]) wStore rfl)

/-- Claim C4, amended: in every reachable state the Robin-Hood chain
property that actually holds is local — every occupied slot with a
positive stored distance has an occupied predecessor slot, and its
distance exceeds the predecessor's by at most one.  Walking forward,
distances can drop (to zero) between two occupied slots of the same
run whenever a key stored at its own home follows a displaced key. -/
theorem c4_local_chain (m : RHStore) (hm : Reachable m) (i : Nat)
    (hi : i < m.size) (hocc : occupied m i) (hd : 0 < distanceOf (readItem m i)) :
    occupied m (prevIdx m.size i) ∧
      distanceOf (readItem m i) ≤ distanceOf (readItem m (prevIdx m.size i)) + 1 :=
  (reachable_inv m hm).loc_inv i hi hocc hd

/-- Witness for the amended C4 at the counterexample store itself:
slot 1 holds a displaced key at distance 1, its predecessor slot 0 is
occupied at distance 0. -/
theorem c4_witness :
    1 < mc4.size ∧ 0 < distanceOf (readItem mc4 1) ∧
    (occupied mc4 (prevIdx mc4.size 1) ∧
      distanceOf (readItem mc4 1) ≤ distanceOf (readItem mc4 (prevIdx mc4.size 1)) + 1) := by
  refine ⟨by decide, by decide, c4_local_chain mc4 ?_ 1 (by decide)
    (show keySizeOf (readItem mc4 1) ≠ 0 by decide) (by decide)⟩
  have r0 : Reachable (newRHStore 4 fnv1a32) := .init 4 _ (by norm_num)
  have r1 : Reachable mc4a :=
    Reachable.doSet r0 (opt_eta (setF 9 (newRHStore 4 fnv1a32) [97] [65]) wStore rfl)
  have r2 : Reachable mc4b :=
    Reachable.doSet r1 (opt_eta (setF 9 mc4a [101] [69]) wStore rfl)
  exact Reachable.doSet r2 (opt_eta (setF 9 mc4b [99] [67]) wStore rfl)

end RHStoreModel

namespace ChunksModel

/-! ## Chunks: the chunked byte arena (store/chunk source file)

A chunk is an `MMapRef` buffer; chunk 0 is the in-memory-only chunk
(`File == nil` in Go, it grows by append), later chunks are
file-backed with a fixed buffer of `ChunkSizeBytes` zero-initialized
bytes.  Path and suffix fields are cosmetic and omitted. -/

structure MChunk where
  isFile : Bool
  buf : List Nat
deriving DecidableEq, Repr

structure Chunks where
  chunkSizeBytes : Nat
  chunks : List MChunk
  lastChunkLen : Nat
deriving DecidableEq, Repr

inductive CErr where
  | appendTooBig
  | readTooBig
  | readPastChunks
  | truncUnsupported
deriving DecidableEq, Repr

/-- Go conversion `int(u)` of a `uint64` value: two's complement. -/
def intOfUInt64 (u : Nat) : Int := if u < 2 ^ 63 then (u : Int) else (u : Int) - 2 ^ 64

/-- Chunks.PrevChunkLens. -/
def Chunks.prevChunkLens (cs : Chunks) : Nat :=
  if 1 < cs.chunks.length then (cs.chunks.length - 1) * cs.chunkSizeBytes else 0

/-- Chunks.AddChunk: the first chunk is in-memory with an empty
growable buffer (Go passes size 0), later ones are file-backed with
`ChunkSizeBytes` zero bytes. -/
def Chunks.addChunk (cs : Chunks) : Chunks :=
  let c : MChunk :=
    if 0 < cs.chunks.length then ⟨true, List.replicate cs.chunkSizeBytes 0⟩
    else ⟨false, []⟩
  { cs with chunks := cs.chunks ++ [c], lastChunkLen := 0 }

/-- Overwrite `buf[off : off+b.length]` with `b` (the effect of Go's
`copy` into a slice view; in-range writes only are exercised). -/
def writeAt (buf : List Nat) (off : Nat) (b : List Nat) : List Nat :=
  buf.take off ++ b ++ buf.drop (off + b.length)

/-- Chunks.BytesTruncate.  In the single-chunk reslice branch Go
grows or shrinks the chunk-0 view `Buf[:LastChunkLen]`; shrinking is
modelled exactly with `take`, while growing past the buffer length
(where Go panics or exposes stale capacity bytes) is outside every
state this development exercises. -/
def Chunks.bytesTruncate (cs : Chunks) (size : Nat) : Except CErr Chunks :=
  let prev := cs.prevChunkLens
  if prev + cs.chunkSizeBytes < size then .ok cs
  else if prev < size then
    let newLast := size - prev
    if cs.chunks.length = 1 then
      let c0 := cs.chunks.getD 0 ⟨false, []⟩
      .ok { cs with
              lastChunkLen := newLast,
              chunks := cs.chunks.set 0 ⟨c0.isFile, c0.buf.take newLast⟩ }
    else .ok { cs with lastChunkLen := newLast }
  else if size ≠ 0 then .error CErr.truncUnsupported
  else
    let c0 := cs.chunks.getD 0 ⟨false, []⟩
    .ok { cs with chunks := (cs.chunks.take 1).set 0 ⟨c0.isFile, []⟩, lastChunkLen := 0 }

/-- Chunks.BytesAppend. -/
def Chunks.bytesAppend (cs : Chunks) (b : List Nat) : Except CErr (Chunks × Nat × Nat) :=
  if cs.chunkSizeBytes < b.length then .error CErr.appendTooBig
  else if b.length = 0 then .ok (cs, 0, 0)
  else
    let cs1 :=
      if cs.chunks.length = 0 ∨ cs.chunkSizeBytes < cs.lastChunkLen + b.length
      then cs.addChunk else cs
    let li := cs1.chunks.length - 1
    let lastChunk := cs1.chunks.getD li ⟨false, []⟩
    let lastChunkLen := cs1.lastChunkLen
    let newBuf :=
      if lastChunk.isFile = false then lastChunk.buf ++ b
      else writeAt lastChunk.buf lastChunkLen b
    let cs2 := { cs1 with
                   chunks := cs1.chunks.set li ⟨lastChunk.isFile, newBuf⟩,
                   lastChunkLen := lastChunkLen + b.length }
    .ok (cs2, cs2.prevChunkLens + lastChunkLen, b.length)

/-- Chunks.BytesRead.  The chunk index is computed through Go's
`int(offset / uint64(ChunkSizeBytes))`; the bounds check compares
that signed value with the chunk count. -/
def Chunks.bytesRead (cs : Chunks) (off sz : Nat) : Except CErr (List Nat) :=
  if cs.chunkSizeBytes < sz then .error CErr.readTooBig
  else
    let chunkIdx := off / cs.chunkSizeBytes
    if (cs.chunks.length : Int) ≤ intOfUInt64 chunkIdx then .error CErr.readPastChunks
    else
      let chunkOffset := off % cs.chunkSizeBytes
      .ok (RHStoreModel.readBytesAt (cs.chunks.getD chunkIdx ⟨false, []⟩).buf chunkOffset sz)

/-- Writing through a view previously obtained from BytesRead:
overwrite `sz` bytes inside the chunk holding `off` (used by the
heap's Swap/SetOffsetSize/Push). -/
def Chunks.bytesWrite (cs : Chunks) (off : Nat) (b : List Nat) : Chunks :=
  let chunkIdx := off / cs.chunkSizeBytes
  let chunkOffset := off % cs.chunkSizeBytes
  let c := cs.chunks.getD chunkIdx ⟨false, []⟩
  { cs with chunks := cs.chunks.set chunkIdx ⟨c.isFile, writeAt c.buf chunkOffset b⟩ }

/-- The logical total content length of the arena. -/
def Chunks.total (cs : Chunks) : Nat := cs.prevChunkLens + cs.lastChunkLen

/-! ### Claim C7 -/

/-- C7 (amended): BytesTruncate is a no-op -- success and an unchanged
state -- exactly when `newSize` exceeds `prevChunkLens + chunkSizeBytes`,
i.e. lies beyond the last chunk's capacity (not merely beyond the
logical total). -/
theorem c7_truncate_noop (cs : Chunks) (size : Nat)
    (h : cs.prevChunkLens + cs.chunkSizeBytes < size) :
    cs.bytesTruncate size = .ok cs := by
  simp only [Chunks.bytesTruncate]
  rw [if_pos h]

/-- The arena used by the C7 counterexample: chunk size 4, a full
in-memory chunk 0 and one file chunk holding a single byte; built by
two appends from an empty arena. -/
def c7Store : Chunks :=
  ⟨4, [⟨false, [1, 2, 3, 4]⟩, ⟨true, [5, 0, 0, 0]⟩], 1⟩

/-- C7 counterexample: on a real arena state with logical total 5,
`truncate(6)` -- `newSize` strictly greater than the total -- is not a
no-op: it succeeds but extends `lastChunkLen` from 1 to 2, because the
code's no-op guard compares against the last chunk's capacity, not
the logical total. -/
theorem c7_counterexample :
    Chunks.bytesAppend ⟨4, [], 0⟩ [1, 2, 3, 4] =
      .ok (⟨4, [⟨false, [1, 2, 3, 4]⟩], 4⟩, 0, 4) ∧
    Chunks.bytesAppend ⟨4, [⟨false, [1, 2, 3, 4]⟩], 4⟩ [5] = .ok (c7Store, 4, 1) ∧
    c7Store.total = 5 ∧ 5 < 6 ∧
    c7Store.bytesTruncate 6 = .ok { c7Store with lastChunkLen := 2 } ∧
    Chunks.lastChunkLen { c7Store with lastChunkLen := 2 } ≠ c7Store.lastChunkLen := by
  refine ⟨rfl, rfl, by decide, by decide, rfl, by decide⟩

/-- Witness for the amended C7 theorem at a concrete arena. -/
theorem c7_witness : c7Store.bytesTruncate 9 = .ok c7Store :=
  c7_truncate_noop c7Store 9 (by decide)

end ChunksModel

namespace HeapModel

open ChunksModel
open RHStoreModel (uint64OfInt readBytesAt)

/-! ## Heap: the spillable min-heap (store/heap.go)

Slot `i` of the heap arena holds two little-endian uint64s
`(dataOffset, dataSize)` in bytes `[i*16, i*16+16)`; each data item is
stored with an 8-byte little-endian length prefix.  `Temp` is omitted
(scratch space). -/

/-- Go `binary.LittleEndian.Uint64` over the first 8 bytes. -/
def leGet (b : List Nat) : Nat :=
  (List.range 8).foldr (fun i acc => acc * 256 + b.getD i 0 % 256) 0

/-- Go `binary.LittleEndian.PutUint64`: the 8 little-endian bytes of `n`. -/
def lePut (n : Nat) : List Nat :=
  (List.range 8).map (fun i => n / 256 ^ i % 256)

structure Heap where
  lessFunc : List Nat → List Nat → Bool
  curItems : Int
  maxItems : Int
  heap : Chunks
  data : Chunks
  free : List (Nat × Nat)
  err : Option CErr

/-- Heap.Error: latch the first error encountered. -/
def Heap.errLatch (h : Heap) (e : CErr) : Heap :=
  if h.err = none then { h with err := some e } else h

/-- Heap.GetOffsetSize: read slot `i`, then the referenced data
record; returns the payload plus the record's offset and size, or
latches the error. -/
def Heap.getOffsetSize (h : Heap) (i : Int) : Heap × Option (List Nat × Nat × Nat) :=
  match h.heap.bytesRead (uint64OfInt (i * 16)) 16 with
  | .error e => (h.errLatch e, none)
  | .ok b =>
    let offset := leGet (b.take 8)
    let size := leGet (b.drop 8)
    match h.data.bytesRead offset size with
    | .error e => (h.errLatch e, none)
    | .ok bd =>
      let itemLen := leGet (bd.take 8)
      (h, some (((bd.drop 8).take itemLen), offset, size))

/-- Heap.Pop (the container/heap Interface method): read the last
slot, decrement the count, recycle the record on the free list. -/
def Heap.popGo (h : Heap) : Heap × Option (List Nat) :=
  match h.getOffsetSize (h.curItems - 1) with
  | (h1, none) => (h1, none)
  | (h1, some (rv, offset, size)) =>
    ({ h1 with
         curItems := h1.curItems - 1,
         free := h1.free ++ [(offset, size)] }, some rv)

/-! ### Claim C10: Pop on an empty heap -/

/-- C10: Pop on an empty heap (`CurItems = 0`, heap-arena chunk size
at least 16 as the heap requires, arena capacity below the address
space) does not corrupt state: reading slot `-1` turns into a read at
offset `2^64 - 16`, which fails the chunk bounds check; the error is
latched into `Err`, Pop returns nil, `CurItems` stays 0, and the free
list is unchanged. -/
theorem c10_pop_empty (h : Heap)
    (hcur : h.curItems = 0)
    (hcs : 16 ≤ h.heap.chunkSizeBytes)
    (hcap : h.heap.chunks.length * h.heap.chunkSizeBytes ≤ 2 ^ 64 - 16)
    (herr : h.err = none) :
    h.popGo = ({ h with err := some CErr.readPastChunks }, none) := by
  have hoff : uint64OfInt ((h.curItems - 1) * 16) = 2 ^ 64 - 16 := by
    rw [hcur]
    decide
  have hread : h.heap.bytesRead (uint64OfInt ((h.curItems - 1) * 16)) 16 =
      .error CErr.readPastChunks := by
    rw [hoff]
    simp only [Chunks.bytesRead]
    rw [if_neg (by omega)]
    have hq : h.heap.chunks.length ≤ (2 ^ 64 - 16) / h.heap.chunkSizeBytes :=
      (Nat.le_div_iff_mul_le (by omega)).mpr hcap
    have hq63 : (2 ^ 64 - 16) / h.heap.chunkSizeBytes < 2 ^ 63 := by
      have h1 : (2 ^ 64 - 16) / h.heap.chunkSizeBytes ≤ (2 ^ 64 - 16) / 16 :=
        Nat.div_le_div_left hcs (by omega)
      have h2 : (2 ^ 64 - 16) / 16 = 2 ^ 60 - 1 := by decide
      have h3 : (2 ^ 60 - 1 : Nat) < 2 ^ 63 := by decide
      omega
    rw [if_pos ?hc]
    case hc =>
      unfold intOfUInt64
      rw [if_pos hq63]
      exact_mod_cast hq
  unfold Heap.popGo Heap.getOffsetSize
  rw [hread]
  simp only
  unfold Heap.errLatch
  rw [if_pos herr]

/-- Witness for C10 at a concrete empty heap. -/
theorem c10_witness :
    Heap.popGo ⟨fun a b => decide (a < b), 0, 0, ⟨16, [⟨false, []⟩], 0⟩, ⟨16, [⟨false, []⟩], 0⟩, [], none⟩ =
      (⟨fun a b => decide (a < b), 0, 0, ⟨16, [⟨false, []⟩], 0⟩, ⟨16, [⟨false, []⟩], 0⟩, [],
        some CErr.readPastChunks⟩, none) := by
  exact c10_pop_empty _ rfl (by norm_num) (by norm_num) rfl

end HeapModel

